import Mathlib

/-!
# crumsort: a shallow embedding of `src/crumsort.c`

Elements are values of an arbitrary type `α`; the comparator is a function
`cmp : α → α → Int` (negative / zero / positive).  A C pointer into the array
is modelled by the list suffix it points at, together with integer offsets
relative to that suffix; every load and store is a partial operation that fails
(`none`) outside the list.  `size_t` values are natural numbers and every
subtraction that can wrap is taken modulo `2 ^ 64`.

The three external collaborators (`quadsort_swap`, `rotate_merge_block`,
`quad_reversal`) are not part of the source file under study: the first two are
parameters of the development, the third is modelled from its specification.
Every function returns, next to the memory it leaves, the list of calls it
issued, so that statements about which routine is invoked can be expressed.
-/

namespace Crumsort

/-! ## Memory primitives -/

/-- Conversion of an integer to `size_t`: reduction modulo `2 ^ 64`. -/
def size_t (x : Int) : Nat := (x % 2 ^ 64).toNat

/-- Load `a[i]`; fails outside `[0, a.length)`. -/
def rd {α : Type} (a : List α) (i : Int) : Option α :=
  if 0 ≤ i then a[i.toNat]? else none

/-- Store `a[i] = v`; fails outside `[0, a.length)`. -/
def wr {α : Type} (a : List α) (i : Int) (v : α) : Option (List α) :=
  if 0 ≤ i ∧ i.toNat < a.length then some (a.set i.toNat v) else none

/-- The call `memcpy(dst + d, src + s, len * sizeof(VAR))`. -/
def memcpy {α : Type} (dst : List α) (d : Int) (src : List α) (s : Int) (len : Nat) :
    Option (List α) :=
  if 0 ≤ s ∧ s.toNat + len ≤ src.length ∧ 0 ≤ d ∧ d.toNat + len ≤ dst.length then
    some (dst.take d.toNat ++ (src.drop s.toNat).take len ++ dst.drop (d.toNat + len))
  else none

/-- The subrange `a[off .. off + len)`; fails when it does not lie inside `a`. -/
def slice {α : Type} (a : List α) (off len : Nat) : Option (List α) :=
  if off + len ≤ a.length then some ((a.drop off).take len) else none

/-- Put `r` back in place of `a[off .. off + len)`. -/
def splice {α : Type} (a : List α) (off len : Nat) (r : List α) : List α :=
  a.take off ++ r ++ a.drop (off + len)

/-- A counted loop `for (i = n ; i ; i--) body`. -/
def iterate {σ : Type} (f : σ → Option σ) : Nat → σ → Option σ
  | 0, s => some s
  | n + 1, s => (f s).bind (iterate f n)

/-! ## Calls and collaborators -/

/-- The routine that issued a `quadsort_swap` call. -/
inductive Site
  | crumsort
  | crumsort_swap
  | crum_analyze
  | fulcrum_partition
  | crum_median_of_cbrt
  deriving DecidableEq, Repr

/-- One call issued during a run, with the sizes it was given. -/
inductive Call
  | quadsort_swap (site : Site) (swap_size nmemb : Nat)
  | quad_reversal (lo hi : Nat)
  | rotate_merge_block (off left right : Nat)
  | crum_analyze (nmemb : Nat)
  | fulcrum_partition (nmemb : Nat)
  | fulcrum_default_partition (nmemb : Nat)
  | fulcrum_reverse_partition (nmemb : Nat)
  | crum_median_of_cbrt (nmemb : Nat)
  deriving DecidableEq, Repr

/-- The external collaborators, for a fixed comparator.  Each receives exactly the
range it is allowed to touch and the scratch buffer, and returns both. -/
structure Ext (α : Type) where
  /-- `quadsort_swap(array, swap, swap_size, nmemb, cmp)` on `array[0 .. nmemb)`. -/
  quadsort_swap : List α → List α → Nat → List α × List α
  /-- `rotate_merge_block(array, swap, swap_size, left, right, cmp)` on
  `array[0 .. left + right)`. -/
  rotate_merge_block : List α → List α → Nat → Nat → Nat → List α × List α

/-- Modelled from the spec: `quad_reversal(lo, hi)` is not in the source file; the
specification says it reverses the inclusive range `[lo, hi]` in place. -/
def quad_reversal {α : Type} (a : List α) (lo hi : Nat) : Option (List α) :=
  if lo ≤ hi ∧ hi < a.length then
    some (a.take lo ++ ((a.drop lo).take (hi + 1 - lo)).reverse ++ a.drop (hi + 1))
  else none

/-- A run's result: the array, the scratch buffer and the calls issued. -/
abbrev Run (α : Type) := Option (List α × List α × List Call)

/-- Run `quadsort_swap` on `array[off .. off + nmemb)`. -/
def call_quadsort {α : Type} (ext : Ext α) (site : Site) (array swap : List α)
    (off swap_size nmemb : Nat) : Run α :=
  (slice array off nmemb).bind fun r =>
    let out := ext.quadsort_swap r swap swap_size
    some (splice array off nmemb out.1, out.2, [Call.quadsort_swap site swap_size nmemb])

/-- Run `rotate_merge_block` on `array[off .. off + left + right)`. -/
def call_rotate_merge {α : Type} (ext : Ext α) (array swap : List α)
    (off swap_size left right : Nat) : Run α :=
  (slice array off (left + right)).bind fun r =>
    let out := ext.rotate_merge_block r swap swap_size left right
    some (splice array off (left + right) out.1, out.2,
      [Call.rotate_merge_block off left right])

/-! ## The partition kernels (`fulcrum_default_partition`, `fulcrum_reverse_partition`) -/

/-- The registers of a partition pass.  `ptl` is the array base (offset 0);
`ptr`, `pta` and `tpa` are offsets from it (`pta` is an offset into the scratch
buffer during the final drain).  `gaps` is a ghost history: the exact integer value
of `pta - ptl - m` after every element taken from the array, most recent first. -/
structure Fulcrum (α : Type) where
  array : List α
  m : Nat
  ptr : Int
  pta : Int
  tpa : Int
  gaps : List Int

/-- Line 310: `val = cmp(pta, piv) <= 0; ptl[m] = ptr[m] = *pta++; m += val; ptr--;` -/
def default_pta {α : Type} (cmp : α → α → Int) (piv : α) (s : Fulcrum α) :
    Option (Fulcrum α) :=
  (rd s.array s.pta).bind fun e =>
  (wr s.array (s.ptr + s.m) e).bind fun a1 =>
  (wr a1 s.m e).bind fun a2 =>
  some { s with array := a2, m := s.m + (if cmp e piv ≤ 0 then 1 else 0),
                ptr := s.ptr - 1, pta := s.pta + 1,
                gaps := (s.pta + 1 - 0 - (s.m + (if cmp e piv ≤ 0 then 1 else 0) : Nat)) :: s.gaps }

/-- Line 319: `val = cmp(tpa, piv) <= 0; ptl[m] = ptr[m] = *tpa--; m += val; ptr--;` -/
def default_tpa {α : Type} (cmp : α → α → Int) (piv : α) (s : Fulcrum α) :
    Option (Fulcrum α) :=
  (rd s.array s.tpa).bind fun e =>
  (wr s.array (s.ptr + s.m) e).bind fun a1 =>
  (wr a1 s.m e).bind fun a2 =>
  some { s with array := a2, m := s.m + (if cmp e piv ≤ 0 then 1 else 0),
                ptr := s.ptr - 1, tpa := s.tpa - 1,
                gaps := (s.pta - 0 - (s.m + (if cmp e piv ≤ 0 then 1 else 0) : Nat)) :: s.gaps }

/-- Lines 342-345, with `pta` walking the scratch buffer. -/
def default_swap {α : Type} (cmp : α → α → Int) (piv : α) (swap : List α) (s : Fulcrum α) :
    Option (Fulcrum α) :=
  (rd swap s.pta).bind fun e =>
  (wr s.array (s.ptr + s.m) e).bind fun a1 =>
  (wr a1 s.m e).bind fun a2 =>
  some { s with array := a2, m := s.m + (if cmp e piv ≤ 0 then 1 else 0),
                ptr := s.ptr - 1, pta := s.pta + 1 }

/-- The `while (1)` loop of lines 302-322.  Every pass either breaks or decrements
`cnt`, so `cnt + 1` passes always suffice; `fuel` bounds the number of passes. -/
def default_loop {α : Type} (cmp : α → α → Int) (piv : α) :
    Nat → Nat → Fulcrum α → Option (Fulcrum α)
  | 0, _, _ => none
  | fuel + 1, cnt, s =>
    if size_t (s.pta - 0 - s.m) ≤ 48 then
      if cnt = 0 then some s
      else
        (iterate (default_pta cmp piv) 16 s).bind fun s1 =>
        if size_t (s1.pta - 0 - s1.m) ≥ 16 then
          if cnt - 1 = 0 then some s1
          else (iterate (default_tpa cmp piv) 16 s1).bind fun s2 =>
            default_loop cmp piv fuel (cnt - 1 - 1) s2
        else default_loop cmp piv fuel (cnt - 1) s1
    else if size_t (s.pta - 0 - s.m) ≥ 16 then
      if cnt = 0 then some s
      else (iterate (default_tpa cmp piv) 16 s).bind fun s2 =>
        default_loop cmp piv fuel (cnt - 1) s2
    else default_loop cmp piv fuel cnt s

/-- `fulcrum_default_partition(array, swap, ptx, piv, swap_size, nmemb, cmp)`:
returns `m`, the array, the scratch buffer and the ghost history of the gap. -/
def fulcrum_default_partition {α : Type} (cmp : α → α → Int) (array swap : List α)
    (piv : α) (nmemb : Nat) : Option (Nat × List α × List α × List Int) :=
  (memcpy swap 0 array 0 32).bind fun swap1 =>
  (memcpy swap1 32 array ((nmemb : Int) - 32) 32).bind fun swap2 =>
  let cnt := size_t ((nmemb / 16 : Nat) - 4)
  let s0 : Fulcrum α :=
    { array := array, m := 0, ptr := (nmemb : Int) - 1, pta := 32, tpa := (nmemb : Int) - 33,
      gaps := [32] }
  (default_loop cmp piv (cnt + 1) cnt s0).bind fun s1 =>
  (if size_t (s1.pta - 0 - s1.m) ≤ 48 then iterate (default_pta cmp piv) (nmemb % 16) s1
   else iterate (default_tpa cmp piv) (nmemb % 16) s1).bind fun s2 =>
  (iterate (default_swap cmp piv swap2) (16 * 4) { s2 with pta := 0 }).bind fun s3 =>
  some (s3.m, s3.array, swap2, s3.gaps)

/-- Line 376: `val = cmp(piv, pta) > 0; ptl[m] = ptr[m] = *pta++; m += val; ptr--;` -/
def reverse_pta {α : Type} (cmp : α → α → Int) (piv : α) (s : Fulcrum α) :
    Option (Fulcrum α) :=
  (rd s.array s.pta).bind fun e =>
  (wr s.array (s.ptr + s.m) e).bind fun a1 =>
  (wr a1 s.m e).bind fun a2 =>
  some { s with array := a2, m := s.m + (if cmp piv e > 0 then 1 else 0),
                ptr := s.ptr - 1, pta := s.pta + 1,
                gaps := (s.pta + 1 - 0 - (s.m + (if cmp piv e > 0 then 1 else 0) : Nat)) :: s.gaps }

/-- Line 385: `val = cmp(piv, tpa) > 0; ptl[m] = ptr[m] = *tpa--; m += val; ptr--;` -/
def reverse_tpa {α : Type} (cmp : α → α → Int) (piv : α) (s : Fulcrum α) :
    Option (Fulcrum α) :=
  (rd s.array s.tpa).bind fun e =>
  (wr s.array (s.ptr + s.m) e).bind fun a1 =>
  (wr a1 s.m e).bind fun a2 =>
  some { s with array := a2, m := s.m + (if cmp piv e > 0 then 1 else 0),
                ptr := s.ptr - 1, tpa := s.tpa - 1,
                gaps := (s.pta - 0 - (s.m + (if cmp piv e > 0 then 1 else 0) : Nat)) :: s.gaps }

/-- Lines 408-411, with `pta` walking the scratch buffer. -/
def reverse_swap {α : Type} (cmp : α → α → Int) (piv : α) (swap : List α) (s : Fulcrum α) :
    Option (Fulcrum α) :=
  (rd swap s.pta).bind fun e =>
  (wr s.array (s.ptr + s.m) e).bind fun a1 =>
  (wr a1 s.m e).bind fun a2 =>
  some { s with array := a2, m := s.m + (if cmp piv e > 0 then 1 else 0),
                ptr := s.ptr - 1, pta := s.pta + 1 }

/-- The `while (1)` loop of lines 368-388. -/
def reverse_loop {α : Type} (cmp : α → α → Int) (piv : α) :
    Nat → Nat → Fulcrum α → Option (Fulcrum α)
  | 0, _, _ => none
  | fuel + 1, cnt, s =>
    if size_t (s.pta - 0 - s.m) ≤ 48 then
      if cnt = 0 then some s
      else
        (iterate (reverse_pta cmp piv) 16 s).bind fun s1 =>
        if size_t (s1.pta - 0 - s1.m) ≥ 16 then
          if cnt - 1 = 0 then some s1
          else (iterate (reverse_tpa cmp piv) 16 s1).bind fun s2 =>
            reverse_loop cmp piv fuel (cnt - 1 - 1) s2
        else reverse_loop cmp piv fuel (cnt - 1) s1
    else if size_t (s.pta - 0 - s.m) ≥ 16 then
      if cnt = 0 then some s
      else (iterate (reverse_tpa cmp piv) 16 s).bind fun s2 =>
        reverse_loop cmp piv fuel (cnt - 1) s2
    else reverse_loop cmp piv fuel cnt s

/-- `fulcrum_reverse_partition(array, swap, ptx, piv, swap_size, nmemb, cmp)`:
returns `m`, the array, the scratch buffer and the ghost history of the gap. -/
def fulcrum_reverse_partition {α : Type} (cmp : α → α → Int) (array swap : List α)
    (piv : α) (nmemb : Nat) : Option (Nat × List α × List α × List Int) :=
  (memcpy swap 0 array 0 32).bind fun swap1 =>
  (memcpy swap1 32 array ((nmemb : Int) - 32) 32).bind fun swap2 =>
  let cnt := size_t ((nmemb / 16 : Nat) - 4)
  let s0 : Fulcrum α :=
    { array := array, m := 0, ptr := (nmemb : Int) - 1, pta := 32, tpa := (nmemb : Int) - 33,
      gaps := [32] }
  (reverse_loop cmp piv (cnt + 1) cnt s0).bind fun s1 =>
  (if size_t (s1.pta - 0 - s1.m) ≤ 48 then iterate (reverse_pta cmp piv) (nmemb % 16) s1
   else iterate (reverse_tpa cmp piv) (nmemb % 16) s1).bind fun s2 =>
  (iterate (reverse_swap cmp piv swap2) (16 * 4) { s2 with pta := 0 }).bind fun s3 =>
  some (s3.m, s3.array, swap2, s3.gaps)

/-! ## Pivot selection -/

/-- `crum_binary_median(pta, ptb, len, cmp)` with both pointers into `array`:
`while (len /= 2) ...`, at most `fuel` halvings. -/
def crum_binary_median {α : Type} (cmp : α → α → Int) (array : List α) :
    Nat → Nat → Nat → Nat → Option Nat
  | 0, _, _, _ => none
  | fuel + 1, pta, ptb, len =>
    if len / 2 = 0 then
      (rd array pta).bind fun a => (rd array ptb).bind fun b =>
        some (if cmp a b > 0 then pta else ptb)
    else
      (rd array ((pta + len / 2 : Nat) : Int)).bind fun a =>
      (rd array ((ptb + len / 2 : Nat) : Int)).bind fun b =>
        if cmp a b ≤ 0 then crum_binary_median cmp array fuel (pta + len / 2) ptb (len / 2)
        else crum_binary_median cmp array fuel pta (ptb + len / 2) (len / 2)

/-- The loop `for (cbrt = 32 ; nmemb > cbrt * cbrt * cbrt && cbrt < swap_size ; cbrt *= 2)`. -/
def cbrt_loop (swap_size nmemb : Nat) : Nat → Nat → Option Nat
  | 0, _ => none
  | fuel + 1, cbrt =>
    if nmemb > cbrt * cbrt * cbrt % 2 ^ 64 ∧ cbrt < swap_size then
      cbrt_loop swap_size nmemb fuel (cbrt * 2 % 2 ^ 64)
    else some cbrt

/-- The sample exchange of lines 246-251:
`swap[0] = *--piv; *piv = *pta; *pta = swap[0]; pta -= div;`, `cnt` times. -/
def cbrt_exchange {α : Type} (div : Nat) :
    Nat → List α → List α → Int → Int → Option (List α × List α)
  | 0, array, swap, _, _ => some (array, swap)
  | cnt + 1, array, swap, piv, pta =>
    (rd array (piv - 1)).bind fun x =>
    (wr swap 0 x).bind fun swap1 =>
    (rd array pta).bind fun y =>
    (wr array (piv - 1) y).bind fun a1 =>
    (rd swap1 0).bind fun z =>
    (wr a1 pta z).bind fun a2 =>
    cbrt_exchange div cnt a2 swap1 (piv - 1) (pta - div)

/-- `crum_median_of_cbrt(array, swap, swap_size, nmemb, &generic, cmp)`; `addr` is the
value of `(size_t) &div`.  Returns the offset of the pivot, the flag `generic`, and
the memory and calls. -/
def crum_median_of_cbrt {α : Type} (ext : Ext α) (cmp : α → α → Int) (addr : Nat)
    (array swap : List α) (swap_size nmemb : Nat) :
    Option (Nat × Bool × List α × List α × List Call) :=
  (cbrt_loop swap_size nmemb 64 32).bind fun cbrt =>
  let div := nmemb / cbrt
  if cbrt = 0 ∨ div = 0 then none else
  (cbrt_exchange div cbrt array swap (cbrt : Int)
      ((nmemb : Int) - 1 - ((addr / 64 % div : Nat) : Int))).bind fun r1 =>
  let half := cbrt / 2
  (call_quadsort ext Site.crum_median_of_cbrt r1.1 r1.2 0 swap_size half).bind fun r2 =>
  (call_quadsort ext Site.crum_median_of_cbrt r2.1 r2.2.1 half swap_size half).bind fun r3 =>
  (rd r3.1 ((half * 2 : Nat) - 1)).bind fun hi =>
  (rd r3.1 0).bind fun lo =>
  (rd r3.1 ((half : Nat) - 1)).bind fun mid =>
  let generic := decide (cmp hi lo ≤ 0) && decide (cmp mid lo ≤ 0)
  (crum_binary_median cmp r3.1 (half + 1) 0 half half).bind fun ptp =>
  some (ptp, generic, r3.1, r3.2.1, r2.2.2 ++ r3.2.2)

/-- `crum_median_of_three(array, v0, v1, v2, cmp)`. -/
def crum_median_of_three {α : Type} (cmp : α → α → Int) (array : List α) (v0 v1 v2 : Nat) :
    Option Nat :=
  (rd array v0).bind fun a0 =>
  (rd array v1).bind fun a1 =>
  (rd array v2).bind fun a2 =>
  let x : Nat := if cmp a0 a1 > 0 then 1 else 0
  let y : Nat := if cmp a0 a2 > 0 then 1 else 0
  let z : Nat := if cmp a1 a2 > 0 then 1 else 0
  [v0, v1, v2][(if x = y then 1 else 0) + (y ^^^ z)]?

/-- `crum_median_of_nine(array, nmemb, cmp)`, as an offset into `array`. -/
def crum_median_of_nine {α : Type} (cmp : α → α → Int) (array : List α) (nmemb : Nat) :
    Option Nat :=
  let div := nmemb / 16
  (crum_median_of_three cmp array (div * 2) (div * 1) (div * 4)).bind fun x =>
  (crum_median_of_three cmp array (div * 8) (div * 6) (div * 10)).bind fun y =>
  (crum_median_of_three cmp array (div * 14) (div * 12) (div * 15)).bind fun z =>
  crum_median_of_three cmp array x y z

/-! ## The partitioner (`fulcrum_partition`) -/

/-- `#define CRUM_AUX 512` -/
def CRUM_AUX : Nat := 512

/-- `#define CRUM_OUT 96` -/
def CRUM_OUT : Nat := 96

/-- Prefix the calls issued so far to the calls of the rest of a run. -/
def Run.pre {α : Type} (calls : List Call) (r : Run α) : Run α :=
  r.bind fun x => some (x.1, x.2.1, calls ++ x.2.2)

/-- Sequencing of two runs on the same array and scratch buffer. -/
def Run.next {α : Type} (r : Run α) (f : List α → List α → Run α) : Run α :=
  r.bind fun x => Run.pre x.2.2 (f x.1 x.2.1)

/-- Run `f` on the suffix `array + off` and put its result back behind `array[0 .. off)`. -/
def at_offset {α : Type} (array : List α) (off : Nat) (f : List α → Run α) : Run α :=
  (f (array.drop off)).bind fun x => some (array.take off ++ x.1, x.2.1, x.2.2)

/-- Lines 454-461: what is done with the right side `array[a_size + 1 ..]` of `s_size`
elements after a default partition; `self` is the recursive call. -/
def fulcrum_right {α : Type} (ext : Ext α) (self : List α → List α → Option α → Nat → Run α)
    (array swap : List α) (max : Option α) (swap_size a_size s_size : Nat) : Run α :=
  if a_size ≤ s_size / 32 ∨ s_size ≤ CRUM_OUT then
    call_quadsort ext Site.fulcrum_partition array swap (a_size + 1) swap_size s_size
  else
    Run.pre [Call.fulcrum_partition s_size]
      (at_offset array (a_size + 1) fun right => self right swap max s_size)

/-- `fulcrum_partition(array, swap, max, swap_size, nmemb, cmp)`.  One unit of `fuel`
is spent per pass of the `while (1)` loop and per recursive call; `max` is carried as
the value it points at (a slot outside `array[0 .. nmemb)`, which the call never
writes); `addr depth` is the value of `(size_t) &div` in `crum_median_of_cbrt` when it
is entered from recursion depth `depth`. -/
def fulcrum_partition {α : Type} (ext : Ext α) (cmp : α → α → Int) (addr : Nat → Nat)
    (swap_size : Nat) : Nat → Nat → List α → List α → Option α → Nat → Run α
  | 0, _, _, _, _, _ => none
  | fuel + 1, depth, array, swap, max, nmemb =>
    -- lines 424-433
    (if nmemb ≤ 2048 then
      (crum_median_of_nine cmp array nmemb).bind fun ptp =>
        some (ptp, false, array, swap, [])
    else
      crum_median_of_cbrt ext cmp (addr depth) array swap swap_size nmemb).bind fun p =>
    if p.2.1 then
      Run.pre p.2.2.2.2
        (call_quadsort ext Site.fulcrum_partition p.2.2.1 p.2.2.2.1 0 swap_size nmemb)
    else
    -- line 434
    (rd p.2.2.1 p.1).bind fun piv =>
    if (match max with | some mx => decide (cmp mx piv ≤ 0) | none => false) then
      -- lines 438-445
      (fulcrum_reverse_partition cmp p.2.2.1 p.2.2.2.1 piv nmemb).bind fun q =>
      let a_size := q.1
      let s_size := size_t ((nmemb : Int) - a_size)
      Run.pre (p.2.2.2.2 ++ [Call.fulcrum_reverse_partition nmemb])
        (if s_size ≤ a_size / 32 ∨ a_size ≤ CRUM_OUT then
          call_quadsort ext Site.fulcrum_partition q.2.1 q.2.2.1 0 swap_size a_size
        else fulcrum_partition ext cmp addr swap_size fuel depth q.2.1 q.2.2.1 none a_size)
    else
      -- line 447
      let nmemb1 := size_t ((nmemb : Int) - 1)
      (rd p.2.2.1 nmemb1).bind fun last =>
      (wr p.2.2.1 p.1 last).bind fun array1 =>
      -- lines 449-452
      (fulcrum_default_partition cmp array1 p.2.2.2.1 piv nmemb1).bind fun q =>
      let a_size := q.1
      let s_size := size_t ((nmemb1 : Int) - a_size)
      (rd q.2.1 a_size).bind fun x =>
      (wr q.2.1 nmemb1 x).bind fun array2 =>
      (wr array2 a_size piv).bind fun array3 =>
      Run.pre (p.2.2.2.2 ++ [Call.fulcrum_default_partition nmemb1])
      -- lines 454-461
      (Run.next
        (fulcrum_right ext (fulcrum_partition ext cmp addr swap_size fuel (depth + 1))
          array3 q.2.2.1 max swap_size a_size s_size)
        fun array4 swap4 =>
        -- lines 462-477
        if s_size ≤ a_size / 32 ∨ a_size ≤ CRUM_OUT then
          if a_size ≤ CRUM_OUT then
            call_quadsort ext Site.fulcrum_partition array4 swap4 0 swap_size a_size
          else
            (fulcrum_reverse_partition cmp array4 swap4 piv a_size).bind fun q2 =>
            let a_size2 := q2.1
            let s_size2 := size_t ((a_size : Int) - a_size2)
            Run.pre [Call.fulcrum_reverse_partition a_size]
              (if s_size2 ≤ a_size2 / 32 ∨ a_size2 ≤ CRUM_OUT then
                call_quadsort ext Site.fulcrum_partition q2.2.1 q2.2.2.1 0 swap_size a_size2
              else
                fulcrum_partition ext cmp addr swap_size fuel depth q2.2.1 q2.2.2.1 none a_size2)
        else
          fulcrum_partition ext cmp addr swap_size fuel depth array4 swap4 (some piv) a_size)

/-! ## The analyzer (`crum_analyze`) -/

/-- What the source file leaves to the header that includes it. -/
structure Config where
  /-- `#ifdef cmp`: the comparator is a macro (type-specialised build). -/
  cmp_macro : Bool
  /-- The constant `QUAD_CACHE`, used only when `cmp` is not a macro. -/
  QUAD_CACHE : Nat

/-- The registers of the scan (lines 10-29).  `skips` is a ghost counter of how often
the block of lines 47-51 ran. -/
structure Scan where
  pta : Nat
  ptb : Nat
  ptc : Nat
  ptd : Nat
  abalance : Nat
  bbalance : Nat
  cbalance : Nat
  dbalance : Nat
  astreaks : Nat
  bstreaks : Nat
  cstreaks : Nat
  dstreaks : Nat
  cnt : Nat
  skips : Nat
  deriving DecidableEq, Repr

/-- The per-block sums `asum .. dsum`. -/
structure Sums where
  asum : Nat
  bsum : Nat
  csum : Nat
  dsum : Nat
  deriving DecidableEq, Repr

/-- The value of `cmp(p, p + 1) > 0`, as 0 or 1. -/
def descending {α : Type} (cmp : α → α → Int) (array : List α) (p : Nat) : Option Nat :=
  (rd array p).bind fun a => (rd array ((p : Int) + 1)).bind fun b =>
    some (if cmp a b > 0 then 1 else 0)

/-- Lines 35-38: one round of the inner loop. -/
def scan_step {α : Type} (cmp : α → α → Int) (array : List α) (x : Scan × Sums) :
    Option (Scan × Sums) :=
  (descending cmp array x.1.pta).bind fun a =>
  (descending cmp array x.1.ptb).bind fun b =>
  (descending cmp array x.1.ptc).bind fun c =>
  (descending cmp array x.1.ptd).bind fun d =>
  some ({ x.1 with pta := x.1.pta + 1, ptb := x.1.ptb + 1, ptc := x.1.ptc + 1,
                   ptd := x.1.ptd + 1 },
        { asum := x.2.asum + a, bsum := x.2.bsum + b, csum := x.2.csum + c,
          dsum := x.2.dsum + d })

/-- `(sum == 0) | (sum == 32)` -/
def streak (sum : Nat) : Nat := if sum = 0 ∨ sum = 32 then 1 else 0

/-- Lines 33-52 followed by the `cnt -= 128` of the loop header: one pass of the
block loop. -/
def scan_block {α : Type} (cmp : α → α → Int) (array : List α) (s : Scan) : Option Scan :=
  (iterate (scan_step cmp array) 32 (s, ⟨0, 0, 0, 0⟩)).bind fun x =>
  let s1 : Scan :=
    { x.1 with
      abalance := x.1.abalance + x.2.asum,
      astreaks := (x.1.astreaks + streak x.2.asum) % 2 ^ 32,
      bbalance := x.1.bbalance + x.2.bsum,
      bstreaks := (x.1.bstreaks + streak x.2.bsum) % 2 ^ 32,
      cbalance := x.1.cbalance + x.2.csum,
      cstreaks := (x.1.cstreaks + streak x.2.csum) % 2 ^ 32,
      dbalance := x.1.dbalance + x.2.dsum,
      dstreaks := (x.1.dstreaks + streak x.2.dsum) % 2 ^ 32 }
  if s1.cnt > 516 ∧
      streak x.2.asum + streak x.2.bsum + streak x.2.csum + streak x.2.dsum = 0 then
    some { s1 with
      abalance := s1.abalance + 48, pta := s1.pta + 96,
      bbalance := s1.bbalance + 48, ptb := s1.ptb + 96,
      cbalance := s1.cbalance + 48, ptc := s1.ptc + 96,
      dbalance := s1.dbalance + 48, ptd := s1.ptd + 96,
      cnt := s1.cnt - 384 - 128, skips := s1.skips + 1 }
  else some { s1 with cnt := s1.cnt - 128 }

/-- Lines 31-53: `for (cnt = nmemb ; cnt > 132 ; cnt -= 128)`. -/
def scan_blocks {α : Type} (cmp : α → α → Int) (array : List α) : Nat → Scan → Option Scan
  | 0, _ => none
  | fuel + 1, s =>
    if s.cnt > 132 then (scan_block cmp array s).bind (scan_blocks cmp array fuel)
    else some s

/-- Lines 55-61: `for ( ; cnt > 7 ; cnt -= 4)`. -/
def scan_tail {α : Type} (cmp : α → α → Int) (array : List α) : Nat → Scan → Option Scan
  | 0, _ => none
  | fuel + 1, s =>
    if s.cnt > 7 then
      (descending cmp array s.pta).bind fun a =>
      (descending cmp array s.ptb).bind fun b =>
      (descending cmp array s.ptc).bind fun c =>
      (descending cmp array s.ptd).bind fun d =>
      scan_tail cmp array fuel
        { s with abalance := s.abalance + a, pta := s.pta + 1,
                 bbalance := s.bbalance + b, ptb := s.ptb + 1,
                 cbalance := s.cbalance + c, ptc := s.ptc + 1,
                 dbalance := s.dbalance + d, ptd := s.ptd + 1,
                 cnt := s.cnt - 4 }
    else some s

/-- Lines 16-65 of `crum_analyze`: the block scan, the tail scan and the three
conditional extra comparisons. -/
def crum_scan {α : Type} (cmp : α → α → Int) (array : List α) (nmemb : Nat) : Option Scan :=
  let half1 := nmemb / 2
  let quad1 := half1 / 2
  let quad2 := half1 - quad1
  let half2 := nmemb - half1
  let quad3 := half2 / 2
  let quad4 := half2 - quad3
  let s0 : Scan :=
    { pta := 0, ptb := quad1, ptc := half1, ptd := half1 + quad3,
      abalance := 0, bbalance := 0, cbalance := 0, dbalance := 0,
      astreaks := 0, bstreaks := 0, cstreaks := 0, dstreaks := 0,
      cnt := nmemb, skips := 0 }
  (scan_blocks cmp array nmemb s0).bind fun s1 =>
  (scan_tail cmp array nmemb s1).bind fun s2 =>
  (if quad1 < quad2 then
    (descending cmp array s2.ptb).bind fun b =>
      some { s2 with bbalance := s2.bbalance + b, ptb := s2.ptb + 1 }
   else some s2).bind fun s3 =>
  (if quad1 < quad3 then
    (descending cmp array s3.ptc).bind fun c =>
      some { s3 with cbalance := s3.cbalance + c, ptc := s3.ptc + 1 }
   else some s3).bind fun s4 =>
  (if quad1 < quad4 then
    (descending cmp array s4.ptd).bind fun d =>
      some { s4 with dbalance := s4.dbalance + d, ptd := s4.ptd + 1 }
   else some s4)

/-- Lines 67-75: the test of the fast exit (`true` when the function returns there). -/
def crum_fast_exit {α : Type} (cmp : α → α → Int) (array : List α) (s : Scan) : Option Bool :=
  if s.abalance + s.bbalance + s.cbalance + s.dbalance = 0 then
    (descending cmp array s.pta).bind fun a =>
    if a = 0 then
      (descending cmp array s.ptb).bind fun b =>
      if b = 0 then
        (descending cmp array s.ptc).bind fun c => some (decide (c = 0))
      else some false
    else some false
  else some false

/-- One of the four conditional reversals of lines 101-104. -/
def reverse_quadrant {α : Type} (sum : Bool) (balance lo hi : Nat)
    (x : List α × List Call) : Option (List α × List Call × Nat) :=
  if sum ∧ balance ≠ 0 then
    (quad_reversal x.1 lo hi).bind fun a => some (a, x.2 ++ [Call.quad_reversal lo hi], 0)
  else some (x.1, x.2, balance)

/-- Lines 84-88: the value `span1 | span2 * 2 | span3 * 4` the `switch` is taken on;
`a`, `b`, `c` are the values of `cmp(pta, pta + 1) > 0`, `cmp(ptb, ptb + 1) > 0` and
`cmp(ptc, ptc + 1) > 0`. -/
def span_key (asum bsum csum dsum : Bool) (a b c : Nat) : Nat :=
  let span1 := (if asum && bsum then 1 else 0) * a
  let span2 := (if bsum && csum then 1 else 0) * b
  let span3 := (if csum && dsum then 1 else 0) * c
  span1 ||| span2 * 2 ||| span3 * 4

/-- Lines 88-99: the `switch` on the key; returns the array, the registers with the
balances it clears, the calls, and whether the function returned at `case 7`. -/
def reverse_spans {α : Type} (array : List α) (s : Scan) (key : Nat) :
    Option (List α × Scan × List Call × Bool) :=
  match key with
  | 0 => some (array, s, [], false)
  | 1 => (quad_reversal array 0 s.ptb).bind fun r =>
      some (r, { s with abalance := 0, bbalance := 0 }, [Call.quad_reversal 0 s.ptb], false)
  | 2 => (quad_reversal array (s.pta + 1) s.ptc).bind fun r =>
      some (r, { s with bbalance := 0, cbalance := 0 },
        [Call.quad_reversal (s.pta + 1) s.ptc], false)
  | 3 => (quad_reversal array 0 s.ptc).bind fun r =>
      some (r, { s with abalance := 0, bbalance := 0, cbalance := 0 },
        [Call.quad_reversal 0 s.ptc], false)
  | 4 => (quad_reversal array (s.ptb + 1) s.ptd).bind fun r =>
      some (r, { s with cbalance := 0, dbalance := 0 },
        [Call.quad_reversal (s.ptb + 1) s.ptd], false)
  | 5 => (quad_reversal array 0 s.ptb).bind fun r1 =>
      (quad_reversal r1 (s.ptb + 1) s.ptd).bind fun r =>
      some (r, { s with abalance := 0, bbalance := 0, cbalance := 0, dbalance := 0 },
        [Call.quad_reversal 0 s.ptb, Call.quad_reversal (s.ptb + 1) s.ptd], false)
  | 6 => (quad_reversal array (s.pta + 1) s.ptd).bind fun r =>
      some (r, { s with bbalance := 0, cbalance := 0, dbalance := 0 },
        [Call.quad_reversal (s.pta + 1) s.ptd], false)
  | _ => (quad_reversal array 0 s.ptd).bind fun r =>
      some (r, s, [Call.quad_reversal 0 s.ptd], true)

/-- Lines 101-104: the four conditional reversals of single quadrants; `s0` holds the
cursors, `x` the state left by the `switch`. -/
def reverse_quadrants {α : Type} (asum bsum csum dsum : Bool) (s0 : Scan)
    (x : List α × Scan × List Call × Bool) : Option (List α × Scan × List Call × Bool) :=
  (reverse_quadrant asum x.2.1.abalance 0 s0.pta (x.1, x.2.2.1)).bind fun ra =>
  (reverse_quadrant bsum x.2.1.bbalance (s0.pta + 1) s0.ptb (ra.1, ra.2.1)).bind fun rb =>
  (reverse_quadrant csum x.2.1.cbalance (s0.ptb + 1) s0.ptc (rb.1, rb.2.1)).bind fun rc =>
  (reverse_quadrant dsum x.2.1.dbalance (s0.ptc + 1) s0.ptd (rc.1, rc.2.1)).bind fun rd =>
  some (rd.1, { x.2.1 with abalance := ra.2.2, bbalance := rb.2.2, cbalance := rc.2.2,
                           dbalance := rd.2.2 }, rd.2.1, false)

/-- Lines 77-105: the reversal of descending quadrants.  Returns the array, the
updated registers, the calls, and whether the function returned at `case 7`. -/
def crum_reverse {α : Type} (cmp : α → α → Int) (array : List α) (s : Scan)
    (quad1 quad2 quad3 quad4 : Nat) : Option (List α × Scan × List Call × Bool) :=
  let asum := decide (size_t ((quad1 : Int) - s.abalance) = 1)
  let bsum := decide (size_t ((quad2 : Int) - s.bbalance) = 1)
  let csum := decide (size_t ((quad3 : Int) - s.cbalance) = 1)
  let dsum := decide (size_t ((quad4 : Int) - s.dbalance) = 1)
  if asum || bsum || csum || dsum then
    (descending cmp array s.pta).bind fun a =>
    (descending cmp array s.ptb).bind fun b =>
    (descending cmp array s.ptc).bind fun c =>
    (reverse_spans array s (span_key asum bsum csum dsum a b c)).bind fun x =>
    if x.2.2.2 then some x else reverse_quadrants asum bsum csum dsum s x
  else some (array, s, [], false)

/-- The guarded call `if (balance) quadsort_swap(array + off, swap, swap_size, nmemb, cmp)`. -/
def sort_if {α : Type} (ext : Ext α) (balance : Nat) (array swap : List α)
    (off swap_size nmemb : Nat) : Run α :=
  if balance ≠ 0 then call_quadsort ext Site.crum_analyze array swap off swap_size nmemb
  else some (array, swap, [])

/-- The call `fulcrum_partition(array + off, swap, NULL, swap_size, nmemb, cmp)` issued by
the analyzer. -/
def call_partition {α : Type} (ext : Ext α) (cmp : α → α → Int) (addr : Nat → Nat)
    (array swap : List α) (off swap_size nmemb : Nat) : Run α :=
  Run.pre [Call.fulcrum_partition nmemb]
    (at_offset array off fun a =>
      fulcrum_partition ext cmp addr swap_size (nmemb + 1) 0 a swap none nmemb)

/-- Lines 174-193: the per-quadrant strategy (`case 5 ... case 15` and `quad_cache`). -/
def crum_quadrants {α : Type} (ext : Ext α) (cmp : α → α → Int) (addr : Nat → Nat)
    (array swap : List α) (swap_size : Nat) (s : Scan) (asum bsum csum dsum : Bool)
    (quad1 quad2 quad3 quad4 : Nat) : Run α :=
  Run.next
    (if asum then sort_if ext s.abalance array swap 0 swap_size quad1
     else call_partition ext cmp addr array swap 0 swap_size quad1) fun array1 swap1 =>
  Run.next
    (if bsum then sort_if ext s.bbalance array1 swap1 (s.pta + 1) swap_size quad2
     else call_partition ext cmp addr array1 swap1 (s.pta + 1) swap_size quad2)
    fun array2 swap2 =>
  Run.next
    (if csum then sort_if ext s.cbalance array2 swap2 (s.ptb + 1) swap_size quad3
     else call_partition ext cmp addr array2 swap2 (s.ptb + 1) swap_size quad3)
    fun array3 swap3 =>
    if dsum then sort_if ext s.dbalance array3 swap3 (s.ptc + 1) swap_size quad4
    else call_partition ext cmp addr array3 swap3 (s.ptc + 1) swap_size quad4

/-- Lines 125-195: the `switch` on the four streak verdicts, apart from `case 0`. -/
def crum_dispatch {α : Type} (ext : Ext α) (cmp : α → α → Int) (addr : Nat → Nat)
    (array swap : List α) (swap_size : Nat) (s : Scan) (asum bsum csum dsum : Bool)
    (quad1 quad2 quad3 quad4 half1 half2 : Nat) (key : Nat) : Run α :=
  match key with
  | 1 =>
    Run.next (sort_if ext s.abalance array swap 0 swap_size quad1) fun array1 swap1 =>
    call_partition ext cmp addr array1 swap1 (s.pta + 1) swap_size (quad2 + half2)
  | 2 =>
    Run.next (call_partition ext cmp addr array swap 0 swap_size quad1) fun array1 swap1 =>
    Run.next (sort_if ext s.bbalance array1 swap1 (s.pta + 1) swap_size quad2)
      fun array2 swap2 =>
    call_partition ext cmp addr array2 swap2 (s.ptb + 1) swap_size half2
  | 3 =>
    Run.next (sort_if ext s.abalance array swap 0 swap_size quad1) fun array1 swap1 =>
    Run.next (sort_if ext s.bbalance array1 swap1 (s.pta + 1) swap_size quad2)
      fun array2 swap2 =>
    call_partition ext cmp addr array2 swap2 (s.ptb + 1) swap_size half2
  | 4 =>
    Run.next (call_partition ext cmp addr array swap 0 swap_size half1) fun array1 swap1 =>
    Run.next (sort_if ext s.cbalance array1 swap1 (s.ptb + 1) swap_size quad3)
      fun array2 swap2 =>
    call_partition ext cmp addr array2 swap2 (s.ptc + 1) swap_size quad4
  | 8 =>
    Run.next (call_partition ext cmp addr array swap 0 swap_size (half1 + quad3))
      fun array1 swap1 =>
    sort_if ext s.dbalance array1 swap1 (s.ptc + 1) swap_size quad4
  | 9 =>
    Run.next (sort_if ext s.abalance array swap 0 swap_size quad1) fun array1 swap1 =>
    Run.next (call_partition ext cmp addr array1 swap1 (s.pta + 1) swap_size (quad2 + quad3))
      fun array2 swap2 =>
    sort_if ext s.dbalance array2 swap2 (s.ptc + 1) swap_size quad4
  | 12 =>
    Run.next (call_partition ext cmp addr array swap 0 swap_size half1) fun array1 swap1 =>
    Run.next (sort_if ext s.cbalance array1 swap1 (s.ptb + 1) swap_size quad3)
      fun array2 swap2 =>
    sort_if ext s.dbalance array2 swap2 (s.ptc + 1) swap_size quad4
  | _ =>
    crum_quadrants ext cmp addr array swap swap_size s asum bsum csum dsum
      quad1 quad2 quad3 quad4

/-- Lines 197-220: the merges that stitch the four sorted quadrants. -/
def crum_stitch {α : Type} (ext : Ext α) (cmp : α → α → Int) (array swap : List α)
    (swap_size : Nat) (s : Scan) (quad1 quad2 quad3 quad4 half1 half2 : Nat) : Run α :=
  (descending cmp array s.pta).bind fun a =>
  if a = 0 then
    (descending cmp array s.ptc).bind fun c =>
    if c = 0 then
      (descending cmp array s.ptb).bind fun b =>
      if b = 0 then some (array, swap, [])
      else call_rotate_merge ext array swap 0 swap_size half1 half2
    else
      Run.next (call_rotate_merge ext array swap half1 swap_size quad3 quad4)
        fun array1 swap1 => call_rotate_merge ext array1 swap1 0 swap_size half1 half2
  else
    Run.next (call_rotate_merge ext array swap 0 swap_size quad1 quad2) fun array1 swap1 =>
    (descending cmp array1 s.ptc).bind fun c =>
    Run.next
      (if c ≠ 0 then call_rotate_merge ext array1 swap1 half1 swap_size quad3 quad4
       else some (array1, swap1, []))
      fun array2 swap2 => call_rotate_merge ext array2 swap2 0 swap_size half1 half2

/-- `crum_analyze(array, swap, swap_size, nmemb, cmp)`. -/
def crum_analyze {α : Type} (cfg : Config) (ext : Ext α) (cmp : α → α → Int)
    (addr : Nat → Nat) (array swap : List α) (swap_size nmemb : Nat) : Run α :=
  let half1 := nmemb / 2
  let quad1 := half1 / 2
  let quad2 := half1 - quad1
  let half2 := nmemb - half1
  let quad3 := half2 / 2
  let quad4 := half2 - quad3
  (crum_scan cmp array nmemb).bind fun s =>
  (crum_fast_exit cmp array s).bind fun sorted =>
  if sorted then some (array, swap, [])
  else
    (crum_reverse cmp array s quad1 quad2 quad3 quad4).bind fun r =>
    if r.2.2.2 then some (r.1, swap, r.2.2.1)
    else
      let cnt := if cfg.cmp_macro then nmemb / 256 else nmemb / 512
      let asum := decide (r.2.1.astreaks > cnt)
      let bsum := decide (r.2.1.bstreaks > cnt)
      let csum := decide (r.2.1.cstreaks > cnt)
      let dsum := decide (r.2.1.dstreaks > cnt)
      let key := (if asum then 1 else 0) + (if bsum then 1 else 0) * 2
        + (if csum then 1 else 0) * 4 + (if dsum then 1 else 0) * 8
      Run.pre r.2.2.1
        (if ¬ cfg.cmp_macro ∧ quad1 > cfg.QUAD_CACHE then
          Run.next
            (crum_quadrants ext cmp addr r.1 swap swap_size r.2.1 asum bsum csum dsum
              quad1 quad2 quad3 quad4)
            fun array1 swap1 =>
              crum_stitch ext cmp array1 swap1 swap_size r.2.1 quad1 quad2 quad3 quad4 half1 half2
        else if key = 0 then
          call_partition ext cmp addr r.1 swap 0 swap_size nmemb
        else
          Run.next
            (crum_dispatch ext cmp addr r.1 swap swap_size r.2.1 asum bsum csum dsum
              quad1 quad2 quad3 quad4 half1 half2 key)
            fun array1 swap1 =>
              crum_stitch ext cmp array1 swap1 swap_size r.2.1 quad1 quad2 quad3 quad4 half1 half2)

/-! ## The public entries -/

/-- A fresh variable-length array `VAR swap[size]`; `junk` is what the stack holds. -/
def stack_array {α : Type} (junk : Nat → α) (size : Nat) : List α :=
  (List.range size).map junk

/-- `crumsort(array, nmemb, cmp)`: returns the array and the calls issued. -/
def crumsort {α : Type} (cfg : Config) (ext : Ext α) (cmp : α → α → Int) (addr : Nat → Nat)
    (junk : Nat → α) (array : List α) (nmemb : Nat) : Option (List α × List Call) :=
  if nmemb ≤ 256 then
    (call_quadsort ext Site.crumsort array (stack_array junk nmemb) 0 nmemb nmemb).bind
      fun r => some (r.1, r.2.2)
  else
    (crum_analyze cfg ext cmp addr array (stack_array junk CRUM_AUX) CRUM_AUX nmemb).bind
      fun r => some (r.1, Call.crum_analyze nmemb :: r.2.2)

/-- `crumsort_swap(array, swap, swap_size, nmemb, cmp)`. -/
def crumsort_swap {α : Type} (cfg : Config) (ext : Ext α) (cmp : α → α → Int)
    (addr : Nat → Nat) (array swap : List α) (swap_size nmemb : Nat) : Run α :=
  if nmemb ≤ 256 then call_quadsort ext Site.crumsort_swap array swap 0 swap_size nmemb
  else
    Run.pre [Call.crum_analyze nmemb]
      (crum_analyze cfg ext cmp addr array swap swap_size nmemb)

/-! ## Reference collaborators and concrete inputs -/

/-- The comparator `(a > b) - (a < b)` on natural numbers. -/
def nat_cmp (a b : Nat) : Int := if a < b then -1 else if b < a then 1 else 0

/-- Insert `x` before the first element that is not smaller. -/
def insert_sorted {α : Type} (cmp : α → α → Int) (x : α) : List α → List α
  | [] => [x]
  | y :: ys => if cmp x y ≤ 0 then x :: y :: ys else y :: insert_sorted cmp x ys

/-- A stable insertion sort, standing in for the collaborators on concrete inputs. -/
def insertion_sort {α : Type} (cmp : α → α → Int) (l : List α) : List α :=
  l.foldr (insert_sorted cmp) []

/-- Collaborators that sort the range they are given and leave the scratch alone. -/
def reference_ext {α : Type} (cmp : α → α → Int) : Ext α where
  quadsort_swap := fun r swap _ => (insertion_sort cmp r, swap)
  rotate_merge_block := fun r swap _ _ _ => (insertion_sort cmp r, swap)

/-- The build in which `cmp` is a function pointer (streak threshold `nmemb / 512`). -/
def generic_build : Config := { cmp_macro := false, QUAD_CACHE := 262144 }

/-- The build in which `cmp` is a macro (streak threshold `nmemb / 256`). -/
def macro_build : Config := { cmp_macro := true, QUAD_CACHE := 262144 }

/-- The array `[1, 0, 2, 3, ..., n - 1]`: ascending but for its first pair. -/
def one_inversion (n : Nat) : List Nat := 1 :: 0 :: (List.range (n - 2)).map (· + 2)

/-- A comparator under which distinct numbers can be equivalent: it compares the keys
`1` (multiples of 32) and `0` (all other numbers). -/
def key_cmp (a b : Nat) : Int :=
  nat_cmp (if a % 32 = 0 then 1 else 0) (if b % 32 = 0 then 1 else 0)

/-! ## Specification vocabulary for the scan -/

/-- The value of `cmp(p, p + 1) > 0` as a total function (0 outside the array). -/
def pair_desc {α : Type} (cmp : α → α → Int) (A : List α) (p : Nat) : Nat :=
  match A[p]?, A[p + 1]? with
  | some a, some b => if cmp a b > 0 then 1 else 0
  | _, _ => 0

/-- The number of descending pairs among `(b, b + 1), ..., (b + k - 1, b + k)`. -/
def desc_count {α : Type} (cmp : α → α → Int) (A : List α) : Nat → Nat → Nat
  | _, 0 => 0
  | b, k + 1 => pair_desc cmp A b + desc_count cmp A (b + 1) k

/-- What the scan knows about one quadrant after `i` of its pairs have been passed:
the cursor `p`, and what the balance `bal` says about the pairs passed. -/
def QInv {α : Type} (cmp : α → α → Int) (A : List α) (base i p bal : Nat) : Prop :=
  p = base + i ∧ bal ≤ i ∧
  (bal = 0 ↔ ∀ j, j < i → pair_desc cmp A (base + j) = 0) ∧
  (bal = i ↔ ∀ j, j < i → pair_desc cmp A (base + j) = 1)

/-- The invariant of the scan loops of `crum_analyze` on an array of `n` elements,
when each cursor has passed `i` pairs. -/
def ScanInv {α : Type} (cmp : α → α → Int) (A : List α) (n : Nat) (s : Scan) (i : Nat) : Prop :=
  QInv cmp A 0 i s.pta s.abalance ∧
  QInv cmp A (n / 2 / 2) i s.ptb s.bbalance ∧
  QInv cmp A (n / 2) i s.ptc s.cbalance ∧
  QInv cmp A (n / 2 + (n - n / 2) / 2) i s.ptd s.dbalance ∧
  s.cnt + 4 * i = n ∧ 4 ≤ s.cnt ∧
  (s.skips ≠ 0 → s.abalance ≠ 0 ∧ s.bbalance ≠ 0 ∧ s.cbalance ≠ 0 ∧ s.dbalance ≠ 0)

/-- What the scan of `crum_analyze` establishes: every cursor is on the last element
of its quadrant, each balance tells whether its quadrant is ascending (0) or strictly
descending (one less than the quadrant size), and a skip leaves no balance at 0. -/
def ScanPost {α : Type} (cmp : α → α → Int) (A : List α) (n : Nat) (s : Scan) : Prop :=
  QInv cmp A 0 (n / 2 / 2 - 1) s.pta s.abalance ∧
  QInv cmp A (n / 2 / 2) (n / 2 - n / 2 / 2 - 1) s.ptb s.bbalance ∧
  QInv cmp A (n / 2) ((n - n / 2) / 2 - 1) s.ptc s.cbalance ∧
  QInv cmp A (n / 2 + (n - n / 2) / 2) (n - n / 2 - (n - n / 2) / 2 - 1) s.ptd s.dbalance ∧
  (s.skips ≠ 0 → s.abalance ≠ 0 ∧ s.bbalance ≠ 0 ∧ s.cbalance ≠ 0 ∧ s.dbalance ≠ 0)

/-! ## Specification vocabulary for the partition kernels -/

/-- The test `cmp(e, piv) <= 0` of the default partition. -/
def below {α : Type} (cmp : α → α → Int) (piv : α) (e : α) : Bool := decide (cmp e piv ≤ 0)

/-- The test `cmp(e, piv) > 0`, the negation of `below`. -/
def above {α : Type} (cmp : α → α → Int) (piv : α) (e : α) : Bool := !below cmp piv e

/-- The invariant of a partition pass over `array[0 .. n)` once the elements of `P`
have been taken (in that order): the elements `<= piv` taken so far fill `array[0 .. m)`
in order, the others fill the top of `array[0 .. n)` in reverse order, and nothing
from `array + n` on has been touched. -/
def PassInv {α : Type} (cmp : α → α → Int) (piv : α) (A0 : List α) (n : Nat)
    (s : Fulcrum α) (P : List α) : Prop :=
  s.array.length = A0.length ∧
  s.m = (P.filter (below cmp piv)).length ∧
  s.ptr = (n : Int) - 1 - (P.length : Int) ∧
  (∀ j, j < s.m → s.array[j]? = (P.filter (below cmp piv))[j]?) ∧
  (∀ j, j + s.m < P.length → s.array[n - 1 - j]? = (P.filter (above cmp piv))[j]?) ∧
  (∀ j, n ≤ j → s.array[j]? = A0[j]?)

/-- The invariant of the first phase of a pass, in which `L` elements have been taken
from `pta` and `R` from `tpa`: the elements between the two cursors are still those of
the input, the gap `pta - ptl - m` lies in `[0, 64]` and always did. -/
def MainInv {α : Type} (cmp : α → α → Int) (piv : α) (A0 : List α) (n : Nat)
    (s : Fulcrum α) (P : List α) (L R : Nat) : Prop :=
  PassInv cmp piv A0 n s P ∧
  P.length = L + R ∧ s.pta = 32 + (L : Int) ∧ s.tpa = (n : Int) - 33 - (R : Int) ∧
  L + R + 64 ≤ n ∧ s.m ≤ 32 + L ∧ 32 + L ≤ s.m + 64 ∧
  (∀ j, 32 + L ≤ j → j + 32 + R < n → s.array[j]? = A0[j]?) ∧
  P.Perm ((A0.drop 32).take L ++ (A0.drop (n - 32 - R)).take R) ∧
  (∀ g, g ∈ s.gaps → 0 ≤ g ∧ g ≤ 64)

/-- The comparator under which the test `cmp(e, piv) <= 0` of the default partition
is the test `cmp(piv, e) > 0` of the reverse partition. -/
def reverse_cmp {α : Type} (cmp : α → α → Int) : α → α → Int :=
  fun e piv => if cmp piv e > 0 then 0 else 1

/-! ## Specification vocabulary for the calls -/

/-- The documented precondition of `quadsort_swap`, required of the calls issued by
`crumsort` itself and by `crum_median_of_cbrt`. -/
def CallOK (c : Call) : Prop :=
  ∀ site swap_size nmemb, c = Call.quadsort_swap site swap_size nmemb →
    site = Site.crumsort ∨ site = Site.crum_median_of_cbrt →
    swap_size ≥ nmemb ∨ nmemb ≤ 256

/-- Every call issued by a run that returns satisfies `CallOK`. -/
def CallsOK {α : Type} (r : Run α) : Prop :=
  ∀ x, r = some x → ∀ c, c ∈ x.2.2 → CallOK c

/-! ## Specification vocabulary for the quadrants -/

/-- Every adjacent pair inside `A[lo .. hi)` is in order: `cmp(A[i], A[i+1]) <= 0`. -/
def ascending_on {α : Type} (cmp : α → α → Int) (A : List α) (lo hi : Nat) : Prop :=
  ∀ i a b, lo ≤ i → i + 1 < hi → A[i]? = some a → A[i + 1]? = some b → cmp a b ≤ 0

/-- Every adjacent pair inside `A[lo .. hi)` is strictly descending:
`cmp(A[i], A[i+1]) > 0`. -/
def descending_on {α : Type} (cmp : α → α → Int) (A : List α) (lo hi : Nat) : Prop :=
  ∀ i a b, lo ≤ i → i + 1 < hi → A[i]? = some a → A[i + 1]? = some b → cmp a b > 0

/-! ## Specification vocabulary for the comparator -/

/-- The comparator is a total preorder: the relation `cmp a b <= 0` is total and
transitive. -/
def TotalPreorder {α : Type} (cmp : α → α → Int) : Prop :=
  (∀ a b, cmp a b ≤ 0 ∨ cmp b a ≤ 0) ∧ ∀ a b c, cmp a b ≤ 0 → cmp b c ≤ 0 → cmp a c ≤ 0

/-- The value `m` lies between `x` and `y` in one of the two orders. -/
def between {α : Type} (cmp : α → α → Int) (x m y : α) : Prop :=
  (cmp x m ≤ 0 ∧ cmp m y ≤ 0) ∨ (cmp y m ≤ 0 ∧ cmp m x ≤ 0)

/-- Any two elements of `A[lo .. hi)` are in order when taken left to right. -/
def sorted_on {α : Type} (cmp : α → α → Int) (A : List α) (lo hi : Nat) : Prop :=
  ∀ i j a b, lo ≤ i → i ≤ j → j < hi → A[i]? = some a → A[j]? = some b → cmp a b ≤ 0

/-- The `len` elements `p[0 .. len)` at the pointer `p = A + off`. -/
def run_at {α : Type} (A : List α) (off len : Nat) : List α := (A.drop off).take len

/-! ## Specification vocabulary for the skip -/

/-- The block of 32 pairs starting at `p` is a streak: all in order or all descending. -/
def uniform_block {α : Type} (cmp : α → α → Int) (A : List α) (p : Nat) : Prop :=
  desc_count cmp A p 32 = 0 ∨ desc_count cmp A p 32 = 32

/-- The trigger of the skip in the code (line 45): more than 516 elements remain in the
band and none of the four blocks just scanned is a streak. -/
def skip_trigger {α : Type} (cmp : α → α → Int) (A : List α) (s : Scan) : Prop :=
  516 < s.cnt ∧ ¬ uniform_block cmp A s.pta ∧ ¬ uniform_block cmp A s.ptb ∧
  ¬ uniform_block cmp A s.ptc ∧ ¬ uniform_block cmp A s.ptd

instance skip_trigger_decidable {α : Type} (cmp : α → α → Int) (A : List α) (s : Scan) :
    Decidable (skip_trigger cmp A s) := by
  unfold skip_trigger uniform_block
  infer_instance

/-- The trigger of the skip in the words of the specification: the four cursors
reported a sum of 0 for the block just scanned and at least 516 elements remain. -/
def skip_trigger_spec {α : Type} (cmp : α → α → Int) (A : List α) (s : Scan) : Prop :=
  desc_count cmp A s.pta 32 = 0 ∧ desc_count cmp A s.ptb 32 = 0 ∧
  desc_count cmp A s.ptc 32 = 0 ∧ desc_count cmp A s.ptd 32 = 0 ∧ 516 ≤ s.cnt

/-- The registers at the entry of the block scan of an array of `nmemb` elements
(lines 16-31). -/
def scan_entry (nmemb : Nat) : Scan :=
  { pta := 0, ptb := nmemb / 2 / 2, ptc := nmemb / 2,
    ptd := nmemb / 2 + (nmemb - nmemb / 2) / 2,
    abalance := 0, bbalance := 0, cbalance := 0, dbalance := 0,
    astreaks := 0, bstreaks := 0, cstreaks := 0, dstreaks := 0,
    cnt := nmemb, skips := 0 }

/-- An array of 101 elements whose median of nine is one of four small elements: 0 at
the offsets 6, 12, 36 and 48, and 5 everywhere else. -/
def four_small : List Nat :=
  (List.range 101).map fun i => if i = 6 ∨ i = 12 ∨ i = 36 ∨ i = 48 then 0 else 5

/-- The test for sorting the right side with `quadsort_swap` in the words of the
specification: `s_size <= a_size / 32` or `s_size <= CRUM_OUT`. -/
def right_small_spec (a_size s_size : Nat) : Prop :=
  s_size ≤ a_size / 32 ∨ s_size ≤ CRUM_OUT

/-! ## Specification vocabulary for the partitioner -/

/-- The collaborators work in place: the range and the scratch buffer they return have
the sizes of those they were given. -/
def InPlace {α : Type} (ext : Ext α) : Prop :=
  (∀ r s k, (ext.quadsort_swap r s k).1.length = r.length ∧
    (ext.quadsort_swap r s k).2.length = s.length) ∧
  (∀ r s k l t, (ext.rotate_merge_block r s k l t).1.length = r.length ∧
    (ext.rotate_merge_block r s k l t).2.length = s.length)

/-- The contract of `quadsort_swap`: the range it returns is a permutation of the range
it was given, and every adjacent pair of it is in order. -/
def Sorts {α : Type} (ext : Ext α) (cmp : α → α → Int) : Prop :=
  ∀ r s k, (ext.quadsort_swap r s k).1.Perm r ∧
    ascending_on cmp (ext.quadsort_swap r s k).1 0 r.length

/-- The run returns, leaves the array with `alen` elements and the scratch buffer with
`slen`, and the array it leaves satisfies `Q`. -/
def Run.Ok {α : Type} (r : Run α) (alen slen : Nat) (Q : List α → Prop) : Prop :=
  ∃ x, r = some x ∧ x.1.length = alen ∧ x.2.1.length = slen ∧ Q x.1

/-- The array `out` is `array` with its first `nmemb` elements sorted: a sorted
permutation of `array[0 .. nmemb)` followed by the untouched rest. -/
def SortedRange {α : Type} (cmp : α → α → Int) (array : List α) (nmemb : Nat)
    (out : List α) : Prop :=
  ∃ S, out = S ++ array.drop nmemb ∧ S.Perm (array.take nmemb) ∧
    S.Pairwise (fun a b => cmp a b ≤ 0)

/-- A non-null `max` bounds every element of `array[0 .. nmemb)` from above. -/
def MaxBound {α : Type} (cmp : α → α → Int) (array : List α) (nmemb : Nat)
    (max : Option α) : Prop :=
  ∀ mx, max = some mx → ∀ e, e ∈ array.take nmemb → cmp e mx ≤ 0

/-- The array `out` is `array` with its first `nmemb` elements permuted and the rest
untouched. -/
def PermRange {α : Type} (array : List α) (nmemb : Nat) (out : List α) : Prop :=
  ∃ S, out = S ++ array.drop nmemb ∧ S.Perm (array.take nmemb)

/-- What a call of `fulcrum_partition` on `array[0 .. nmemb)` establishes: it returns,
leaves both buffers at their sizes, and, for a total preorder, a `quadsort_swap` that
sorts and a `max` that bounds the range, leaves the range sorted. -/
def PartitionOk {α : Type} (ext : Ext α) (cmp : α → α → Int) (addr : Nat → Nat)
    (swap_size fuel depth : Nat) (array swap : List α) (max : Option α) (nmemb : Nat) : Prop :=
  Run.Ok (fulcrum_partition ext cmp addr swap_size fuel depth array swap max nmemb)
    array.length swap.length
    (fun out => TotalPreorder cmp → Sorts ext cmp → MaxBound cmp array nmemb max →
      SortedRange cmp array nmemb out)

/-! # Theorems -/

/-! ## Runs on concrete inputs -/

set_option maxRecDepth 100000 in
/-- C1 (order): in the build where `cmp` is a function, sorting the 257-element array
`[1, 0, 2, 3, ..., 256]` hands the first quadrant (64 elements) to `fulcrum_partition`,
which takes the pivot out and runs `fulcrum_default_partition` on 63 elements; there
`nmemb / 16 - 4` wraps around, the pass leaves the array, and no sorted array results. -/
theorem crumsort_257_no_result :
    crumsort generic_build (reference_ext nat_cmp) nat_cmp (fun _ => 0) (fun _ => 0)
      (one_inversion 257) 257 = none := by
  decide

set_option maxRecDepth 100000 in
/-- C2 (permutation): the same defect at 259 elements: the run on `[1, 0, 2, ..., 258]`
leaves the array inside `fulcrum_default_partition` and returns no permutation of the
input, whereas the default partition of the same 64 elements succeeds. -/
theorem crumsort_259_no_result :
    crumsort generic_build (reference_ext nat_cmp) nat_cmp (fun _ => 0) (fun _ => 0)
      (one_inversion 259) 259 = none ∧
    fulcrum_default_partition nat_cmp ((one_inversion 259).take 64) (List.replicate 512 0)
      32 63 = none ∧
    (fulcrum_default_partition nat_cmp ((one_inversion 259).take 64) (List.replicate 512 0)
      32 64).isSome = true := by
  decide

/-! ## Basic facts about the memory primitives -/

theorem splice_slice_self {α : Type} (a : List α) (off len : Nat) :
    splice a off len ((a.drop off).take len) = a := by
  unfold splice
  rw [List.append_assoc]
  have h : (a.drop off).take len ++ a.drop (off + len) = a.drop off := by
    rw [← List.drop_drop]
    exact List.take_append_drop len (a.drop off)
  rw [h, List.take_append_drop]

theorem perm_short_eq {α : Type} {r l : List α} (h : r.Perm l) (hl : l.length ≤ 1) : r = l := by
  match l, hl with
  | [], _ => exact List.Perm.eq_nil h
  | [x], _ => exact List.perm_singleton.mp h

theorem insert_sorted_perm {α : Type} (cmp : α → α → Int) (x : α) (l : List α) :
    (insert_sorted cmp x l).Perm (x :: l) := by
  induction l with
  | nil => exact List.Perm.refl _
  | cons y ys ih =>
    unfold insert_sorted
    split
    · exact List.Perm.refl _
    · exact (List.Perm.cons y ih).trans (List.Perm.swap x y ys)

theorem insertion_sort_perm {α : Type} (cmp : α → α → Int) (l : List α) :
    (insertion_sort cmp l).Perm l := by
  induction l with
  | nil => exact List.Perm.refl _
  | cons x xs ih =>
    exact (insert_sorted_perm cmp x _).trans (List.Perm.cons x ih)

/-! ## Empty and singleton inputs -/

/-- C7: for `n = 0` and `n = 1` both public entries issue exactly one call, the
`quadsort_swap` call on `A[0 .. n)` (with scratch size `n` in `crumsort`), never enter
the analyzer, and leave `A` unchanged as soon as `quadsort_swap` returns a permutation
of its range. -/
theorem crumsort_small_noop {α : Type} (cfg : Config) (ext : Ext α) (cmp : α → α → Int)
    (addr : Nat → Nat) (junk : Nat → α) (A S : List α) (swap_size n : Nat)
    (hn : n ≤ 1) (hA : n ≤ A.length) :
    crumsort cfg ext cmp addr junk A n =
      some (splice A 0 n (ext.quadsort_swap (A.take n) (stack_array junk n) n).1,
        [Call.quadsort_swap Site.crumsort n n]) ∧
    crumsort_swap cfg ext cmp addr A S swap_size n =
      some (splice A 0 n (ext.quadsort_swap (A.take n) S swap_size).1,
        (ext.quadsort_swap (A.take n) S swap_size).2,
        [Call.quadsort_swap Site.crumsort_swap swap_size n]) ∧
    ((∀ r sw k, (ext.quadsort_swap r sw k).1.Perm r) →
      splice A 0 n (ext.quadsort_swap (A.take n) (stack_array junk n) n).1 = A ∧
      splice A 0 n (ext.quadsort_swap (A.take n) S swap_size).1 = A) := by
  have h256 : n ≤ 256 := by omega
  have hs : slice A 0 n = some (A.take n) := by
    unfold slice
    rw [if_pos (by omega)]
    rfl
  refine ⟨?_, ?_, ?_⟩
  · unfold crumsort call_quadsort
    rw [if_pos h256, hs]
    rfl
  · unfold crumsort_swap call_quadsort
    rw [if_pos h256, hs]
    rfl
  · intro hperm
    have key : ∀ sw k, splice A 0 n (ext.quadsort_swap (A.take n) sw k).1 = A := by
      intro sw k
      have hlen : (A.take n).length ≤ 1 := by
        rw [List.length_take]
        omega
      rw [perm_short_eq (hperm (A.take n) sw k) hlen]
      exact splice_slice_self A 0 n
    exact ⟨key _ _, key _ _⟩

theorem crumsort_small_noop_witness :
    ((1 : Nat) ≤ 1 ∧ 1 ≤ [5].length) ∧
    crumsort generic_build (reference_ext nat_cmp) nat_cmp (fun _ => 0) (fun _ => 0) [5] 1 =
      some ([5], [Call.quadsort_swap Site.crumsort 1 1]) ∧
    crumsort_swap generic_build (reference_ext nat_cmp) nat_cmp (fun _ => 0) [5] [7, 8] 2 1 =
      some ([5], [7, 8], [Call.quadsort_swap Site.crumsort_swap 2 1]) :=
  ⟨⟨by decide, by decide⟩,
   (crumsort_small_noop generic_build (reference_ext nat_cmp) nat_cmp (fun _ => 0)
      (fun _ => 0) [5] [7, 8] 2 1 (by decide) (by decide)).1,
   (crumsort_small_noop generic_build (reference_ext nat_cmp) nat_cmp (fun _ => 0)
      (fun _ => 0) [5] [7, 8] 2 1 (by decide) (by decide)).2.1⟩

/-! ## The scan of `crum_analyze` -/

theorem rd_nat {α : Type} (A : List α) (p : Nat) : rd A (p : Int) = A[p]? := by
  unfold rd
  simp

theorem rd_nat_succ {α : Type} (A : List α) (p : Nat) : rd A ((p : Int) + 1) = A[p + 1]? := by
  have h : ((p : Int) + 1) = ((p + 1 : Nat) : Int) := by push_cast; rfl
  rw [h, rd_nat]

theorem pair_desc_le_one {α : Type} (cmp : α → α → Int) (A : List α) (p : Nat) :
    pair_desc cmp A p ≤ 1 := by
  unfold pair_desc
  split
  · split <;> omega
  · omega

theorem descending_eq {α : Type} (cmp : α → α → Int) (A : List α) (p : Nat)
    (h : p + 1 < A.length) : descending cmp A p = some (pair_desc cmp A p) := by
  unfold descending pair_desc
  rw [rd_nat, rd_nat_succ]
  have h1 : A[p]? = some (A[p]) := List.getElem?_eq_getElem (by omega)
  have h2 : A[p + 1]? = some (A[p + 1]) := List.getElem?_eq_getElem h
  rw [h1, h2]
  rfl

theorem desc_count_le {α : Type} (cmp : α → α → Int) (A : List α) (k b : Nat) :
    desc_count cmp A b k ≤ k := by
  induction k generalizing b with
  | zero => simp [desc_count]
  | succ k ih =>
    have h1 := pair_desc_le_one cmp A b
    have h2 := ih (b + 1)
    simp only [desc_count]
    omega

theorem desc_count_eq_zero {α : Type} (cmp : α → α → Int) (A : List α) (k b : Nat) :
    desc_count cmp A b k = 0 ↔ ∀ j, j < k → pair_desc cmp A (b + j) = 0 := by
  induction k generalizing b with
  | zero => simp [desc_count]
  | succ k ih =>
    simp only [desc_count]
    constructor
    · intro h j hj
      have h0 : pair_desc cmp A b = 0 := by omega
      have h1 : desc_count cmp A (b + 1) k = 0 := by omega
      rcases Nat.eq_zero_or_pos j with hj0 | hj0
      · subst hj0; simpa using h0
      · have := (ih (b + 1)).mp h1 (j - 1) (by omega)
        have e : b + 1 + (j - 1) = b + j := by omega
        rwa [e] at this
    · intro h
      have h0 := h 0 (by omega)
      have h1 : desc_count cmp A (b + 1) k = 0 := by
        apply (ih (b + 1)).mpr
        intro j hj
        have := h (j + 1) (by omega)
        have e : b + (j + 1) = b + 1 + j := by omega
        rwa [e] at this
      simp at h0
      omega

theorem desc_count_eq_len {α : Type} (cmp : α → α → Int) (A : List α) (k b : Nat) :
    desc_count cmp A b k = k ↔ ∀ j, j < k → pair_desc cmp A (b + j) = 1 := by
  induction k generalizing b with
  | zero => simp [desc_count]
  | succ k ih =>
    simp only [desc_count]
    have hle := pair_desc_le_one cmp A b
    have hle2 := desc_count_le cmp A k (b + 1)
    constructor
    · intro h j hj
      have h0 : pair_desc cmp A b = 1 := by omega
      have h1 : desc_count cmp A (b + 1) k = k := by omega
      rcases Nat.eq_zero_or_pos j with hj0 | hj0
      · subst hj0; simpa using h0
      · have := (ih (b + 1)).mp h1 (j - 1) (by omega)
        have e : b + 1 + (j - 1) = b + j := by omega
        rwa [e] at this
    · intro h
      have h0 := h 0 (by omega)
      have h1 : desc_count cmp A (b + 1) k = k := by
        apply (ih (b + 1)).mpr
        intro j hj
        have := h (j + 1) (by omega)
        have e : b + (j + 1) = b + 1 + j := by omega
        rwa [e] at this
      simp at h0
      omega

/-- What `k` rounds of the inner loop do when all pairs compared lie in the array. -/
theorem iterate_scan_step {α : Type} (cmp : α → α → Int) (A : List α) (k : Nat) :
    ∀ (s : Scan) (sums : Sums),
      s.pta + k < A.length → s.ptb + k < A.length → s.ptc + k < A.length →
      s.ptd + k < A.length →
      iterate (scan_step cmp A) k (s, sums) =
        some ({ s with pta := s.pta + k, ptb := s.ptb + k, ptc := s.ptc + k, ptd := s.ptd + k },
              { asum := sums.asum + desc_count cmp A s.pta k,
                bsum := sums.bsum + desc_count cmp A s.ptb k,
                csum := sums.csum + desc_count cmp A s.ptc k,
                dsum := sums.dsum + desc_count cmp A s.ptd k }) := by
  induction k with
  | zero => intro s sums _ _ _ _; simp [iterate, desc_count]
  | succ k ih =>
    intro s sums ha hb hc hd
    simp only [iterate, scan_step]
    rw [descending_eq cmp A s.pta (by omega), descending_eq cmp A s.ptb (by omega),
      descending_eq cmp A s.ptc (by omega), descending_eq cmp A s.ptd (by omega)]
    simp only [Option.some_bind, Option.bind_some]
    rw [ih _ _ (by simp; omega) (by simp; omega) (by simp; omega) (by simp; omega)]
    simp only [desc_count, Option.some.injEq, Prod.mk.injEq]
    constructor
    · congr 1 <;> omega
    · congr 1 <;> omega


theorem desc_count_split {α : Type} (cmp : α → α → Int) (A : List α) (k b : Nat) :
    (∀ j, j < k + 1 → pair_desc cmp A (b + j) = 0) ↔
      (∀ j, j < k → pair_desc cmp A (b + j) = 0) ∧ pair_desc cmp A (b + k) = 0 := by
  constructor
  · intro h
    exact ⟨fun j hj => h j (by omega), h k (by omega)⟩
  · intro h j hj
    rcases Nat.lt_or_ge j k with h1 | h1
    · exact h.1 j h1
    · have : j = k := by omega
      subst this
      exact h.2

/-- A quadrant invariant after a block of `k` pairs with no skip. -/
theorem QInv_block {α : Type} (cmp : α → α → Int) (A : List α) (base i p bal k : Nat)
    (h : QInv cmp A base i p bal) :
    QInv cmp A base (i + k) (p + k) (bal + desc_count cmp A p k) := by
  obtain ⟨hp, hle, h0, h1⟩ := h
  subst hp
  have hc := desc_count_le cmp A k (base + i)
  have hz := desc_count_eq_zero cmp A k (base + i)
  have hl := desc_count_eq_len cmp A k (base + i)
  refine ⟨by omega, by omega, ?_, ?_⟩
  · constructor
    · intro hb j hj
      rcases Nat.lt_or_ge j i with hji | hji
      · exact h0.mp (by omega) j hji
      · have := hz.mp (by omega) (j - i) (by omega)
        have e : base + i + (j - i) = base + j := by omega
        rwa [e] at this
    · intro hall
      have a : bal = 0 := h0.mpr (fun j hj => hall j (by omega))
      have b : desc_count cmp A (base + i) k = 0 := hz.mpr (fun j hj => by
        have := hall (i + j) (by omega)
        rwa [← Nat.add_assoc] at this)
      omega
  · constructor
    · intro hb j hj
      rcases Nat.lt_or_ge j i with hji | hji
      · exact h1.mp (by omega) j hji
      · have := hl.mp (by omega) (j - i) (by omega)
        have e : base + i + (j - i) = base + j := by omega
        rwa [e] at this
    · intro hall
      have a : bal = i := h1.mpr (fun j hj => hall j (by omega))
      have b : desc_count cmp A (base + i) k = k := hl.mpr (fun j hj => by
        have := hall (i + j) (by omega)
        rwa [← Nat.add_assoc] at this)
      omega

/-- A quadrant invariant after a mixed block of 32 pairs followed by the skip. -/
theorem QInv_skip {α : Type} (cmp : α → α → Int) (A : List α) (base i p bal : Nat)
    (h : QInv cmp A base i p bal) (hs : streak (desc_count cmp A p 32) = 0) :
    QInv cmp A base (i + 128) (p + 32 + 96) (bal + desc_count cmp A p 32 + 48) := by
  obtain ⟨hp, hle, h0, h1⟩ := h
  subst hp
  have hc := desc_count_le cmp A 32 (base + i)
  have hz := desc_count_eq_zero cmp A 32 (base + i)
  have hl := desc_count_eq_len cmp A 32 (base + i)
  have hne : desc_count cmp A (base + i) 32 ≠ 0 ∧ desc_count cmp A (base + i) 32 ≠ 32 := by
    unfold streak at hs
    split at hs
    · omega
    · omega
  refine ⟨by omega, by omega, ?_, ?_⟩
  · constructor
    · intro hb; omega
    · intro hall
      exfalso
      apply hne.1
      apply hz.mpr
      intro j hj
      have := hall (i + j) (by omega)
      rwa [← Nat.add_assoc] at this
  · constructor
    · intro hb; omega
    · intro hall
      exfalso
      apply hne.2
      apply hl.mpr
      intro j hj
      have := hall (i + j) (by omega)
      rwa [← Nat.add_assoc] at this


/-- The block loop keeps the scan invariant and ends with at most 132 elements left. -/
theorem scan_blocks_spec {α : Type} (cmp : α → α → Int) (A : List α) (n : Nat)
    (hA : A.length = n) :
    ∀ (fuel : Nat) (s : Scan) (i : Nat), ScanInv cmp A n s i → s.cnt ≤ 128 * fuel →
      ∃ s' i', scan_blocks cmp A fuel s = some s' ∧ ScanInv cmp A n s' i' ∧ s'.cnt ≤ 132 := by
  intro fuel
  induction fuel with
  | zero =>
    intro s i hinv hf
    obtain ⟨_, _, _, _, _, h4, _⟩ := hinv
    omega
  | succ fuel ih =>
    intro s i hinv hf
    obtain ⟨ha, hb, hc, hd, hcnt, h4, hsk⟩ := hinv
    unfold scan_blocks
    by_cases hgo : s.cnt > 132
    · rw [if_pos hgo]
      have pa := ha.1
      have pb := hb.1
      have pc := hc.1
      have pd := hd.1
      unfold scan_block
      rw [iterate_scan_step cmp A 32 s ⟨0, 0, 0, 0⟩ (by omega) (by omega) (by omega) (by omega)]
      simp only [Option.some_bind, Nat.zero_add]
      by_cases hskip : s.cnt > 516 ∧
          streak (desc_count cmp A s.pta 32) + streak (desc_count cmp A s.ptb 32) +
            streak (desc_count cmp A s.ptc 32) + streak (desc_count cmp A s.ptd 32) = 0
      · rw [if_pos hskip]
        apply ih _ (i + 128)
        · refine ⟨QInv_skip cmp A _ _ _ _ ha (by omega), QInv_skip cmp A _ _ _ _ hb (by omega),
            QInv_skip cmp A _ _ _ _ hc (by omega), QInv_skip cmp A _ _ _ _ hd (by omega),
            ?_, ?_, ?_⟩
          · show s.cnt - 384 - 128 + 4 * (i + 128) = n
            omega
          · show 4 ≤ s.cnt - 384 - 128
            omega
          · intro _
            refine ⟨?_, ?_, ?_, ?_⟩ <;> (show _ + 48 ≠ 0) <;> omega
        · show s.cnt - 384 - 128 ≤ 128 * fuel
          omega
      · rw [if_neg hskip]
        apply ih _ (i + 32)
        · refine ⟨QInv_block cmp A _ _ _ _ 32 ha, QInv_block cmp A _ _ _ _ 32 hb,
            QInv_block cmp A _ _ _ _ 32 hc, QInv_block cmp A _ _ _ _ 32 hd, ?_, ?_, ?_⟩
          · show s.cnt - 128 + 4 * (i + 32) = n
            omega
          · show 4 ≤ s.cnt - 128
            omega
          · intro h
            have := hsk h
            refine ⟨?_, ?_, ?_, ?_⟩ <;> (show _ + _ ≠ 0) <;> omega
        · show s.cnt - 128 ≤ 128 * fuel
          omega
    · rw [if_neg hgo]
      exact ⟨s, i, rfl, ⟨ha, hb, hc, hd, hcnt, h4, hsk⟩, by omega⟩

theorem desc_count_one {α : Type} (cmp : α → α → Int) (A : List α) (p : Nat) :
    desc_count cmp A p 1 = pair_desc cmp A p := by
  simp [desc_count]

/-- The tail loop keeps the scan invariant and ends with 4 to 7 elements left. -/
theorem scan_tail_spec {α : Type} (cmp : α → α → Int) (A : List α) (n : Nat)
    (hA : A.length = n) :
    ∀ (fuel : Nat) (s : Scan) (i : Nat), ScanInv cmp A n s i → s.cnt ≤ 4 * fuel →
      ∃ s' i', scan_tail cmp A fuel s = some s' ∧ ScanInv cmp A n s' i' ∧ s'.cnt ≤ 7 := by
  intro fuel
  induction fuel with
  | zero =>
    intro s i hinv hf
    obtain ⟨_, _, _, _, _, h4, _⟩ := hinv
    omega
  | succ fuel ih =>
    intro s i hinv hf
    obtain ⟨ha, hb, hc, hd, hcnt, h4, hsk⟩ := hinv
    unfold scan_tail
    by_cases hgo : s.cnt > 7
    · rw [if_pos hgo]
      have pa := ha.1
      have pb := hb.1
      have pc := hc.1
      have pd := hd.1
      rw [descending_eq cmp A s.pta (by omega), descending_eq cmp A s.ptb (by omega),
        descending_eq cmp A s.ptc (by omega), descending_eq cmp A s.ptd (by omega)]
      simp only [Option.some_bind]
      apply ih _ (i + 1)
      · have qa := QInv_block cmp A _ _ _ _ 1 ha
        have qb := QInv_block cmp A _ _ _ _ 1 hb
        have qc := QInv_block cmp A _ _ _ _ 1 hc
        have qd := QInv_block cmp A _ _ _ _ 1 hd
        rw [desc_count_one] at qa qb qc qd
        refine ⟨qa, qb, qc, qd, ?_, ?_, ?_⟩
        · show s.cnt - 4 + 4 * (i + 1) = n
          omega
        · show 4 ≤ s.cnt - 4
          omega
        · intro h
          have := hsk h
          refine ⟨?_, ?_, ?_, ?_⟩ <;> (show _ + _ ≠ 0) <;> omega
      · show s.cnt - 4 ≤ 4 * fuel
        omega
    · rw [if_neg hgo]
      exact ⟨s, i, rfl, ⟨ha, hb, hc, hd, hcnt, h4, hsk⟩, by omega⟩


theorem QInv_zero {α : Type} (cmp : α → α → Int) (A : List α) (base : Nat) :
    QInv cmp A base 0 base 0 := by
  refine ⟨rfl, Nat.le_refl 0, ?_, ?_⟩ <;> simp

/-- The conditional extra comparison of line 63. -/
theorem scan_extra_b {α : Type} (cmp : α → α → Int) (A : List α) (base i : Nat) (s : Scan)
    (c : Prop) [Decidable c] (hq : QInv cmp A base i s.ptb s.bbalance)
    (hin : c → s.ptb + 1 < A.length) :
    ∃ s', (if c then
        (descending cmp A s.ptb).bind fun b =>
          some { s with bbalance := s.bbalance + b, ptb := s.ptb + 1 }
      else some s) = some s' ∧ s'.pta = s.pta ∧ s'.abalance = s.abalance ∧
      s'.ptc = s.ptc ∧ s'.cbalance = s.cbalance ∧ s'.ptd = s.ptd ∧
      s'.dbalance = s.dbalance ∧ s'.skips = s.skips ∧
      QInv cmp A base (if c then i + 1 else i) s'.ptb s'.bbalance ∧
      (s.bbalance ≠ 0 → s'.bbalance ≠ 0) := by
  by_cases h : c
  · rw [if_pos h, if_pos h, descending_eq cmp A s.ptb (hin h)]
    have q := QInv_block cmp A _ _ _ _ 1 hq
    rw [desc_count_one] at q
    exact ⟨_, rfl, rfl, rfl, rfl, rfl, rfl, rfl, rfl, q, fun h0 => by
      show s.bbalance + _ ≠ 0
      omega⟩
  · rw [if_neg h, if_neg h]
    exact ⟨_, rfl, rfl, rfl, rfl, rfl, rfl, rfl, rfl, hq, fun h0 => h0⟩

/-- The conditional extra comparison of line 64. -/
theorem scan_extra_c {α : Type} (cmp : α → α → Int) (A : List α) (base i : Nat) (s : Scan)
    (c : Prop) [Decidable c] (hq : QInv cmp A base i s.ptc s.cbalance)
    (hin : c → s.ptc + 1 < A.length) :
    ∃ s', (if c then
        (descending cmp A s.ptc).bind fun b =>
          some { s with cbalance := s.cbalance + b, ptc := s.ptc + 1 }
      else some s) = some s' ∧ s'.pta = s.pta ∧ s'.abalance = s.abalance ∧
      s'.ptb = s.ptb ∧ s'.bbalance = s.bbalance ∧ s'.ptd = s.ptd ∧
      s'.dbalance = s.dbalance ∧ s'.skips = s.skips ∧
      QInv cmp A base (if c then i + 1 else i) s'.ptc s'.cbalance ∧
      (s.cbalance ≠ 0 → s'.cbalance ≠ 0) := by
  by_cases h : c
  · rw [if_pos h, if_pos h, descending_eq cmp A s.ptc (hin h)]
    have q := QInv_block cmp A _ _ _ _ 1 hq
    rw [desc_count_one] at q
    exact ⟨_, rfl, rfl, rfl, rfl, rfl, rfl, rfl, rfl, q, fun h0 => by
      show s.cbalance + _ ≠ 0
      omega⟩
  · rw [if_neg h, if_neg h]
    exact ⟨_, rfl, rfl, rfl, rfl, rfl, rfl, rfl, rfl, hq, fun h0 => h0⟩

/-- The conditional extra comparison of line 65. -/
theorem scan_extra_d {α : Type} (cmp : α → α → Int) (A : List α) (base i : Nat) (s : Scan)
    (c : Prop) [Decidable c] (hq : QInv cmp A base i s.ptd s.dbalance)
    (hin : c → s.ptd + 1 < A.length) :
    ∃ s', (if c then
        (descending cmp A s.ptd).bind fun b =>
          some { s with dbalance := s.dbalance + b, ptd := s.ptd + 1 }
      else some s) = some s' ∧ s'.pta = s.pta ∧ s'.abalance = s.abalance ∧
      s'.ptb = s.ptb ∧ s'.bbalance = s.bbalance ∧ s'.ptc = s.ptc ∧
      s'.cbalance = s.cbalance ∧ s'.skips = s.skips ∧
      QInv cmp A base (if c then i + 1 else i) s'.ptd s'.dbalance ∧
      (s.dbalance ≠ 0 → s'.dbalance ≠ 0) := by
  by_cases h : c
  · rw [if_pos h, if_pos h, descending_eq cmp A s.ptd (hin h)]
    have q := QInv_block cmp A _ _ _ _ 1 hq
    rw [desc_count_one] at q
    exact ⟨_, rfl, rfl, rfl, rfl, rfl, rfl, rfl, rfl, q, fun h0 => by
      show s.dbalance + _ ≠ 0
      omega⟩
  · rw [if_neg h, if_neg h]
    exact ⟨_, rfl, rfl, rfl, rfl, rfl, rfl, rfl, rfl, hq, fun h0 => h0⟩

theorem scan_init_inv {α : Type} (cmp : α → α → Int) (A : List α) (n : Nat) (hn : 4 ≤ n) :
    ScanInv cmp A n
      { pta := 0, ptb := n / 2 / 2, ptc := n / 2, ptd := n / 2 + (n - n / 2) / 2,
        abalance := 0, bbalance := 0, cbalance := 0, dbalance := 0,
        astreaks := 0, bstreaks := 0, cstreaks := 0, dstreaks := 0,
        cnt := n, skips := 0 } 0 :=
  ⟨QInv_zero cmp A _, QInv_zero cmp A _, QInv_zero cmp A _, QInv_zero cmp A _,
    Nat.add_zero n, hn, fun h => absurd rfl h⟩

theorem quad_index_b (n : Nat) (hn : 4 ≤ n) :
    (if n / 2 / 2 < n / 2 - n / 2 / 2 then n / 2 / 2 - 1 + 1 else n / 2 / 2 - 1)
      = n / 2 - n / 2 / 2 - 1 := by
  split <;> omega

theorem quad_index_c (n : Nat) (hn : 4 ≤ n) :
    (if n / 2 / 2 < (n - n / 2) / 2 then n / 2 / 2 - 1 + 1 else n / 2 / 2 - 1)
      = (n - n / 2) / 2 - 1 := by
  split <;> omega

theorem quad_index_d (n : Nat) (hn : 4 ≤ n) :
    (if n / 2 / 2 < n - n / 2 - (n - n / 2) / 2 then n / 2 / 2 - 1 + 1
      else n / 2 / 2 - 1) = n - n / 2 - (n - n / 2) / 2 - 1 := by
  split <;> omega

theorem quad_bounds (n : Nat) (hn : 4 ≤ n) :
    n / 2 / 2 + (n / 2 / 2 - 1) + 1 < n ∧
    (n / 2 / 2 < (n - n / 2) / 2 → n / 2 + (n / 2 / 2 - 1) + 1 < n) ∧
    (n / 2 / 2 < n - n / 2 - (n - n / 2) / 2 →
      n / 2 + (n - n / 2) / 2 + (n / 2 / 2 - 1) + 1 < n) := by
  refine ⟨?_, ?_, ?_⟩ <;> omega

theorem scan_final_index (n cnt i : Nat) (h : cnt + 4 * i = n) (h4 : 4 ≤ cnt) (h7 : cnt ≤ 7) :
    i = n / 2 / 2 - 1 := by
  omega

/-- The scan of `crum_analyze` returns, reads only inside the array, and leaves the
cursors and balances described by `ScanPost`. -/
theorem crum_scan_spec {α : Type} (cmp : α → α → Int) (A : List α) (n : Nat)
    (hA : A.length = n) (hn : 4 ≤ n) :
    ∃ s, crum_scan cmp A n = some s ∧ ScanPost cmp A n s := by
  obtain ⟨s1, i1, e1, inv1, _⟩ :=
    scan_blocks_spec cmp A n hA n _ 0 (scan_init_inv cmp A n hn) (Nat.le_mul_of_pos_left n (by omega))
  have hc1 : s1.cnt ≤ 4 * n := by
    have := inv1.2.2.2.2.1
    omega
  obtain ⟨s2, i2, e2, inv2, h7⟩ := scan_tail_spec cmp A n hA n s1 i1 inv1 hc1
  obtain ⟨ha, hb, hc, hd, hcnt, h4, hsk⟩ := inv2
  have hi : i2 = n / 2 / 2 - 1 := scan_final_index n _ _ hcnt h4 h7
  subst hi
  obtain ⟨bd1, bd2, bd3⟩ := quad_bounds n hn
  have pb := hb.1
  have pc := hc.1
  have pd := hd.1
  obtain ⟨s3, e3, a3, ab3, c3, cb3, d3, db3, sk3, qb3, nb3⟩ :=
    scan_extra_b cmp A _ _ s2 (n / 2 / 2 < n / 2 - n / 2 / 2) hb
      (fun _ => by rw [pb, hA]; exact bd1)
  rw [← c3, ← cb3] at hc
  obtain ⟨s4, e4, a4, ab4, b4, bb4, d4, db4, sk4, qc4, nc4⟩ :=
    scan_extra_c cmp A _ _ s3 (n / 2 / 2 < (n - n / 2) / 2) hc
      (fun h => by rw [c3, pc, hA]; exact bd2 h)
  rw [← d3, ← db3, ← d4, ← db4] at hd
  obtain ⟨s5, e5, a5, ab5, b5, bb5, c5, cb5, sk5, qd5, nd5⟩ :=
    scan_extra_d cmp A _ _ s4 (n / 2 / 2 < n - n / 2 - (n - n / 2) / 2) hd
      (fun h => by rw [d4, d3, pd, hA]; exact bd3 h)
  rw [quad_index_b n hn] at qb3
  rw [quad_index_c n hn] at qc4
  rw [quad_index_d n hn] at qd5
  refine ⟨s5, ?_, ?_, ?_, ?_, qd5, ?_⟩
  · unfold crum_scan
    simp only [e1, e2, e3, e4, e5, Option.some_bind]
  · rw [a5, ab5, a4, ab4, a3, ab3]
    exact ha
  · rw [b5, bb5, b4, bb4]
    exact qb3
  · rw [c5, cb5]
    exact qc4
  · intro h
    rw [sk5, sk4, sk3] at h
    obtain ⟨x1, x2, x3, x4⟩ := hsk h
    refine ⟨?_, ?_, ?_, ?_⟩
    · rw [ab5, ab4, ab3]; exact x1
    · rw [bb5, bb4]; exact nb3 x2
    · rw [cb5]; exact nc4 (by rw [cb3]; exact x3)
    · exact nd5 (by rw [db4, db3]; exact x4)

/-! ## Sorted and strictly descending inputs -/

theorem pair_desc_of_le {α : Type} (cmp : α → α → Int) (A : List α)
    (hs : ∀ i a b, A[i]? = some a → A[i + 1]? = some b → cmp a b ≤ 0) (p : Nat) :
    pair_desc cmp A p = 0 := by
  unfold pair_desc
  split
  · rename_i a b ha hb
    have := hs p a b ha hb
    rw [if_neg (by omega)]
  · rfl

theorem pair_desc_of_gt {α : Type} (cmp : α → α → Int) (A : List α)
    (hs : ∀ i a b, A[i]? = some a → A[i + 1]? = some b → cmp a b > 0) (p : Nat)
    (hp : p + 1 < A.length) : pair_desc cmp A p = 1 := by
  unfold pair_desc
  have h1 : A[p]? = some (A[p]) := List.getElem?_eq_getElem (by omega)
  have h2 : A[p + 1]? = some (A[p + 1]) := List.getElem?_eq_getElem hp
  rw [h1, h2]
  simp only
  rw [if_pos (hs p _ _ h1 h2)]

/-- The fast exit is taken when all balances are 0 and the three boundary pairs are
in order. -/
theorem crum_fast_exit_true {α : Type} (cmp : α → α → Int) (A : List α) (s : Scan)
    (h0 : s.abalance + s.bbalance + s.cbalance + s.dbalance = 0)
    (ha : descending cmp A s.pta = some 0) (hb : descending cmp A s.ptb = some 0)
    (hc : descending cmp A s.ptc = some 0) : crum_fast_exit cmp A s = some true := by
  unfold crum_fast_exit
  rw [if_pos h0, ha, hb, hc]
  rfl

/-- C3: on an array of more than 256 elements whose adjacent pairs are all in order,
the scan ends with the four balances at 0 and without a skip, the three boundary
comparisons are `<= 0`, the fast exit of Phase 3 is taken, and `crum_analyze`,
`crumsort` and `crumsort_swap` return the input array unchanged without calling
`quad_reversal`, `quadsort_swap`, `fulcrum_partition` or `rotate_merge_block`. -/
theorem crum_analyze_sorted {α : Type} (cfg : Config) (ext : Ext α) (cmp : α → α → Int)
    (addr : Nat → Nat) (junk : Nat → α) (A S : List α) (swap_size n : Nat)
    (hn : 256 < n) (hA : A.length = n)
    (hs : ∀ i a b, A[i]? = some a → A[i + 1]? = some b → cmp a b ≤ 0) :
    (∃ s, crum_scan cmp A n = some s ∧
      s.abalance = 0 ∧ s.bbalance = 0 ∧ s.cbalance = 0 ∧ s.dbalance = 0 ∧ s.skips = 0 ∧
      descending cmp A s.pta = some 0 ∧ descending cmp A s.ptb = some 0 ∧
      descending cmp A s.ptc = some 0 ∧ crum_fast_exit cmp A s = some true) ∧
    crum_analyze cfg ext cmp addr A S swap_size n = some (A, S, []) ∧
    crumsort cfg ext cmp addr junk A n = some (A, [Call.crum_analyze n]) ∧
    crumsort_swap cfg ext cmp addr A S swap_size n = some (A, S, [Call.crum_analyze n]) := by
  obtain ⟨s, es, qa, qb, qc, qd, hsk⟩ := crum_scan_spec cmp A n hA (by omega)
  have z : ∀ p, pair_desc cmp A p = 0 := pair_desc_of_le cmp A hs
  have ba : s.abalance = 0 := qa.2.2.1.mpr (fun j _ => z _)
  have bb : s.bbalance = 0 := qb.2.2.1.mpr (fun j _ => z _)
  have bc : s.cbalance = 0 := qc.2.2.1.mpr (fun j _ => z _)
  have bd : s.dbalance = 0 := qd.2.2.1.mpr (fun j _ => z _)
  have sk : s.skips = 0 := by
    by_contra h
    exact (hsk h).1 ba
  have pa := qa.1
  have pb := qb.1
  have pc := qc.1
  have da : descending cmp A s.pta = some 0 := by
    rw [descending_eq cmp A s.pta (by omega), z]
  have db : descending cmp A s.ptb = some 0 := by
    rw [descending_eq cmp A s.ptb (by omega), z]
  have dc : descending cmp A s.ptc = some 0 := by
    rw [descending_eq cmp A s.ptc (by omega), z]
  have fe : crum_fast_exit cmp A s = some true :=
    crum_fast_exit_true cmp A s (by omega) da db dc
  have an : ∀ S' k, crum_analyze cfg ext cmp addr A S' k n = some (A, S', []) := by
    intro S' k
    unfold crum_analyze
    simp only [es, fe, Option.some_bind]
    rfl
  refine ⟨⟨s, es, ba, bb, bc, bd, sk, da, db, dc, fe⟩, an S swap_size, ?_, ?_⟩
  · unfold crumsort
    rw [if_neg (by omega), an]
    rfl
  · unfold crumsort_swap
    rw [if_neg (by omega), an]
    rfl

theorem range_getElem?_some (n i a : Nat) (h : (List.range n)[i]? = some a) : a = i := by
  have hi : i < (List.range n).length := by
    by_contra hc
    rw [List.getElem?_eq_none (by omega)] at h
    exact absurd h (by simp)
  rw [List.getElem?_eq_getElem hi] at h
  simp at h
  omega

theorem crum_analyze_sorted_witness :
    (256 < 1000 ∧ (List.range 1000).length = 1000) ∧
    crumsort generic_build (reference_ext nat_cmp) nat_cmp (fun _ => 0) (fun _ => 0)
      (List.range 1000) 1000 = some (List.range 1000, [Call.crum_analyze 1000]) :=
  ⟨⟨by decide, List.length_range 1000⟩,
   (crum_analyze_sorted generic_build (reference_ext nat_cmp) nat_cmp (fun _ => 0)
      (fun _ => 0) (List.range 1000) [] 0 1000 (by decide) (List.length_range 1000)
      (fun i a b ha hb => by
        have e1 := range_getElem?_some 1000 i a ha
        have e2 := range_getElem?_some 1000 (i + 1) b hb
        subst e1 e2
        unfold nat_cmp
        rw [if_pos (by omega)]
        decide)).2.2.1⟩

theorem size_t_one_of_pred (q b : Nat) (hq : 1 ≤ q) (hb : b = q - 1) :
    size_t ((q : Int) - (b : Int)) = 1 := by
  have e : (q : Int) - (b : Int) = 1 := by omega
  rw [e]
  rfl

theorem quad_reversal_whole {α : Type} (A : List α) (n : Nat) (hA : A.length = n)
    (hn : 1 ≤ n) : quad_reversal A 0 (n - 1) = some A.reverse := by
  unfold quad_reversal
  rw [if_pos ⟨Nat.zero_le _, by omega⟩]
  have e : n - 1 + 1 - 0 = A.length := by omega
  have e2 : n - 1 + 1 = A.length := by omega
  rw [e, e2]
  simp

theorem crum_fast_exit_false {α : Type} (cmp : α → α → Int) (A : List α) (s : Scan)
    (h0 : s.abalance + s.bbalance + s.cbalance + s.dbalance ≠ 0) :
    crum_fast_exit cmp A s = some false := by
  unfold crum_fast_exit
  rw [if_neg h0]

/-- C4: on a strictly descending array of more than 256 elements every balance is one
less than its quadrant size, the three spans are set (key 7), `crum_analyze` issues the
single call `quad_reversal(array, array + n - 1)` and returns; the result is the input
reversed. -/
theorem crum_analyze_descending {α : Type} (cfg : Config) (ext : Ext α) (cmp : α → α → Int)
    (addr : Nat → Nat) (junk : Nat → α) (A S : List α) (swap_size n : Nat)
    (hn : 256 < n) (hA : A.length = n)
    (hs : ∀ i a b, A[i]? = some a → A[i + 1]? = some b → cmp a b > 0) :
    (∃ s, crum_scan cmp A n = some s ∧
      s.abalance = n / 2 / 2 - 1 ∧ s.bbalance = n / 2 - n / 2 / 2 - 1 ∧
      s.cbalance = (n - n / 2) / 2 - 1 ∧ s.dbalance = n - n / 2 - (n - n / 2) / 2 - 1 ∧
      s.ptd = n - 1 ∧
      descending cmp A s.pta = some 1 ∧ descending cmp A s.ptb = some 1 ∧
      descending cmp A s.ptc = some 1 ∧
      span_key (decide (size_t (((n / 2 / 2 : Nat) : Int) - s.abalance) = 1))
        (decide (size_t (((n / 2 - n / 2 / 2 : Nat) : Int) - s.bbalance) = 1))
        (decide (size_t ((((n - n / 2) / 2 : Nat) : Int) - s.cbalance) = 1))
        (decide (size_t (((n - n / 2 - (n - n / 2) / 2 : Nat) : Int) - s.dbalance) = 1))
        1 1 1 = 7 ∧
      crum_reverse cmp A s (n / 2 / 2) (n / 2 - n / 2 / 2) ((n - n / 2) / 2)
        (n - n / 2 - (n - n / 2) / 2) =
        some (A.reverse, s, [Call.quad_reversal 0 (n - 1)], true)) ∧
    crum_analyze cfg ext cmp addr A S swap_size n =
      some (A.reverse, S, [Call.quad_reversal 0 (n - 1)]) ∧
    crumsort cfg ext cmp addr junk A n =
      some (A.reverse, [Call.crum_analyze n, Call.quad_reversal 0 (n - 1)]) ∧
    crumsort_swap cfg ext cmp addr A S swap_size n =
      some (A.reverse, S, [Call.crum_analyze n, Call.quad_reversal 0 (n - 1)]) := by
  obtain ⟨s, es, qa, qb, qc, qd, hsk⟩ := crum_scan_spec cmp A n hA (by omega)
  have pa := qa.1
  have pb := qb.1
  have pc := qc.1
  have pd := qd.1
  have ba : s.abalance = n / 2 / 2 - 1 :=
    qa.2.2.2.mpr (fun j hj => pair_desc_of_gt cmp A hs _ (by omega))
  have bb : s.bbalance = n / 2 - n / 2 / 2 - 1 :=
    qb.2.2.2.mpr (fun j hj => pair_desc_of_gt cmp A hs _ (by omega))
  have bc : s.cbalance = (n - n / 2) / 2 - 1 :=
    qc.2.2.2.mpr (fun j hj => pair_desc_of_gt cmp A hs _ (by omega))
  have bd : s.dbalance = n - n / 2 - (n - n / 2) / 2 - 1 :=
    qd.2.2.2.mpr (fun j hj => pair_desc_of_gt cmp A hs _ (by omega))
  have ed : s.ptd = n - 1 := by omega
  have da : descending cmp A s.pta = some 1 := by
    rw [descending_eq cmp A s.pta (by omega), pair_desc_of_gt cmp A hs _ (by omega)]
  have db : descending cmp A s.ptb = some 1 := by
    rw [descending_eq cmp A s.ptb (by omega), pair_desc_of_gt cmp A hs _ (by omega)]
  have dc : descending cmp A s.ptc = some 1 := by
    rw [descending_eq cmp A s.ptc (by omega), pair_desc_of_gt cmp A hs _ (by omega)]
  have sa := size_t_one_of_pred (n / 2 / 2) s.abalance (by omega) ba
  have sb := size_t_one_of_pred (n / 2 - n / 2 / 2) s.bbalance (by omega) bb
  have sc := size_t_one_of_pred ((n - n / 2) / 2) s.cbalance (by omega) bc
  have sd := size_t_one_of_pred (n - n / 2 - (n - n / 2) / 2) s.dbalance (by omega) bd
  have key : span_key (decide (size_t (((n / 2 / 2 : Nat) : Int) - s.abalance) = 1))
        (decide (size_t (((n / 2 - n / 2 / 2 : Nat) : Int) - s.bbalance) = 1))
        (decide (size_t ((((n - n / 2) / 2 : Nat) : Int) - s.cbalance) = 1))
        (decide (size_t (((n - n / 2 - (n - n / 2) / 2 : Nat) : Int) - s.dbalance) = 1))
        1 1 1 = 7 := by
    rw [sa, sb, sc, sd]
    rfl
  have rev : crum_reverse cmp A s (n / 2 / 2) (n / 2 - n / 2 / 2) ((n - n / 2) / 2)
        (n - n / 2 - (n - n / 2) / 2) =
        some (A.reverse, s, [Call.quad_reversal 0 (n - 1)], true) := by
    have sp : reverse_spans A s 7 = some (A.reverse, s, [Call.quad_reversal 0 (n - 1)], true) := by
      unfold reverse_spans
      simp only [ed, quad_reversal_whole A n hA (by omega), Option.some_bind]
    unfold crum_reverse
    simp only [da, db, dc, Option.some_bind, key, sp]
    rw [sa, sb, sc, sd]
    rfl
  have fe : crum_fast_exit cmp A s = some false :=
    crum_fast_exit_false cmp A s (by omega)
  have an : ∀ S' k, crum_analyze cfg ext cmp addr A S' k n =
      some (A.reverse, S', [Call.quad_reversal 0 (n - 1)]) := by
    intro S' k
    unfold crum_analyze
    simp only [es, fe, rev, Option.some_bind]
    rfl
  refine ⟨⟨s, es, ba, bb, bc, bd, ed, da, db, dc, key, rev⟩, an S swap_size, ?_, ?_⟩
  · unfold crumsort
    rw [if_neg (by omega), an]
    rfl
  · unfold crumsort_swap
    rw [if_neg (by omega), an]
    rfl


theorem range_reverse_getElem?_some (n i a : Nat)
    (h : (List.range n).reverse[i]? = some a) : i < n ∧ a = n - 1 - i := by
  have hi : i < (List.range n).reverse.length := by
    by_contra hc
    rw [List.getElem?_eq_none (by omega)] at h
    exact absurd h (by simp)
  rw [List.getElem?_eq_getElem hi] at h
  simp at hi
  simp at h
  omega

theorem crum_analyze_descending_witness :
    (256 < 1000 ∧ (List.range 1000).reverse.length = 1000) ∧
    crumsort generic_build (reference_ext nat_cmp) nat_cmp (fun _ => 0) (fun _ => 0)
      (List.range 1000).reverse 1000 =
      some (List.range 1000, [Call.crum_analyze 1000, Call.quad_reversal 0 999]) := by
  have hl : (List.range 1000).reverse.length = 1000 := by
    rw [List.length_reverse, List.length_range]
  have h := (crum_analyze_descending generic_build (reference_ext nat_cmp) nat_cmp
      (fun _ => 0) (fun _ => 0) (List.range 1000).reverse [] 0 1000 (by decide) hl
      (fun i a b ha hb => by
        have e1 := range_reverse_getElem?_some 1000 i a ha
        have e2 := range_reverse_getElem?_some 1000 (i + 1) b hb
        unfold nat_cmp
        rw [if_neg (by omega), if_pos (by omega)]
        decide)).2.2.1
  rw [List.reverse_reverse] at h
  exact ⟨⟨by decide, hl⟩, h⟩

/-! ## The partition kernels -/

theorem rd_of_eq {α : Type} (a : List α) (i : Int) (j : Nat) (h : i = (j : Int)) :
    rd a i = a[j]? := by
  subst h
  unfold rd
  simp

theorem wr_of_eq {α : Type} (a : List α) (i : Int) (j : Nat) (v : α) (h : i = (j : Int))
    (hj : j < a.length) : wr a i v = some (a.set j v) := by
  subst h
  unfold wr
  simp [hj]

theorem filter_length_add {α : Type} (p : α → Bool) (l : List α) :
    (l.filter p).length + (l.filter (fun x => !p x)).length = l.length := by
  have := (List.filter_append_perm p l).length_eq
  rw [List.length_append] at this
  exact this

theorem below_above_length {α : Type} (cmp : α → α → Int) (piv : α) (P : List α) :
    (P.filter (below cmp piv)).length + (P.filter (above cmp piv)).length = P.length :=
  filter_length_add (below cmp piv) P

theorem filter_below_snoc {α : Type} (cmp : α → α → Int) (piv : α) (P : List α) (e : α) :
    (P ++ [e]).filter (below cmp piv) =
      P.filter (below cmp piv) ++ (if cmp e piv ≤ 0 then [e] else []) := by
  rw [List.filter_append]
  congr 1
  by_cases h : cmp e piv ≤ 0
  · rw [if_pos h]
    simp [List.filter, below, h]
  · rw [if_neg h]
    simp [List.filter, below, h]

theorem filter_above_snoc {α : Type} (cmp : α → α → Int) (piv : α) (P : List α) (e : α) :
    (P ++ [e]).filter (above cmp piv) =
      P.filter (above cmp piv) ++ (if cmp e piv ≤ 0 then [] else [e]) := by
  rw [List.filter_append]
  congr 1
  by_cases h : cmp e piv ≤ 0
  · rw [if_pos h]
    simp [List.filter, above, below, h]
  · rw [if_neg h]
    simp [List.filter, above, below, h]

/-- The two stores `ptl[m] = ptr[m] = e` of one element keep the pass invariant and
touch only the slots `m` and `ptr + m`. -/
theorem pass_write {α : Type} (cmp : α → α → Int) (piv : α) (A0 : List α) (n : Nat)
    (s : Fulcrum α) (P : List α) (hinv : PassInv cmp piv A0 n s P) (hk : P.length < n)
    (hn : n ≤ A0.length) (e : α) :
    ∃ a1 a2, wr s.array (s.ptr + s.m) e = some a1 ∧ wr a1 s.m e = some a2 ∧
      (∀ pta tpa gaps, PassInv cmp piv A0 n
        { array := a2, m := s.m + (if cmp e piv ≤ 0 then 1 else 0), ptr := s.ptr - 1,
          pta := pta, tpa := tpa, gaps := gaps } (P ++ [e])) ∧
      (∀ j, j ≠ s.m → j ≠ n - 1 - P.length + s.m → a2[j]? = s.array[j]?) := by
  obtain ⟨hlen, hm, hptr, hleft, hright, hrest⟩ := hinv
  have hsum := below_above_length cmp piv P
  have hw : s.ptr + (s.m : Int) = ((n - 1 - P.length + s.m : Nat) : Int) := by omega
  have hwlt : n - 1 - P.length + s.m < s.array.length := by omega
  have hmlt : s.m < (s.array.set (n - 1 - P.length + s.m) e).length := by
    rw [List.length_set]; omega
  refine ⟨_, _, wr_of_eq _ _ _ e hw hwlt, wr_of_eq _ _ _ e rfl hmlt, ?_, ?_⟩
  · intro pta tpa gaps
    refine ⟨?_, ?_, ?_, ?_, ?_, ?_⟩
    · show ((s.array.set _ e).set _ e).length = A0.length
      rw [List.length_set, List.length_set]; exact hlen
    · show s.m + _ = _
      rw [filter_below_snoc, List.length_append, ← hm]
      split <;> rfl
    · show s.ptr - 1 = _
      rw [List.length_append]
      simp only [List.length_singleton]
      omega
    · intro j hj
      show ((s.array.set _ e).set _ e)[j]? = _
      rw [filter_below_snoc]
      by_cases hj2 : j < s.m
      · rw [List.getElem?_set_ne (by omega), List.getElem?_set_ne (by omega),
          List.getElem?_append_left (by omega)]
        exact hleft j hj2
      · have hle : cmp e piv ≤ 0 := by
          by_contra hc
          rw [if_neg hc] at hj
          simp at hj
          omega
        rw [if_pos hle] at hj ⊢
        have ej : j = s.m := by simp at hj; omega
        subst ej
        rw [List.getElem?_set, if_pos rfl, if_pos hmlt,
          List.getElem?_append_right (by omega)]
        simp [← hm]
    · intro j hj
      show ((s.array.set _ e).set _ e)[n - 1 - j]? = _
      rw [filter_above_snoc]
      rw [List.length_append] at hj
      simp only [List.length_singleton] at hj
      by_cases hj2 : j + s.m < P.length
      · rw [List.getElem?_set_ne (by omega), List.getElem?_set_ne (by omega),
          List.getElem?_append_left (by omega)]
        exact hright j hj2
      · have hle : ¬ cmp e piv ≤ 0 := by
          intro hc
          rw [if_pos hc] at hj
          omega
        rw [if_neg hle] at hj ⊢
        have ej : n - 1 - j = n - 1 - P.length + s.m := by omega
        rw [ej, List.getElem?_append_right (by omega)]
        have e0 : j - (List.filter (above cmp piv) P).length = 0 := by omega
        rw [e0]
        by_cases hmw : s.m = n - 1 - P.length + s.m
        · rw [List.getElem?_set, if_pos hmw, if_pos hmlt]; rfl
        · rw [List.getElem?_set_ne hmw, List.getElem?_set, if_pos rfl, if_pos hwlt]; rfl
    · intro j hj
      show ((s.array.set _ e).set _ e)[j]? = _
      rw [List.getElem?_set_ne (by omega), List.getElem?_set_ne (by omega)]
      exact hrest j hj
  · intro j h1 h2
    rw [List.getElem?_set_ne (fun h => h1 h.symm), List.getElem?_set_ne (fun h => h2 h.symm)]


theorem take_succ_of_getElem? {α : Type} (l : List α) (i : Nat) (e : α) (h : l[i]? = some e) :
    l.take (i + 1) = l.take i ++ [e] := by
  rw [List.take_succ, h]
  rfl

theorem drop_take_cons {α : Type} (l : List α) (i k : Nat) (e : α) (h : l[i]? = some e) :
    (l.drop i).take (k + 1) = e :: (l.drop (i + 1)).take k := by
  have hi : i < l.length := by
    by_contra hc
    rw [List.getElem?_eq_none (by omega)] at h
    exact absurd h (by simp)
  rw [List.getElem?_eq_getElem hi] at h
  rw [List.drop_eq_getElem_cons hi, List.take_succ_cons]
  congr 1
  exact Option.some.inj h

/-- One element taken from `pta` (line 310) in the first phase of the default pass. -/
theorem main_step_pta {α : Type} (cmp : α → α → Int) (piv : α) (A0 : List α) (n : Nat)
    (s : Fulcrum α) (P : List α) (L R : Nat) (hinv : MainInv cmp piv A0 n s P L R)
    (hn : n ≤ A0.length) (hmore : L + R + 64 < n) (hgap : 32 + L < s.m + 64) :
    ∃ e s', default_pta cmp piv s = some s' ∧
      MainInv cmp piv A0 n s' (P ++ [e]) (L + 1) R ∧ s.m ≤ s'.m ∧ s'.m ≤ s.m + 1 := by
  obtain ⟨hpass, hk, hpta, htpa, hle, hg0, hg1, hmid, hperm, hgaps⟩ := hinv
  have hlen := hpass.1
  have hin : 32 + L < A0.length := by omega
  have hread : s.array[32 + L]? = some (A0[32 + L]) := by
    rw [hmid (32 + L) (Nat.le_refl _) (by omega)]
    exact List.getElem?_eq_getElem hin
  obtain ⟨a1, a2, w1, w2, hnew, hframe⟩ :=
    pass_write cmp piv A0 n s P hpass (by omega) hn (A0[32 + L])
  refine ⟨A0[32 + L],
    { array := a2, m := s.m + (if cmp A0[32 + L] piv ≤ 0 then 1 else 0), ptr := s.ptr - 1,
      pta := s.pta + 1, tpa := s.tpa,
      gaps := (s.pta + 1 - 0 - (s.m + (if cmp A0[32 + L] piv ≤ 0 then 1 else 0) : Nat)) ::
        s.gaps }, ?_, ?_, ?_, ?_⟩
  · unfold default_pta
    rw [rd_of_eq s.array s.pta (32 + L) (by rw [hpta]; push_cast; rfl), hread]
    simp only [Option.some_bind, w1, w2]
  · refine ⟨hnew _ _ _, ?_, ?_, ?_, ?_, ?_, ?_, ?_, ?_, ?_⟩
    · rw [List.length_append, hk]
      simp only [List.length_singleton]
      omega
    · show s.pta + 1 = _
      rw [hpta]; push_cast; omega
    · exact htpa
    · omega
    · show s.m + _ ≤ _
      split <;> omega
    · show _ ≤ s.m + _ + 64
      omega
    · intro j h1 h2
      show a2[j]? = _
      rw [hframe j (by omega) (by omega)]
      exact hmid j (by omega) h2
    · rw [take_succ_of_getElem? (A0.drop 32) L (A0[32 + L])
        (by rw [List.getElem?_drop]; exact List.getElem?_eq_getElem hin)]
      have h1 : (P ++ [A0[32 + L]]).Perm
          ((List.take L (List.drop 32 A0) ++ List.take R (List.drop (n - 32 - R) A0)) ++
            [A0[32 + L]]) := List.Perm.append_right _ hperm
      refine h1.trans ?_
      rw [List.append_assoc, List.append_assoc]
      exact List.Perm.append_left _ List.perm_append_comm
    · intro g hg
      rcases List.mem_cons.mp hg with h | h
      · subst h
        rw [hpta]
        constructor
        · split <;> push_cast <;> omega
        · split <;> push_cast <;> omega
      · exact hgaps g h
  · show s.m ≤ s.m + _
    omega
  · show s.m + _ ≤ s.m + 1
    split <;> omega

/-- One element taken from `tpa` (line 319) in the first phase of the default pass. -/
theorem main_step_tpa {α : Type} (cmp : α → α → Int) (piv : α) (A0 : List α) (n : Nat)
    (s : Fulcrum α) (P : List α) (L R : Nat) (hinv : MainInv cmp piv A0 n s P L R)
    (hn : n ≤ A0.length) (hmore : L + R + 64 < n) (hgap : s.m < 32 + L) :
    ∃ e s', default_tpa cmp piv s = some s' ∧
      MainInv cmp piv A0 n s' (P ++ [e]) L (R + 1) ∧ s.m ≤ s'.m ∧ s'.m ≤ s.m + 1 := by
  obtain ⟨hpass, hk, hpta, htpa, hle, hg0, hg1, hmid, hperm, hgaps⟩ := hinv
  have hlen := hpass.1
  have hin : n - 33 - R < A0.length := by omega
  have hread : s.array[n - 33 - R]? = some (A0[n - 33 - R]) := by
    rw [hmid (n - 33 - R) (by omega) (by omega)]
    exact List.getElem?_eq_getElem hin
  obtain ⟨a1, a2, w1, w2, hnew, hframe⟩ :=
    pass_write cmp piv A0 n s P hpass (by omega) hn (A0[n - 33 - R])
  refine ⟨A0[n - 33 - R],
    { array := a2, m := s.m + (if cmp A0[n - 33 - R] piv ≤ 0 then 1 else 0), ptr := s.ptr - 1,
      pta := s.pta, tpa := s.tpa - 1,
      gaps := (s.pta - 0 - (s.m + (if cmp A0[n - 33 - R] piv ≤ 0 then 1 else 0) : Nat)) ::
        s.gaps }, ?_, ?_, ?_, ?_⟩
  · unfold default_tpa
    rw [rd_of_eq s.array s.tpa (n - 33 - R) (by rw [htpa]; omega), hread]
    simp only [Option.some_bind, w1, w2]
  · refine ⟨hnew _ _ _, ?_, ?_, ?_, ?_, ?_, ?_, ?_, ?_, ?_⟩
    · rw [List.length_append, hk]
      simp only [List.length_singleton]
      omega
    · exact hpta
    · show s.tpa - 1 = _
      rw [htpa]; push_cast; omega
    · omega
    · show s.m + _ ≤ _
      split <;> omega
    · show _ ≤ s.m + _ + 64
      omega
    · intro j h1 h2
      show a2[j]? = _
      rw [hframe j (by omega) (by omega)]
      exact hmid j h1 (by omega)
    · have e1 : n - 32 - (R + 1) = n - 33 - R := by omega
      have e2 : n - 33 - R + 1 = n - 32 - R := by omega
      rw [e1, drop_take_cons A0 (n - 33 - R) R (A0[n - 33 - R])
        (List.getElem?_eq_getElem hin), e2]
      have h1 : (P ++ [A0[n - 33 - R]]).Perm
          ((List.take L (List.drop 32 A0) ++ List.take R (List.drop (n - 32 - R) A0)) ++
            [A0[n - 33 - R]]) := List.Perm.append_right _ hperm
      refine h1.trans ?_
      rw [List.append_assoc]
      refine List.Perm.append_left _ ?_
      exact List.perm_append_comm.trans (List.Perm.refl _)
    · intro g hg
      rcases List.mem_cons.mp hg with h | h
      · subst h
        rw [hpta]
        constructor
        · split <;> push_cast <;> omega
        · split <;> push_cast <;> omega
      · exact hgaps g h
  · show s.m ≤ s.m + _
    omega
  · show s.m + _ ≤ s.m + 1
    split <;> omega


/-- A run of `j` elements taken from `pta`, started with a gap of at most `64 - j`. -/
theorem main_batch_pta {α : Type} (cmp : α → α → Int) (piv : α) (A0 : List α) (n R : Nat)
    (hn : n ≤ A0.length) :
    ∀ (j : Nat) (s : Fulcrum α) (P : List α) (L : Nat), MainInv cmp piv A0 n s P L R →
      L + R + 64 + j ≤ n → 32 + L + j ≤ s.m + 64 →
      ∃ P' s', iterate (default_pta cmp piv) j s = some s' ∧
        MainInv cmp piv A0 n s' P' (L + j) R ∧ s.m ≤ s'.m ∧ s'.m ≤ s.m + j := by
  intro j
  induction j with
  | zero =>
    intro s P L hinv _ _
    exact ⟨P, s, rfl, hinv, Nat.le_refl _, Nat.le_refl _⟩
  | succ j ih =>
    intro s P L hinv h1 h2
    obtain ⟨e, s1, e1, inv1, m1, m2⟩ :=
      main_step_pta cmp piv A0 n s P L R hinv hn (by omega) (by omega)
    obtain ⟨P', s', e2, inv2, m3, m4⟩ := ih s1 (P ++ [e]) (L + 1) inv1 (by omega) (by omega)
    refine ⟨P', s', ?_, ?_, by omega, by omega⟩
    · simp only [iterate, e1, Option.some_bind, e2]
    · have e : L + (j + 1) = L + 1 + j := by omega
      rw [e]
      exact inv2

/-- A run of `j` elements taken from `tpa`, started with a gap of at least `j`. -/
theorem main_batch_tpa {α : Type} (cmp : α → α → Int) (piv : α) (A0 : List α) (n L : Nat)
    (hn : n ≤ A0.length) :
    ∀ (j : Nat) (s : Fulcrum α) (P : List α) (R : Nat), MainInv cmp piv A0 n s P L R →
      L + R + 64 + j ≤ n → s.m + j ≤ 32 + L →
      ∃ P' s', iterate (default_tpa cmp piv) j s = some s' ∧
        MainInv cmp piv A0 n s' P' L (R + j) ∧ s.m ≤ s'.m ∧ s'.m ≤ s.m + j := by
  intro j
  induction j with
  | zero =>
    intro s P R hinv _ _
    exact ⟨P, s, rfl, hinv, Nat.le_refl _, Nat.le_refl _⟩
  | succ j ih =>
    intro s P R hinv h1 h2
    obtain ⟨e, s1, e1, inv1, m1, m2⟩ :=
      main_step_tpa cmp piv A0 n s P L R hinv hn (by omega) (by omega)
    obtain ⟨P', s', e2, inv2, m3, m4⟩ := ih s1 (P ++ [e]) (R + 1) inv1 (by omega) (by omega)
    refine ⟨P', s', ?_, ?_, by omega, by omega⟩
    · simp only [iterate, e1, Option.some_bind, e2]
    · have e : R + (j + 1) = R + 1 + j := by omega
      rw [e]
      exact inv2

/-- In the first phase the `size_t` value of `pta - ptl - m` is the exact gap. -/
theorem main_gap {α : Type} (cmp : α → α → Int) (piv : α) (A0 : List α) (n : Nat)
    (s : Fulcrum α) (P : List α) (L R : Nat) (hinv : MainInv cmp piv A0 n s P L R) :
    size_t (s.pta - 0 - (s.m : Int)) = 32 + L - s.m := by
  obtain ⟨_, _, hpta, _, _, hg0, hg1, _⟩ := hinv
  unfold size_t
  rw [hpta]
  omega

/-- The `while (1)` loop of the default pass: with `cnt` batches of 16 left and enough
room for them it returns, having taken exactly `16 * cnt` elements. -/
theorem default_loop_spec {α : Type} (cmp : α → α → Int) (piv : α) (A0 : List α) (n : Nat)
    (hn : n ≤ A0.length) :
    ∀ (fuel cnt : Nat) (s : Fulcrum α) (P : List α) (L R : Nat),
      MainInv cmp piv A0 n s P L R → L + R + 64 + 16 * cnt ≤ n → cnt < fuel →
      ∃ P' L' R' s', default_loop cmp piv fuel cnt s = some s' ∧
        MainInv cmp piv A0 n s' P' L' R' ∧ L' + R' = L + R + 16 * cnt := by
  intro fuel
  induction fuel with
  | zero => intro cnt s P L R _ _ hf; omega
  | succ fuel ih =>
    intro cnt s P L R hinv hroom hf
    have hgap := main_gap cmp piv A0 n s P L R hinv
    have hg0 := hinv.2.2.2.2.2.1
    have hg1 := hinv.2.2.2.2.2.2.1
    unfold default_loop
    rw [hgap]
    by_cases h48 : 32 + L - s.m ≤ 48
    · rw [if_pos h48]
      by_cases hc : cnt = 0
      · rw [if_pos hc]
        exact ⟨P, L, R, s, rfl, hinv, by omega⟩
      · rw [if_neg hc]
        obtain ⟨P1, s1, e1, inv1, m1, m2⟩ :=
          main_batch_pta cmp piv A0 n R hn 16 s P L hinv (by omega) (by omega)
        have hgap1 := main_gap cmp piv A0 n s1 P1 (L + 16) R inv1
        have hg01 := inv1.2.2.2.2.2.1
        rw [e1]
        simp only [Option.some_bind]
        rw [hgap1]
        by_cases h16 : 32 + (L + 16) - s1.m ≥ 16
        · rw [if_pos h16]
          by_cases hc1 : cnt - 1 = 0
          · rw [if_pos hc1]
            exact ⟨P1, L + 16, R, s1, rfl, inv1, by omega⟩
          · rw [if_neg hc1]
            obtain ⟨P2, s2, e2, inv2, m3, m4⟩ :=
              main_batch_tpa cmp piv A0 n (L + 16) hn 16 s1 P1 R inv1 (by omega) (by omega)
            rw [e2]
            simp only [Option.some_bind]
            obtain ⟨P', L', R', s', e3, inv3, hsum⟩ :=
              ih (cnt - 1 - 1) s2 P2 (L + 16) (R + 16) inv2 (by omega) (by omega)
            exact ⟨P', L', R', s', e3, inv3, by omega⟩
        · rw [if_neg h16]
          obtain ⟨P', L', R', s', e3, inv3, hsum⟩ :=
            ih (cnt - 1) s1 P1 (L + 16) R inv1 (by omega) (by omega)
          exact ⟨P', L', R', s', e3, inv3, by omega⟩
    · rw [if_neg h48]
      have h16 : 32 + L - s.m ≥ 16 := by omega
      rw [if_pos h16]
      by_cases hc : cnt = 0
      · rw [if_pos hc]
        exact ⟨P, L, R, s, rfl, hinv, by omega⟩
      · rw [if_neg hc]
        obtain ⟨P2, s2, e2, inv2, m3, m4⟩ :=
          main_batch_tpa cmp piv A0 n L hn 16 s P R hinv (by omega) (by omega)
        rw [e2]
        simp only [Option.some_bind]
        obtain ⟨P', L', R', s', e3, inv3, hsum⟩ :=
          ih (cnt - 1) s2 P2 L (R + 16) inv2 (by omega) (by omega)
        exact ⟨P', L', R', s', e3, inv3, by omega⟩


/-- The pass invariant speaks of `array`, `m` and `ptr` only. -/
theorem PassInv_congr {α : Type} (cmp : α → α → Int) (piv : α) (A0 : List α) (n : Nat)
    (s s' : Fulcrum α) (P : List α) (h : PassInv cmp piv A0 n s P)
    (ha : s'.array = s.array) (hm : s'.m = s.m) (hp : s'.ptr = s.ptr) :
    PassInv cmp piv A0 n s' P := by
  unfold PassInv at h ⊢
  rw [ha, hm, hp]
  exact h

/-- One element drained from the scratch buffer (lines 342-345). -/
theorem drain_step {α : Type} (cmp : α → α → Int) (piv : α) (A0 swap : List α) (n : Nat)
    (s : Fulcrum α) (P : List α) (hinv : PassInv cmp piv A0 n s P) (hk : P.length < n)
    (hn : n ≤ A0.length) (i : Nat) (e : α) (hi : s.pta = (i : Int))
    (he : swap[i]? = some e) :
    ∃ s', default_swap cmp piv swap s = some s' ∧ PassInv cmp piv A0 n s' (P ++ [e]) ∧
      s'.pta = ((i + 1 : Nat) : Int) ∧ s'.gaps = s.gaps := by
  obtain ⟨a1, a2, w1, w2, hnew, _⟩ := pass_write cmp piv A0 n s P hinv hk hn e
  refine ⟨{ array := a2, m := s.m + (if cmp e piv ≤ 0 then 1 else 0), ptr := s.ptr - 1,
            pta := s.pta + 1, tpa := s.tpa, gaps := s.gaps }, ?_, hnew _ _ _, ?_, rfl⟩
  · unfold default_swap
    rw [rd_of_eq swap s.pta i hi, he]
    simp only [Option.some_bind, w1, w2]
  · show s.pta + 1 = _
    rw [hi]
    push_cast
    rfl

/-- The drain of `j` elements `swap[i .. i + j)` through the kernel. -/
theorem drain_spec {α : Type} (cmp : α → α → Int) (piv : α) (A0 swap : List α) (n : Nat)
    (hn : n ≤ A0.length) :
    ∀ (j : Nat) (s : Fulcrum α) (P : List α) (i : Nat), PassInv cmp piv A0 n s P →
      s.pta = (i : Int) → P.length + j ≤ n → i + j ≤ swap.length →
      ∃ s', iterate (default_swap cmp piv swap) j s = some s' ∧
        PassInv cmp piv A0 n s' (P ++ (swap.drop i).take j) ∧ s'.gaps = s.gaps := by
  intro j
  induction j with
  | zero =>
    intro s P i hinv _ _ _
    refine ⟨s, rfl, ?_, rfl⟩
    simpa using hinv
  | succ j ih =>
    intro s P i hinv hi hk hsw
    have hlt : i < swap.length := by omega
    have he : swap[i]? = some (swap[i]) := List.getElem?_eq_getElem hlt
    obtain ⟨s1, e1, inv1, p1, g1⟩ :=
      drain_step cmp piv A0 swap n s P hinv (by omega) hn i _ hi he
    obtain ⟨s', e2, inv2, g2⟩ := ih s1 (P ++ [swap[i]]) (i + 1) inv1 p1
      (by rw [List.length_append]; simp only [List.length_singleton]; omega) (by omega)
    refine ⟨s', ?_, ?_, by rw [g2, g1]⟩
    · simp only [iterate, e1, Option.some_bind, e2]
    · rw [drop_take_cons swap i j _ he]
      rw [List.append_assoc] at inv2
      exact inv2

/-- At the end of a pass the array is the elements `<= piv` in the order taken,
followed by the others in reverse order, followed by what lay beyond `array + n`. -/
theorem pass_final {α : Type} (cmp : α → α → Int) (piv : α) (A0 : List α) (n : Nat)
    (s : Fulcrum α) (P : List α) (hinv : PassInv cmp piv A0 n s P) (hk : P.length = n)
    (hn : n ≤ A0.length) :
    s.array = P.filter (below cmp piv) ++ (P.filter (above cmp piv)).reverse ++ A0.drop n := by
  obtain ⟨hlen, hm, hptr, hleft, hright, hrest⟩ := hinv
  have hsum := below_above_length cmp piv P
  apply List.ext_getElem?
  intro i
  by_cases h1 : i < s.m
  · rw [List.append_assoc, List.getElem?_append_left (by omega)]
    exact hleft i h1
  · by_cases h2 : i < n
    · rw [List.getElem?_append_left (by rw [List.length_append, List.length_reverse]; omega),
        List.getElem?_append_right (by omega), List.getElem?_reverse (by omega)]
      have e : n - 1 - (n - 1 - i) = i := by omega
      have := hright (n - 1 - i) (by omega)
      rw [e] at this
      rw [this]
      congr 1
      omega
    · rw [List.getElem?_append_right (by rw [List.length_append, List.length_reverse]; omega),
        List.getElem?_drop, hrest i (by omega)]
      congr 1
      rw [List.length_append, List.length_reverse]
      omega


theorem memcpy_of_eq {α : Type} (dst src : List α) (d s : Int) (dn sn len : Nat)
    (hd : d = (dn : Int)) (hs : s = (sn : Int)) (h1 : sn + len ≤ src.length)
    (h2 : dn + len ≤ dst.length) :
    memcpy dst d src s len =
      some (dst.take dn ++ (src.drop sn).take len ++ dst.drop (dn + len)) := by
  subst hd hs
  unfold memcpy
  simp [h1, h2]

/-- The two `memcpy` calls that save the first and last 32 elements. -/
theorem boundary_copies {α : Type} (A0 swap : List α) (n : Nat) (h64 : 64 ≤ n)
    (hn : n ≤ A0.length) (hsw : 64 ≤ swap.length) :
    memcpy swap 0 A0 0 32 = some (A0.take 32 ++ swap.drop 32) ∧
    memcpy (A0.take 32 ++ swap.drop 32) 32 A0 ((n : Int) - 32) 32 =
      some (A0.take 32 ++ (A0.drop (n - 32)).take 32 ++ swap.drop 64) := by
  have hl : (A0.take 32).length = 32 := by rw [List.length_take]; omega
  constructor
  · rw [memcpy_of_eq swap A0 0 0 0 0 32 rfl rfl (by omega) (by omega)]
    simp
  · have hs : ((n : Int) - 32) = ((n - 32 : Nat) : Int) := by omega
    have h1 : n - 32 + 32 ≤ A0.length := by omega
    have h2 : 32 + 32 ≤ (A0.take 32 ++ swap.drop 32).length := by
      rw [List.length_append, hl, List.length_drop]; omega
    have t : (A0.take 32 ++ swap.drop 32).take 32 = A0.take 32 := List.take_left' hl
    have d : (A0.take 32 ++ swap.drop 32).drop (32 + 32) = swap.drop 64 := by
      have e : 32 + 32 = (A0.take 32).length + 32 := by omega
      rw [e, List.drop_append, List.drop_drop]
    rw [memcpy_of_eq (A0.take 32 ++ swap.drop 32) A0 32 ((n : Int) - 32) 32 (n - 32) 32 rfl
      hs h1 h2, t, d]

theorem take_boundary {α : Type} (A0 swap : List α) (n : Nat) (h64 : 64 ≤ n)
    (hn : n ≤ A0.length) :
    ((A0.take 32 ++ (A0.drop (n - 32)).take 32 ++ swap.drop 64).drop 0).take 64 =
      A0.take 32 ++ (A0.drop (n - 32)).take 32 := by
  have hl : (A0.take 32 ++ (A0.drop (n - 32)).take 32).length = 64 := by
    rw [List.length_append, List.length_take, List.length_take, List.length_drop]; omega
  rw [List.drop_zero]
  exact List.take_left' hl

/-- The input `array[0 .. n)` cut into the four runs the pass takes. -/
theorem input_runs {α : Type} (A0 : List α) (n L R : Nat) (h : L + R + 64 = n) :
    A0.take n = A0.take 32 ++ ((A0.drop 32).take L ++
      ((A0.drop (n - 32 - R)).take R ++ (A0.drop (n - 32)).take 32)) := by
  have e : n = 32 + (L + (R + 32)) := by omega
  have e1 : n - 32 - R = 32 + L := by omega
  have e2 : n - 32 = 32 + L + R := by omega
  rw [e1, e2]
  conv => lhs; rw [e]
  rw [List.take_add, List.take_add, List.take_add]
  simp only [List.drop_drop]

/-- The default pass on `array[0 .. n)`, `n >= 64`, with at least 64 scratch slots:
it returns; the elements taken, in the order `P` in which they were taken, are a
permutation of the input range; and the result is laid out as in `pass_final`. -/
theorem fulcrum_default_partition_spec {α : Type} (cmp : α → α → Int) (piv : α)
    (A0 swap : List α) (n : Nat) (h64 : 64 ≤ n) (hn : n ≤ A0.length) (hsz : n < 2 ^ 64)
    (hsw : 64 ≤ swap.length) :
    ∃ (P : List α) (gaps : List Int), P.Perm (A0.take n) ∧
      fulcrum_default_partition cmp A0 swap piv n =
        some ((P.filter (below cmp piv)).length,
          P.filter (below cmp piv) ++ (P.filter (above cmp piv)).reverse ++ A0.drop n,
          A0.take 32 ++ (A0.drop (n - 32)).take 32 ++ swap.drop 64, gaps) ∧
      (∀ g, g ∈ gaps → 0 ≤ g ∧ g ≤ 64) := by
  obtain ⟨c1, c2⟩ := boundary_copies A0 swap n h64 hn hsw
  have hcnt : size_t (((n / 16 : Nat) : Int) - 4) = n / 16 - 4 := by
    unfold size_t
    omega
  have inv0 : MainInv cmp piv A0 n
      { array := A0, m := 0, ptr := (n : Int) - 1, pta := 32, tpa := (n : Int) - 33,
        gaps := [32] } [] 0 0 := by
    refine ⟨⟨rfl, rfl, ?_, ?_, ?_, fun _ _ => rfl⟩, rfl, rfl, ?_, by omega, Nat.zero_le _,
      (by show 32 + 0 ≤ 0 + 64; omega), fun _ _ _ => rfl, ?_, ?_⟩
    · show (n : Int) - 1 = _
      simp
    · intro j hj
      exact absurd hj (Nat.not_lt_zero _)
    · intro j hj
      exact absurd hj (Nat.not_lt_zero _)
    · show (n : Int) - 33 = _
      simp
    · simp
    · intro g hg
      rw [List.mem_singleton] at hg
      subst hg
      constructor <;> decide
  obtain ⟨P1, L1, R1, s1, e1, inv1, hs1⟩ :=
    default_loop_spec cmp piv A0 n hn (n / 16 - 4 + 1) (n / 16 - 4) _ [] 0 0 inv0
      (by omega) (by omega)
  have hgap1 := main_gap cmp piv A0 n s1 P1 L1 R1 inv1
  have hg01 := inv1.2.2.2.2.2.1
  have hg11 := inv1.2.2.2.2.2.2.1
  have tail : ∃ P2 L2 R2 s2,
      (if size_t (s1.pta - 0 - (s1.m : Int)) ≤ 48 then
          iterate (default_pta cmp piv) (n % 16) s1
        else iterate (default_tpa cmp piv) (n % 16) s1) = some s2 ∧
      MainInv cmp piv A0 n s2 P2 L2 R2 ∧ L2 + R2 + 64 = n := by
    rw [hgap1]
    by_cases h48 : 32 + L1 - s1.m ≤ 48
    · rw [if_pos h48]
      obtain ⟨P2, s2, e2, inv2, _, _⟩ :=
        main_batch_pta cmp piv A0 n R1 hn (n % 16) s1 P1 L1 inv1 (by omega) (by omega)
      exact ⟨P2, L1 + n % 16, R1, s2, e2, inv2, by omega⟩
    · rw [if_neg h48]
      obtain ⟨P2, s2, e2, inv2, _, _⟩ :=
        main_batch_tpa cmp piv A0 n L1 hn (n % 16) s1 P1 R1 inv1 (by omega) (by omega)
      exact ⟨P2, L1, R1 + n % 16, s2, e2, inv2, by omega⟩
  obtain ⟨P2, L2, R2, s2, e2, inv2, hs2⟩ := tail
  obtain ⟨hpass2, hk2, _, _, _, _, _, _, hperm2, hgaps2⟩ := inv2
  have hpass2' : PassInv cmp piv A0 n { s2 with pta := 0 } P2 :=
    PassInv_congr cmp piv A0 n s2 _ P2 hpass2 rfl rfl rfl
  obtain ⟨s3, e3, inv3, g3⟩ :=
    drain_spec cmp piv A0 (A0.take 32 ++ (A0.drop (n - 32)).take 32 ++ swap.drop 64) n hn
      (16 * 4) { s2 with pta := 0 } P2 0 hpass2' rfl (by omega)
      (by rw [List.length_append, List.length_append, List.length_take, List.length_take,
            List.length_drop, List.length_drop]; omega)
  rw [take_boundary A0 swap n h64 hn] at inv3
  have hlen3 : (P2 ++ (A0.take 32 ++ (A0.drop (n - 32)).take 32)).length = n := by
    rw [List.length_append, List.length_append, List.length_take, List.length_take,
      List.length_drop, hk2]
    omega
  refine ⟨P2 ++ (A0.take 32 ++ (A0.drop (n - 32)).take 32), s3.gaps, ?_, ?_, ?_⟩
  · rw [input_runs A0 n L2 R2 hs2]
    have p1 : (P2 ++ (A0.take 32 ++ (A0.drop (n - 32)).take 32)).Perm
        (((A0.drop 32).take L2 ++ (A0.drop (n - 32 - R2)).take R2) ++
          (A0.take 32 ++ (A0.drop (n - 32)).take 32)) := List.Perm.append_right _ hperm2
    refine p1.trans ?_
    refine List.perm_append_comm.trans ?_
    rw [List.append_assoc]
    refine List.Perm.append_left _ ?_
    refine List.perm_append_comm.trans ?_
    rw [List.append_assoc]
  · unfold fulcrum_default_partition
    simp only [c1, c2, Option.some_bind, hcnt, e1, e2, e3]
    rw [inv3.2.1, pass_final cmp piv A0 n s3 _ inv3 hlen3 hn]
  · intro g hg
    rw [g3] at hg
    exact hgaps2 g hg


/-- C9: on an array of `n >= 64` elements with at least 64 scratch slots, for any pivot
and any comparator, `fulcrum_default_partition` returns `m`, the number of elements
`e` of the input with `cmp(e, piv) <= 0`; the array on return is a permutation of the
input whose first `m` elements satisfy `cmp(e, piv) <= 0` and whose other elements
satisfy `cmp(e, piv) > 0`; and the gap `pta - ptl - m` stayed within `[0, 64]` after
every element taken from the array. -/
theorem fulcrum_default_partition_post {α : Type} (cmp : α → α → Int) (piv : α)
    (A S : List α) (n : Nat) (h64 : 64 ≤ n) (hA : A.length = n) (hsz : n < 2 ^ 64)
    (hS : 64 ≤ S.length) :
    ∃ (m : Nat) (A' S' : List α) (gaps : List Int),
      fulcrum_default_partition cmp A S piv n = some (m, A', S', gaps) ∧
      m = A.countP (fun e => decide (cmp e piv ≤ 0)) ∧ A'.Perm A ∧
      (∀ i a, i < m → A'[i]? = some a → cmp a piv ≤ 0) ∧
      (∀ i a, m ≤ i → A'[i]? = some a → cmp a piv > 0) ∧
      (∀ g, g ∈ gaps → 0 ≤ g ∧ g ≤ 64) := by
  obtain ⟨P, gaps, hperm, hrun, hgaps⟩ :=
    fulcrum_default_partition_spec cmp piv A S n h64 (by omega) hsz hS
  have ht : A.take n = A := List.take_of_length_le (by omega)
  have hd : A.drop n = [] := List.drop_eq_nil_of_le (by omega)
  rw [ht] at hperm
  rw [hd, List.append_nil] at hrun
  refine ⟨_, _, _, gaps, hrun, ?_, ?_, ?_, ?_, hgaps⟩
  · rw [← List.countP_eq_length_filter, hperm.countP_eq]
    rfl
  · refine (List.Perm.append_left _ (List.reverse_perm _)).trans ?_
    exact (List.filter_append_perm (below cmp piv) P).trans hperm
  · intro i a hi ha
    rw [List.getElem?_append_left hi] at ha
    have hmem : a ∈ P.filter (below cmp piv) := List.getElem?_mem ha
    have := (List.mem_filter.mp hmem).2
    unfold below at this
    exact of_decide_eq_true this
  · intro i a hi ha
    rw [List.getElem?_append_right hi] at ha
    have hmem : a ∈ (P.filter (above cmp piv)).reverse := List.getElem?_mem ha
    have := (List.mem_filter.mp (List.mem_reverse.mp hmem)).2
    unfold above below at this
    simp at this
    omega

theorem fulcrum_default_partition_post_witness :
    (64 ≤ 64 ∧ (List.range 64).length = 64 ∧ 64 < 2 ^ 64 ∧
      64 ≤ (List.replicate 64 0).length) ∧
    ∃ (m : Nat) (A' S' : List Nat) (gaps : List Int),
      fulcrum_default_partition nat_cmp (List.range 64) (List.replicate 64 0) 40 64 =
        some (m, A', S', gaps) ∧
      m = (List.range 64).countP (fun e => decide (nat_cmp e 40 ≤ 0)) ∧
      A'.Perm (List.range 64) ∧
      (∀ i a, i < m → A'[i]? = some a → nat_cmp a 40 ≤ 0) ∧
      (∀ i a, m ≤ i → A'[i]? = some a → nat_cmp a 40 > 0) ∧
      (∀ g, g ∈ gaps → 0 ≤ g ∧ g ≤ 64) :=
  ⟨⟨by decide, by decide, by decide, by decide⟩,
   fulcrum_default_partition_post nat_cmp 40 (List.range 64) (List.replicate 64 0) 64
     (by decide) (by decide) (by decide) (by decide)⟩

/-! ## The reverse partition is the default partition with another test -/

theorem reverse_cmp_val {α : Type} (cmp : α → α → Int) (piv e : α) :
    (if reverse_cmp cmp e piv ≤ 0 then 1 else 0 : Nat) = (if cmp piv e > 0 then 1 else 0) := by
  unfold reverse_cmp
  by_cases h : cmp piv e > 0
  · rw [if_pos h, if_pos h, if_pos (by decide)]
  · rw [if_neg h, if_neg h, if_neg (by decide)]

theorem reverse_pta_eq {α : Type} (cmp : α → α → Int) (piv : α) :
    reverse_pta cmp piv = default_pta (reverse_cmp cmp) piv := by
  funext s
  unfold reverse_pta default_pta
  simp only [reverse_cmp_val]

theorem reverse_tpa_eq {α : Type} (cmp : α → α → Int) (piv : α) :
    reverse_tpa cmp piv = default_tpa (reverse_cmp cmp) piv := by
  funext s
  unfold reverse_tpa default_tpa
  simp only [reverse_cmp_val]

theorem reverse_swap_eq {α : Type} (cmp : α → α → Int) (piv : α) (swap : List α) :
    reverse_swap cmp piv swap = default_swap (reverse_cmp cmp) piv swap := by
  funext s
  unfold reverse_swap default_swap
  simp only [reverse_cmp_val]

theorem reverse_loop_eq {α : Type} (cmp : α → α → Int) (piv : α) :
    ∀ (fuel cnt : Nat) (s : Fulcrum α),
      reverse_loop cmp piv fuel cnt s = default_loop (reverse_cmp cmp) piv fuel cnt s := by
  intro fuel
  induction fuel with
  | zero => intro cnt s; rfl
  | succ fuel ih =>
    intro cnt s
    unfold reverse_loop default_loop
    simp only [reverse_pta_eq, reverse_tpa_eq, ih]

/-- The reverse partition is the default partition run with `reverse_cmp cmp`. -/
theorem fulcrum_reverse_partition_eq {α : Type} (cmp : α → α → Int) (array swap : List α)
    (piv : α) (nmemb : Nat) :
    fulcrum_reverse_partition cmp array swap piv nmemb =
      fulcrum_default_partition (reverse_cmp cmp) array swap piv nmemb := by
  unfold fulcrum_reverse_partition fulcrum_default_partition
  simp only [reverse_pta_eq, reverse_tpa_eq, reverse_swap_eq, reverse_loop_eq]

theorem reverse_cmp_le {α : Type} (cmp : α → α → Int) (piv e : α) :
    reverse_cmp cmp e piv ≤ 0 ↔ cmp piv e > 0 := by
  unfold reverse_cmp
  by_cases h : cmp piv e > 0
  · rw [if_pos h]; simp [h]
  · rw [if_neg h]; simp [h]

/-- C10: on an array of `n >= 64` elements with at least 64 scratch slots, for any
pivot and any comparator, `fulcrum_reverse_partition` returns `m`, the number of input
elements `e` with `cmp(piv, e) > 0`; the array on return is a permutation of the input
whose first `m` elements satisfy `cmp(piv, e) > 0` and whose other elements satisfy
`cmp(piv, e) <= 0`; and the function is `fulcrum_default_partition` with the test
`cmp(e, piv) <= 0` replaced by `cmp(piv, e) > 0`. -/
theorem fulcrum_reverse_partition_post {α : Type} (cmp : α → α → Int) (piv : α)
    (A S : List α) (n : Nat) (h64 : 64 ≤ n) (hA : A.length = n) (hsz : n < 2 ^ 64)
    (hS : 64 ≤ S.length) :
    (∃ (m : Nat) (A' S' : List α) (gaps : List Int),
      fulcrum_reverse_partition cmp A S piv n = some (m, A', S', gaps) ∧
      m = A.countP (fun e => decide (cmp piv e > 0)) ∧ A'.Perm A ∧
      (∀ i a, i < m → A'[i]? = some a → cmp piv a > 0) ∧
      (∀ i a, m ≤ i → A'[i]? = some a → cmp piv a ≤ 0) ∧
      (∀ g, g ∈ gaps → 0 ≤ g ∧ g ≤ 64)) ∧
    fulcrum_reverse_partition cmp A S piv n =
      fulcrum_default_partition (fun e p => if cmp p e > 0 then 0 else 1) A S piv n := by
  refine ⟨?_, fulcrum_reverse_partition_eq cmp A S piv n⟩
  obtain ⟨m, A', S', gaps, hrun, hm, hperm, hlo, hhi, hg⟩ :=
    fulcrum_default_partition_post (reverse_cmp cmp) piv A S n h64 hA hsz hS
  refine ⟨m, A', S', gaps, ?_, ?_, hperm, ?_, ?_, hg⟩
  · rw [fulcrum_reverse_partition_eq]; exact hrun
  · rw [hm]
    congr 1
    funext e
    exact decide_eq_decide.mpr (reverse_cmp_le cmp piv e)
  · intro i a hi ha
    exact (reverse_cmp_le cmp piv a).mp (hlo i a hi ha)
  · intro i a hi ha
    have := hhi i a hi ha
    by_contra hc
    have := (reverse_cmp_le cmp piv a).mpr (by omega)
    omega

theorem fulcrum_reverse_partition_post_witness :
    (64 ≤ 64 ∧ (List.range 64).length = 64 ∧ 64 < 2 ^ 64 ∧
      64 ≤ (List.replicate 64 0).length) ∧
    (∃ (m : Nat) (A' S' : List Nat) (gaps : List Int),
      fulcrum_reverse_partition nat_cmp (List.range 64) (List.replicate 64 0) 40 64 =
        some (m, A', S', gaps) ∧
      m = (List.range 64).countP (fun e => decide (nat_cmp 40 e > 0)) ∧
      A'.Perm (List.range 64) ∧
      (∀ i a, i < m → A'[i]? = some a → nat_cmp 40 a > 0) ∧
      (∀ i a, m ≤ i → A'[i]? = some a → nat_cmp 40 a ≤ 0) ∧
      (∀ g, g ∈ gaps → 0 ≤ g ∧ g ≤ 64)) ∧
    fulcrum_reverse_partition nat_cmp (List.range 64) (List.replicate 64 0) 40 64 =
      fulcrum_default_partition (fun e p => if nat_cmp p e > 0 then 0 else 1)
        (List.range 64) (List.replicate 64 0) 40 64 :=
  ⟨⟨by decide, by decide, by decide, by decide⟩,
   fulcrum_reverse_partition_post nat_cmp 40 (List.range 64) (List.replicate 64 0) 64
     (by decide) (by decide) (by decide) (by decide)⟩

/-! ## The precondition of `quadsort_swap` at the calls of `crumsort` and `crum_median_of_cbrt` -/

theorem CallsOK_bind {α β : Type} (o : Option β) (f : β → Run α)
    (h : ∀ v, o = some v → CallsOK (f v)) : CallsOK (o.bind f) := by
  intro x hx
  cases o with
  | none => simp at hx
  | some v => exact h v rfl x hx

theorem CallsOK_ite {α : Type} (c : Prop) [Decidable c] (a b : Run α)
    (ha : CallsOK a) (hb : CallsOK b) : CallsOK (if c then a else b) := by
  split
  · exact ha
  · exact hb

theorem CallsOK_some {α : Type} (a s : List α) (cs : List Call)
    (h : ∀ c, c ∈ cs → CallOK c) : CallsOK (some (a, s, cs)) := by
  intro x hx c hc
  cases hx
  exact h c hc

theorem CallsOK_pre {α : Type} (cs : List Call) (r : Run α)
    (h : ∀ c, c ∈ cs → CallOK c) (hr : CallsOK r) : CallsOK (Run.pre cs r) := by
  intro x hx c hc
  unfold Run.pre at hx
  cases r with
  | none => simp at hx
  | some y =>
    simp at hx
    subst hx
    rcases List.mem_append.mp hc with h1 | h1
    · exact h c h1
    · exact hr y rfl c h1

theorem CallsOK_next {α : Type} (r : Run α) (f : List α → List α → Run α)
    (hr : CallsOK r) (hf : ∀ a s, CallsOK (f a s)) : CallsOK (Run.next r f) := by
  unfold Run.next
  apply CallsOK_bind
  intro v hv
  exact CallsOK_pre _ _ (hr v hv) (hf _ _)

theorem CallsOK_at_offset {α : Type} (array : List α) (off : Nat) (f : List α → Run α)
    (hf : ∀ a, CallsOK (f a)) : CallsOK (at_offset array off f) := by
  unfold at_offset
  intro x hx c hc
  cases h : f (array.drop off) with
  | none => rw [h] at hx; simp at hx
  | some y =>
    rw [h] at hx
    simp at hx
    subst hx
    exact hf _ y h c hc

theorem CallOK_other (c : Call)
    (h : ∀ site swap_size nmemb, c = Call.quadsort_swap site swap_size nmemb →
      site ≠ Site.crumsort ∧ site ≠ Site.crum_median_of_cbrt) : CallOK c := by
  intro site ss nm hc hs
  have := h site ss nm hc
  rcases hs with h1 | h1
  · exact absurd h1 this.1
  · exact absurd h1 this.2

theorem CallsOK_call_quadsort {α : Type} (ext : Ext α) (site : Site) (array swap : List α)
    (off swap_size nmemb : Nat)
    (h : site = Site.crumsort ∨ site = Site.crum_median_of_cbrt →
      swap_size ≥ nmemb ∨ nmemb ≤ 256) :
    CallsOK (call_quadsort ext site array swap off swap_size nmemb) := by
  unfold call_quadsort
  apply CallsOK_bind
  intro v _
  apply CallsOK_some
  intro c hc
  rw [List.mem_singleton] at hc
  subst hc
  intro site' ss nm heq hs
  cases heq
  exact h hs

theorem CallsOK_call_rotate_merge {α : Type} (ext : Ext α) (array swap : List α)
    (off swap_size left right : Nat) :
    CallsOK (call_rotate_merge ext array swap off swap_size left right) := by
  unfold call_rotate_merge
  apply CallsOK_bind
  intro v _
  apply CallsOK_some
  intro c hc
  rw [List.mem_singleton] at hc
  subst hc
  intro site' ss nm heq
  cases heq

/-- With 512 scratch slots the sample size `cbrt` is one of 32, 64, 128, 256, 512. -/
theorem cbrt_loop_512 (nmemb : Nat) :
    ∀ (fuel cbrt r : Nat),
      cbrt = 32 ∨ cbrt = 64 ∨ cbrt = 128 ∨ cbrt = 256 ∨ cbrt = 512 →
      cbrt_loop 512 nmemb fuel cbrt = some r →
      r = 32 ∨ r = 64 ∨ r = 128 ∨ r = 256 ∨ r = 512 := by
  intro fuel
  induction fuel with
  | zero => intro cbrt r _ h; simp [cbrt_loop] at h
  | succ fuel ih =>
    intro cbrt r hc h
    unfold cbrt_loop at h
    split at h
    · rename_i hcond
      apply ih _ r _ h
      rcases hc with h1 | h1 | h1 | h1 | h1 <;> subst h1 <;> simp at hcond ⊢
    · cases h
      exact hc


/-- The two calls of `crum_median_of_cbrt` sort at most 256 elements when the scratch
buffer has 512 slots. -/
theorem crum_median_of_cbrt_calls {α : Type} (ext : Ext α) (cmp : α → α → Int) (addr : Nat)
    (array swap : List α) (nmemb : Nat) (p : Nat × Bool × List α × List α × List Call)
    (h : crum_median_of_cbrt ext cmp addr array swap 512 nmemb = some p) :
    ∀ c, c ∈ p.2.2.2.2 → CallOK c := by
  unfold crum_median_of_cbrt at h
  cases hc : cbrt_loop 512 nmemb 64 32 with
  | none => rw [hc] at h; simp at h
  | some cbrt =>
    have hcb := cbrt_loop_512 nmemb 64 32 cbrt (Or.inl rfl) hc
    have hhalf : cbrt / 2 ≤ 256 := by omega
    rw [hc] at h
    simp only [Option.some_bind] at h
    split at h
    · simp at h
    · cases h1 : cbrt_exchange (nmemb / cbrt) cbrt array swap (cbrt : Int)
          ((nmemb : Int) - 1 - ((addr / 64 % (nmemb / cbrt) : Nat) : Int)) with
      | none => rw [h1] at h; simp at h
      | some r1 =>
        rw [h1] at h
        simp only [Option.some_bind] at h
        cases h2 : call_quadsort ext Site.crum_median_of_cbrt r1.1 r1.2 0 512 (cbrt / 2) with
        | none => rw [h2] at h; simp at h
        | some r2 =>
          rw [h2] at h
          simp only [Option.some_bind] at h
          cases h3 : call_quadsort ext Site.crum_median_of_cbrt r2.1 r2.2.1 (cbrt / 2) 512
              (cbrt / 2) with
          | none => rw [h3] at h; simp at h
          | some r3 =>
            rw [h3] at h
            simp only [Option.some_bind] at h
            have ok2 := CallsOK_call_quadsort ext Site.crum_median_of_cbrt r1.1 r1.2 0 512
              (cbrt / 2) (fun _ => Or.inr hhalf) r2 h2
            have ok3 := CallsOK_call_quadsort ext Site.crum_median_of_cbrt r2.1 r2.2.1
              (cbrt / 2) 512 (cbrt / 2) (fun _ => Or.inr hhalf) r3 h3
            intro c hcm
            have hcalls : p.2.2.2.2 = r2.2.2 ++ r3.2.2 := by
              cases ha : rd r3.1 ((cbrt / 2 * 2 : Nat) - 1) with
              | none => rw [ha] at h; simp at h
              | some hi =>
                rw [ha] at h
                simp only [Option.some_bind] at h
                cases hb : rd r3.1 0 with
                | none => rw [hb] at h; simp at h
                | some lo =>
                  rw [hb] at h
                  simp only [Option.some_bind] at h
                  cases hd : rd r3.1 ((cbrt / 2 : Nat) - 1) with
                  | none => rw [hd] at h; simp at h
                  | some mid =>
                    rw [hd] at h
                    simp only [Option.some_bind] at h
                    cases he : crum_binary_median cmp r3.1 (cbrt / 2 + 1) 0 (cbrt / 2)
                        (cbrt / 2) with
                    | none => rw [he] at h; simp at h
                    | some ptp =>
                      rw [he] at h
                      simp only [Option.some_bind, Option.some.injEq] at h
                      rw [← h]
            rw [hcalls] at hcm
            rcases List.mem_append.mp hcm with hm | hm
            · exact ok2 c hm
            · exact ok3 c hm

theorem CallOK_event (c : Call) (h : ∀ site ss nm, c ≠ Call.quadsort_swap site ss nm) :
    CallOK c := by
  intro site ss nm hc
  exact absurd hc (h site ss nm)

theorem CallsOK_fulcrum_site {α : Type} (ext : Ext α) (array swap : List α)
    (off swap_size nmemb : Nat) :
    CallsOK (call_quadsort ext Site.fulcrum_partition array swap off swap_size nmemb) :=
  CallsOK_call_quadsort ext _ _ _ _ _ _ (fun h => by rcases h with h | h <;> cases h)

theorem CallsOK_analyze_site {α : Type} (ext : Ext α) (array swap : List α)
    (off swap_size nmemb : Nat) :
    CallsOK (call_quadsort ext Site.crum_analyze array swap off swap_size nmemb) :=
  CallsOK_call_quadsort ext _ _ _ _ _ _ (fun h => by rcases h with h | h <;> cases h)

/-- Every call issued by `fulcrum_partition` with 512 scratch slots satisfies `CallOK`. -/
theorem fulcrum_partition_calls {α : Type} (ext : Ext α) (cmp : α → α → Int)
    (addr : Nat → Nat) :
    ∀ (fuel depth : Nat) (array swap : List α) (max : Option α) (nmemb : Nat),
      CallsOK (fulcrum_partition ext cmp addr 512 fuel depth array swap max nmemb) := by
  intro fuel
  induction fuel with
  | zero =>
    intro depth array swap max nmemb x hx
    simp [fulcrum_partition] at hx
  | succ fuel ih =>
    intro depth array swap max nmemb
    unfold fulcrum_partition
    apply CallsOK_bind
    intro p hp
    have hpc : ∀ c, c ∈ p.2.2.2.2 → CallOK c := by
      split at hp
      · cases h9 : crum_median_of_nine cmp array nmemb with
        | none => rw [h9] at hp; simp at hp
        | some ptp =>
          rw [h9] at hp
          simp at hp
          subst hp
          intro c hc
          simp at hc
      · exact crum_median_of_cbrt_calls ext cmp _ array swap nmemb p hp
    apply CallsOK_ite
    · exact CallsOK_pre _ _ hpc (CallsOK_fulcrum_site ext _ _ _ _ _)
    · apply CallsOK_bind
      intro piv _
      apply CallsOK_ite
      · apply CallsOK_bind
        intro q _
        apply CallsOK_pre
        · intro c hc
          rcases List.mem_append.mp hc with h1 | h1
          · exact hpc c h1
          · rw [List.mem_singleton] at h1
            subst h1
            exact CallOK_event _ (fun _ _ _ h => by cases h)
        · apply CallsOK_ite
          · exact CallsOK_fulcrum_site ext _ _ _ _ _
          · exact ih _ _ _ _ _
      · apply CallsOK_bind
        intro last _
        apply CallsOK_bind
        intro array1 _
        apply CallsOK_bind
        intro q _
        apply CallsOK_bind
        intro x _
        apply CallsOK_bind
        intro array2 _
        apply CallsOK_bind
        intro array3 _
        apply CallsOK_pre
        · intro c hc
          rcases List.mem_append.mp hc with h1 | h1
          · exact hpc c h1
          · rw [List.mem_singleton] at h1
            subst h1
            exact CallOK_event _ (fun _ _ _ h => by cases h)
        · apply CallsOK_next
          · unfold fulcrum_right
            apply CallsOK_ite
            · exact CallsOK_fulcrum_site ext _ _ _ _ _
            · apply CallsOK_pre
              · intro c hc
                rw [List.mem_singleton] at hc
                subst hc
                exact CallOK_event _ (fun _ _ _ h => by cases h)
              · apply CallsOK_at_offset
                intro a
                exact ih _ _ _ _ _
          · intro array4 swap4
            apply CallsOK_ite
            · apply CallsOK_ite
              · exact CallsOK_fulcrum_site ext _ _ _ _ _
              · apply CallsOK_bind
                intro q2 _
                apply CallsOK_pre
                · intro c hc
                  rw [List.mem_singleton] at hc
                  subst hc
                  exact CallOK_event _ (fun _ _ _ h => by cases h)
                · apply CallsOK_ite
                  · exact CallsOK_fulcrum_site ext _ _ _ _ _
                  · exact ih _ _ _ _ _
            · exact ih _ _ _ _ _


theorem reverse_quadrant_calls {α : Type} (sum : Bool) (balance lo hi : Nat)
    (x y : List α × List Call) (b : Nat)
    (h : reverse_quadrant sum balance lo hi x = some (y.1, y.2, b))
    (hx : ∀ c, c ∈ x.2 → CallOK c) : ∀ c, c ∈ y.2 → CallOK c := by
  unfold reverse_quadrant at h
  split at h
  · cases hq : quad_reversal x.1 lo hi with
    | none => rw [hq] at h; simp at h
    | some a =>
      rw [hq] at h
      simp at h
      intro c hc
      rw [← h.2.1] at hc
      rcases List.mem_append.mp hc with h1 | h1
      · exact hx c h1
      · rw [List.mem_singleton] at h1
        subst h1
        exact CallOK_event _ (fun _ _ _ h => by cases h)
  · simp at h
    intro c hc
    rw [← h.2.1] at hc
    exact hx c hc

theorem reverse_spans_calls {α : Type} (array : List α) (s : Scan) (key : Nat)
    (x : List α × Scan × List Call × Bool) (h : reverse_spans array s key = some x) :
    ∀ c, c ∈ x.2.2.1 → CallOK c := by
  have ev : ∀ lo hi, CallOK (Call.quad_reversal lo hi) :=
    fun lo hi => CallOK_event _ (fun _ _ _ h => by cases h)
  have one : ∀ (lo hi : Nat) (sc : Scan) (b : Bool),
      ((quad_reversal array lo hi).bind fun r =>
        some (r, sc, [Call.quad_reversal lo hi], b)) = some x →
      ∀ c, c ∈ x.2.2.1 → CallOK c := by
    intro lo hi sc b hx
    cases hq : quad_reversal array lo hi with
    | none => rw [hq] at hx; simp at hx
    | some r1 =>
      rw [hq] at hx
      cases hx
      intro c hc
      simp at hc
      subst hc
      exact ev _ _
  unfold reverse_spans at h
  split at h
  · cases h; intro c hc; simp at hc
  · exact one _ _ _ _ h
  · exact one _ _ _ _ h
  · exact one _ _ _ _ h
  · exact one _ _ _ _ h
  · cases hq : quad_reversal array 0 s.ptb with
    | none => rw [hq] at h; simp at h
    | some r1 =>
      rw [hq] at h
      simp only [Option.some_bind] at h
      cases hq2 : quad_reversal r1 (s.ptb + 1) s.ptd with
      | none => rw [hq2] at h; simp at h
      | some r2 =>
        rw [hq2] at h
        cases h
        intro c hc
        simp at hc
        rcases hc with hc | hc <;> subst hc <;> exact ev _ _
  · exact one _ _ _ _ h
  · exact one _ _ _ _ h

theorem reverse_quadrants_calls {α : Type} (asum bsum csum dsum : Bool) (s0 : Scan)
    (x r : List α × Scan × List Call × Bool)
    (h : reverse_quadrants asum bsum csum dsum s0 x = some r)
    (hx : ∀ c, c ∈ x.2.2.1 → CallOK c) : ∀ c, c ∈ r.2.2.1 → CallOK c := by
  unfold reverse_quadrants at h
  cases h1 : reverse_quadrant asum x.2.1.abalance 0 s0.pta (x.1, x.2.2.1) with
  | none => rw [h1] at h; simp at h
  | some ra =>
  rw [h1] at h
  simp only [Option.some_bind] at h
  cases h2 : reverse_quadrant bsum x.2.1.bbalance (s0.pta + 1) s0.ptb (ra.1, ra.2.1) with
  | none => rw [h2] at h; simp at h
  | some rb =>
  rw [h2] at h
  simp only [Option.some_bind] at h
  cases h3 : reverse_quadrant csum x.2.1.cbalance (s0.ptb + 1) s0.ptc (rb.1, rb.2.1) with
  | none => rw [h3] at h; simp at h
  | some rc =>
  rw [h3] at h
  simp only [Option.some_bind] at h
  cases h4 : reverse_quadrant dsum x.2.1.dbalance (s0.ptc + 1) s0.ptd (rc.1, rc.2.1) with
  | none => rw [h4] at h; simp at h
  | some rd =>
  rw [h4] at h
  simp only [Option.some_bind, Option.some.injEq] at h
  rw [← h]
  have ka := reverse_quadrant_calls _ _ _ _ (x.1, x.2.2.1) (ra.1, ra.2.1) ra.2.2 h1 hx
  have kb := reverse_quadrant_calls _ _ _ _ (ra.1, ra.2.1) (rb.1, rb.2.1) rb.2.2 h2 ka
  have kc := reverse_quadrant_calls _ _ _ _ (rb.1, rb.2.1) (rc.1, rc.2.1) rc.2.2 h3 kb
  exact reverse_quadrant_calls _ _ _ _ (rc.1, rc.2.1) (rd.1, rd.2.1) rd.2.2 h4 kc

/-- The reversal phase issues `quad_reversal` calls only. -/
theorem crum_reverse_calls {α : Type} (cmp : α → α → Int) (array : List α) (s : Scan)
    (quad1 quad2 quad3 quad4 : Nat) (r : List α × Scan × List Call × Bool)
    (h : crum_reverse cmp array s quad1 quad2 quad3 quad4 = some r) :
    ∀ c, c ∈ r.2.2.1 → CallOK c := by
  unfold crum_reverse at h
  simp only at h
  split at h
  · cases ha : descending cmp array s.pta with
    | none => rw [ha] at h; simp at h
    | some a =>
    cases hb : descending cmp array s.ptb with
    | none => rw [ha, hb] at h; simp at h
    | some b =>
    cases hc : descending cmp array s.ptc with
    | none => rw [ha, hb, hc] at h; simp at h
    | some c =>
    rw [ha, hb, hc] at h
    simp only [Option.some_bind] at h
    cases hs : reverse_spans array s (span_key
        (decide (size_t ((quad1 : Int) - s.abalance) = 1))
        (decide (size_t ((quad2 : Int) - s.bbalance) = 1))
        (decide (size_t ((quad3 : Int) - s.cbalance) = 1))
        (decide (size_t ((quad4 : Int) - s.dbalance) = 1)) a b c) with
    | none => rw [hs] at h; simp at h
    | some x =>
      rw [hs] at h
      simp only [Option.some_bind] at h
      have hx := reverse_spans_calls array s _ x hs
      split at h
      · cases h; exact hx
      · exact reverse_quadrants_calls _ _ _ _ s x r h hx
  · cases h
    intro c hc
    simp at hc

theorem CallsOK_sort_if {α : Type} (ext : Ext α) (balance : Nat) (array swap : List α)
    (off swap_size nmemb : Nat) :
    CallsOK (sort_if ext balance array swap off swap_size nmemb) := by
  unfold sort_if
  apply CallsOK_ite
  · exact CallsOK_analyze_site ext _ _ _ _ _
  · exact CallsOK_some _ _ _ (fun c hc => by simp at hc)

theorem CallsOK_call_partition {α : Type} (ext : Ext α) (cmp : α → α → Int)
    (addr : Nat → Nat) (array swap : List α) (off nmemb : Nat) :
    CallsOK (call_partition ext cmp addr array swap off 512 nmemb) := by
  unfold call_partition
  apply CallsOK_pre
  · intro c hc
    rw [List.mem_singleton] at hc
    subst hc
    exact CallOK_event _ (fun _ _ _ h => by cases h)
  · apply CallsOK_at_offset
    intro a
    exact fulcrum_partition_calls ext cmp addr _ _ _ _ _ _

theorem CallsOK_quadrants {α : Type} (ext : Ext α) (cmp : α → α → Int) (addr : Nat → Nat)
    (array swap : List α) (s : Scan) (asum bsum csum dsum : Bool)
    (quad1 quad2 quad3 quad4 : Nat) :
    CallsOK (crum_quadrants ext cmp addr array swap 512 s asum bsum csum dsum
      quad1 quad2 quad3 quad4) := by
  unfold crum_quadrants
  apply CallsOK_next
  · apply CallsOK_ite
    · exact CallsOK_sort_if ext _ _ _ _ _ _
    · exact CallsOK_call_partition ext cmp addr _ _ _ _
  · intro a1 s1
    apply CallsOK_next
    · apply CallsOK_ite
      · exact CallsOK_sort_if ext _ _ _ _ _ _
      · exact CallsOK_call_partition ext cmp addr _ _ _ _
    · intro a2 s2
      apply CallsOK_next
      · apply CallsOK_ite
        · exact CallsOK_sort_if ext _ _ _ _ _ _
        · exact CallsOK_call_partition ext cmp addr _ _ _ _
      · intro a3 s3
        apply CallsOK_ite
        · exact CallsOK_sort_if ext _ _ _ _ _ _
        · exact CallsOK_call_partition ext cmp addr _ _ _ _

theorem CallsOK_dispatch {α : Type} (ext : Ext α) (cmp : α → α → Int) (addr : Nat → Nat)
    (array swap : List α) (s : Scan) (asum bsum csum dsum : Bool)
    (quad1 quad2 quad3 quad4 half1 half2 key : Nat) :
    CallsOK (crum_dispatch ext cmp addr array swap 512 s asum bsum csum dsum
      quad1 quad2 quad3 quad4 half1 half2 key) := by
  have hs := fun b a sw off n => CallsOK_sort_if ext b a sw off 512 n
  have hp := fun a sw off n => CallsOK_call_partition ext cmp addr a sw off n
  unfold crum_dispatch
  split
  · exact CallsOK_next _ _ (hs _ _ _ _ _) (fun _ _ => hp _ _ _ _)
  · exact CallsOK_next _ _ (hp _ _ _ _)
      (fun _ _ => CallsOK_next _ _ (hs _ _ _ _ _) (fun _ _ => hp _ _ _ _))
  · exact CallsOK_next _ _ (hs _ _ _ _ _)
      (fun _ _ => CallsOK_next _ _ (hs _ _ _ _ _) (fun _ _ => hp _ _ _ _))
  · exact CallsOK_next _ _ (hp _ _ _ _)
      (fun _ _ => CallsOK_next _ _ (hs _ _ _ _ _) (fun _ _ => hp _ _ _ _))
  · exact CallsOK_next _ _ (hp _ _ _ _) (fun _ _ => hs _ _ _ _ _)
  · exact CallsOK_next _ _ (hs _ _ _ _ _)
      (fun _ _ => CallsOK_next _ _ (hp _ _ _ _) (fun _ _ => hs _ _ _ _ _))
  · exact CallsOK_next _ _ (hp _ _ _ _)
      (fun _ _ => CallsOK_next _ _ (hs _ _ _ _ _) (fun _ _ => hs _ _ _ _ _))
  · exact CallsOK_quadrants ext cmp addr _ _ _ _ _ _ _ _ _ _ _

theorem CallsOK_stitch {α : Type} (ext : Ext α) (cmp : α → α → Int) (array swap : List α)
    (swap_size : Nat) (s : Scan) (quad1 quad2 quad3 quad4 half1 half2 : Nat) :
    CallsOK (crum_stitch ext cmp array swap swap_size s quad1 quad2 quad3 quad4 half1 half2) := by
  have hm := fun a sw off l r => CallsOK_call_rotate_merge ext a sw off swap_size l r
  unfold crum_stitch
  apply CallsOK_bind
  intro a _
  apply CallsOK_ite
  · apply CallsOK_bind
    intro c _
    apply CallsOK_ite
    · apply CallsOK_bind
      intro b _
      apply CallsOK_ite
      · exact CallsOK_some _ _ _ (fun c hc => by simp at hc)
      · exact hm _ _ _ _ _
    · exact CallsOK_next _ _ (hm _ _ _ _ _) (fun _ _ => hm _ _ _ _ _)
  · apply CallsOK_next _ _ (hm _ _ _ _ _)
    intro a1 s1
    apply CallsOK_bind
    intro c _
    apply CallsOK_next
    · apply CallsOK_ite
      · exact hm _ _ _ _ _
      · exact CallsOK_some _ _ _ (fun c hc => by simp at hc)
    · intro _ _
      exact hm _ _ _ _ _

theorem CallsOK_analyze {α : Type} (cfg : Config) (ext : Ext α) (cmp : α → α → Int)
    (addr : Nat → Nat) (array swap : List α) (nmemb : Nat) :
    CallsOK (crum_analyze cfg ext cmp addr array swap 512 nmemb) := by
  unfold crum_analyze
  simp only
  apply CallsOK_bind
  intro s _
  apply CallsOK_bind
  intro sorted _
  apply CallsOK_ite
  · exact CallsOK_some _ _ _ (fun c hc => by simp at hc)
  · apply CallsOK_bind
    intro r hr
    have hrc := crum_reverse_calls cmp array s _ _ _ _ r hr
    apply CallsOK_ite
    · exact CallsOK_some _ _ _ hrc
    · apply CallsOK_pre _ _ hrc
      apply CallsOK_ite
      · exact CallsOK_next _ _ (CallsOK_quadrants ext cmp addr _ _ _ _ _ _ _ _ _ _ _)
          (fun _ _ => CallsOK_stitch ext cmp _ _ _ _ _ _ _ _ _ _)
      · apply CallsOK_ite
        · exact CallsOK_call_partition ext cmp addr _ _ _ _
        · exact CallsOK_next _ _ (CallsOK_dispatch ext cmp addr _ _ _ _ _ _ _ _ _ _ _ _ _ _)
            (fun _ _ => CallsOK_stitch ext cmp _ _ _ _ _ _ _ _ _ _)

/-- C8, as amended: in any run of `crumsort` that returns, every `quadsort_swap` call
issued by `crumsort` itself or by `crum_median_of_cbrt` satisfies
`swap_size >= nmemb` or `nmemb <= 256`. -/
theorem crumsort_calls_precondition {α : Type} (cfg : Config) (ext : Ext α)
    (cmp : α → α → Int) (addr : Nat → Nat) (junk : Nat → α) (A : List α) (n : Nat)
    (calls : List Call)
    (h : (crumsort cfg ext cmp addr junk A n).map Prod.snd = some calls) :
    ∀ site swap_size nmemb, Call.quadsort_swap site swap_size nmemb ∈ calls →
      site = Site.crumsort ∨ site = Site.crum_median_of_cbrt →
      swap_size ≥ nmemb ∨ nmemb ≤ 256 := by
  have key : ∀ c, c ∈ calls → CallOK c := by
    unfold crumsort at h
    split at h
    · cases hq : call_quadsort ext Site.crumsort A (stack_array junk n) 0 n n with
      | none => rw [hq] at h; simp at h
      | some r =>
        rw [hq] at h
        simp at h
        subst h
        exact CallsOK_call_quadsort ext Site.crumsort A _ 0 n n
          (fun _ => Or.inl (Nat.le_refl n)) r hq
    · cases hq : crum_analyze cfg ext cmp addr A (stack_array junk CRUM_AUX) CRUM_AUX n with
      | none => rw [hq] at h; simp at h
      | some r =>
        rw [hq] at h
        simp at h
        subst h
        intro c hc
        rcases List.mem_cons.mp hc with h1 | h1
        · subst h1
          exact CallOK_event _ (fun _ _ _ h => by cases h)
        · exact CallsOK_analyze cfg ext cmp addr A _ n r hq c h1
  intro site ss nm hmem hsite
  exact key _ hmem site ss nm rfl hsite

theorem crumsort_calls_precondition_witness :
    (crumsort generic_build (reference_ext nat_cmp) nat_cmp (fun _ => 0) (fun _ => 0)
      [3, 1, 2] 3).map Prod.snd = some [Call.quadsort_swap Site.crumsort 3 3] ∧
    (3 ≥ 3 ∨ 3 ≤ 256) :=
  ⟨by decide,
   crumsort_calls_precondition generic_build (reference_ext nat_cmp) nat_cmp (fun _ => 0)
     (fun _ => 0) [3, 1, 2] 3 [Call.quadsort_swap Site.crumsort 3 3] (by decide)
     Site.crumsort 3 3 (by decide) (Or.inl rfl)⟩

/-! ## What the balances and the cursors say after the scan -/

theorem pair_desc_eq_zero_iff {α : Type} (cmp : α → α → Int) (A : List α) (p : Nat) :
    pair_desc cmp A p = 0 ↔ ∀ a b, A[p]? = some a → A[p + 1]? = some b → cmp a b ≤ 0 := by
  unfold pair_desc
  constructor
  · intro h a b ha hb
    rw [ha, hb] at h
    simp only at h
    by_contra hc
    rw [if_pos (by omega)] at h
    exact absurd h (by decide)
  · intro h
    split
    · rename_i a b ha hb
      rw [if_neg (by have := h a b ha hb; omega)]
    · rfl

theorem pair_desc_eq_one_iff {α : Type} (cmp : α → α → Int) (A : List α) (p : Nat)
    (hp : p + 1 < A.length) :
    pair_desc cmp A p = 1 ↔ ∀ a b, A[p]? = some a → A[p + 1]? = some b → cmp a b > 0 := by
  unfold pair_desc
  have h1 : A[p]? = some (A[p]) := List.getElem?_eq_getElem (by omega)
  have h2 : A[p + 1]? = some (A[p + 1]) := List.getElem?_eq_getElem hp
  constructor
  · intro h a b ha hb
    rw [ha, hb] at h
    simp only at h
    by_contra hc
    rw [if_neg hc] at h
    exact absurd h (by decide)
  · intro h
    rw [h1, h2]
    simp only
    rw [if_pos (h _ _ h1 h2)]

theorem ascending_on_iff {α : Type} (cmp : α → α → Int) (A : List α) (base i : Nat) :
    (∀ j, j < i → pair_desc cmp A (base + j) = 0) ↔ ascending_on cmp A base (base + i + 1) := by
  constructor
  · intro h k a b hlo hhi ha hb
    have := (pair_desc_eq_zero_iff cmp A (base + (k - base))).mp (h (k - base) (by omega)) a b
    rw [show base + (k - base) = k by omega] at this
    exact this ha hb
  · intro h j hj
    exact (pair_desc_eq_zero_iff cmp A (base + j)).mpr
      (fun a b ha hb => h (base + j) a b (by omega) (by omega) ha hb)

theorem descending_on_iff {α : Type} (cmp : α → α → Int) (A : List α) (base i : Nat)
    (hb : base + i < A.length) :
    (∀ j, j < i → pair_desc cmp A (base + j) = 1) ↔ descending_on cmp A base (base + i + 1) := by
  constructor
  · intro h k a b hlo hhi ha hb2
    have := (pair_desc_eq_one_iff cmp A (base + (k - base)) (by omega)).mp
      (h (k - base) (by omega)) a b
    rw [show base + (k - base) = k by omega] at this
    exact this ha hb2
  · intro h j hj
    exact (pair_desc_eq_one_iff cmp A (base + j) (by omega)).mpr
      (fun a b ha hb2 => h (base + j) a b (by omega) (by omega) ha hb2)

/-- C16: for `n > 256`, the scan of `crum_analyze` (block scan with its skips, tail scan
and the extra comparison per quadrant) returns, and the balance it leaves for a quadrant
is 0 if and only if every adjacent pair inside that quadrant is non-descending. -/
theorem scan_balance_zero_iff_ascending {α : Type} (cmp : α → α → Int) (A : List α) (n : Nat)
    (hA : A.length = n) (hn : 256 < n) :
    ∃ s, crum_scan cmp A n = some s ∧
      (s.abalance = 0 ↔ ascending_on cmp A 0 (n / 2 / 2)) ∧
      (s.bbalance = 0 ↔ ascending_on cmp A (n / 2 / 2) (n / 2)) ∧
      (s.cbalance = 0 ↔ ascending_on cmp A (n / 2) (n / 2 + (n - n / 2) / 2)) ∧
      (s.dbalance = 0 ↔ ascending_on cmp A (n / 2 + (n - n / 2) / 2) n) := by
  obtain ⟨s, hs, qa, qb, qc, qd, _⟩ := crum_scan_spec cmp A n hA (by omega)
  refine ⟨s, hs, ?_, ?_, ?_, ?_⟩
  · rw [qa.2.2.1, ascending_on_iff]
    rw [show 0 + (n / 2 / 2 - 1) + 1 = n / 2 / 2 by omega]
  · rw [qb.2.2.1, ascending_on_iff]
    rw [show n / 2 / 2 + (n / 2 - n / 2 / 2 - 1) + 1 = n / 2 by omega]
  · rw [qc.2.2.1, ascending_on_iff]
    rw [show n / 2 + ((n - n / 2) / 2 - 1) + 1 = n / 2 + (n - n / 2) / 2 by omega]
  · rw [qd.2.2.1, ascending_on_iff]
    rw [show n / 2 + (n - n / 2) / 2 + (n - n / 2 - (n - n / 2) / 2 - 1) + 1 = n by omega]

theorem scan_balance_zero_iff_ascending_witness :
    ((List.range 300).length = 300 ∧ 256 < 300) ∧ ∃ s, crum_scan nat_cmp (List.range 300) 300 = some s ∧
      (s.abalance = 0 ↔ ascending_on nat_cmp (List.range 300) 0 (300 / 2 / 2)) ∧
      (s.bbalance = 0 ↔ ascending_on nat_cmp (List.range 300) (300 / 2 / 2) (300 / 2)) ∧
      (s.cbalance = 0 ↔
        ascending_on nat_cmp (List.range 300) (300 / 2) (300 / 2 + (300 - 300 / 2) / 2)) ∧
      (s.dbalance = 0 ↔
        ascending_on nat_cmp (List.range 300) (300 / 2 + (300 - 300 / 2) / 2) 300) :=
  ⟨⟨List.length_range 300, by decide⟩,
   scan_balance_zero_iff_ascending nat_cmp (List.range 300) 300 (List.length_range 300)
    (by decide)⟩

theorem size_t_sub_eq_one (q b : Nat) (hq : q < 2 ^ 64) (hb : b + 1 ≤ q) :
    size_t ((q : Int) - b) = 1 ↔ b = q - 1 := by
  unfold size_t
  omega

/-- C17: for `n > 256` (a `size_t`), the scan of `crum_analyze` returns, and the test
`quad - balance == 1` of Phase 4, computed in unsigned arithmetic, holds for a quadrant
if and only if every adjacent pair inside that quadrant is strictly descending. -/
theorem descending_test_iff_descending {α : Type} (cmp : α → α → Int) (A : List α) (n : Nat)
    (hA : A.length = n) (hn : 256 < n) (hsz : n < 2 ^ 64) :
    ∃ s, crum_scan cmp A n = some s ∧
      (size_t (((n / 2 / 2 : Nat) : Int) - s.abalance) = 1 ↔
        descending_on cmp A 0 (n / 2 / 2)) ∧
      (size_t (((n / 2 - n / 2 / 2 : Nat) : Int) - s.bbalance) = 1 ↔
        descending_on cmp A (n / 2 / 2) (n / 2)) ∧
      (size_t ((((n - n / 2) / 2 : Nat) : Int) - s.cbalance) = 1 ↔
        descending_on cmp A (n / 2) (n / 2 + (n - n / 2) / 2)) ∧
      (size_t (((n - n / 2 - (n - n / 2) / 2 : Nat) : Int) - s.dbalance) = 1 ↔
        descending_on cmp A (n / 2 + (n - n / 2) / 2) n) := by
  obtain ⟨s, hs, qa, qb, qc, qd, _⟩ := crum_scan_spec cmp A n hA (by omega)
  refine ⟨s, hs, ?_, ?_, ?_, ?_⟩
  · rw [size_t_sub_eq_one _ _ (by omega) (by have := qa.2.1; omega), qa.2.2.2,
      descending_on_iff cmp A _ _ (by omega)]
    rw [show 0 + (n / 2 / 2 - 1) + 1 = n / 2 / 2 by omega]
  · rw [size_t_sub_eq_one _ _ (by omega) (by have := qb.2.1; omega), qb.2.2.2,
      descending_on_iff cmp A _ _ (by omega)]
    rw [show n / 2 / 2 + (n / 2 - n / 2 / 2 - 1) + 1 = n / 2 by omega]
  · rw [size_t_sub_eq_one _ _ (by omega) (by have := qc.2.1; omega), qc.2.2.2,
      descending_on_iff cmp A _ _ (by omega)]
    rw [show n / 2 + ((n - n / 2) / 2 - 1) + 1 = n / 2 + (n - n / 2) / 2 by omega]
  · rw [size_t_sub_eq_one _ _ (by omega) (by have := qd.2.1; omega), qd.2.2.2,
      descending_on_iff cmp A _ _ (by omega)]
    rw [show n / 2 + (n - n / 2) / 2 + (n - n / 2 - (n - n / 2) / 2 - 1) + 1 = n by omega]

theorem descending_test_iff_descending_witness :
    ((List.range 300).reverse.length = 300 ∧ 256 < 300 ∧ 300 < 2 ^ 64) ∧ ∃ s, crum_scan nat_cmp (List.range 300).reverse 300 = some s ∧
      (size_t (((300 / 2 / 2 : Nat) : Int) - s.abalance) = 1 ↔
        descending_on nat_cmp (List.range 300).reverse 0 (300 / 2 / 2)) ∧
      (size_t (((300 / 2 - 300 / 2 / 2 : Nat) : Int) - s.bbalance) = 1 ↔
        descending_on nat_cmp (List.range 300).reverse (300 / 2 / 2) (300 / 2)) ∧
      (size_t ((((300 - 300 / 2) / 2 : Nat) : Int) - s.cbalance) = 1 ↔
        descending_on nat_cmp (List.range 300).reverse (300 / 2)
          (300 / 2 + (300 - 300 / 2) / 2)) ∧
      (size_t (((300 - 300 / 2 - (300 - 300 / 2) / 2 : Nat) : Int) - s.dbalance) = 1 ↔
        descending_on nat_cmp (List.range 300).reverse (300 / 2 + (300 - 300 / 2) / 2) 300) :=
  ⟨⟨by rw [List.length_reverse, List.length_range], by decide, by decide⟩,
   descending_test_iff_descending nat_cmp (List.range 300).reverse 300
    (by rw [List.length_reverse, List.length_range]) (by decide) (by decide)⟩

/-- C18: for `n > 256`, whatever blocks and skips were taken, the scan of `crum_analyze`
returns (no comparison read outside `A[0 .. n)`, where a read fails) with the cursors on
the last element of quadrants 1 to 4, and the three boundary comparisons
`cmp(pta, pta + 1)`, `cmp(ptb, ptb + 1)`, `cmp(ptc, ptc + 1)` read inside the array. -/
theorem scan_cursor_positions {α : Type} (cmp : α → α → Int) (A : List α) (n : Nat)
    (hA : A.length = n) (hn : 256 < n) :
    ∃ s, crum_scan cmp A n = some s ∧
      s.pta = n / 2 / 2 - 1 ∧ s.ptb = n / 2 - 1 ∧
      s.ptc = n / 2 + (n - n / 2) / 2 - 1 ∧ s.ptd = n - 1 ∧
      (descending cmp A s.pta).isSome ∧ (descending cmp A s.ptb).isSome ∧
      (descending cmp A s.ptc).isSome := by
  obtain ⟨s, hs, qa, qb, qc, qd, _⟩ := crum_scan_spec cmp A n hA (by omega)
  have pa := qa.1
  have pb := qb.1
  have pc := qc.1
  have pd := qd.1
  refine ⟨s, hs, by omega, by omega, by omega, by omega, ?_, ?_, ?_⟩
  · rw [descending_eq cmp A s.pta (by omega)]; rfl
  · rw [descending_eq cmp A s.ptb (by omega)]; rfl
  · rw [descending_eq cmp A s.ptc (by omega)]; rfl

theorem scan_cursor_positions_witness :
    ((one_inversion 300).length = 300 ∧ 256 < 300) ∧ ∃ s, crum_scan nat_cmp (one_inversion 300) 300 = some s ∧
      s.pta = 300 / 2 / 2 - 1 ∧ s.ptb = 300 / 2 - 1 ∧
      s.ptc = 300 / 2 + (300 - 300 / 2) / 2 - 1 ∧ s.ptd = 300 - 1 ∧
      (descending nat_cmp (one_inversion 300) s.pta).isSome ∧
      (descending nat_cmp (one_inversion 300) s.ptb).isSome ∧
      (descending nat_cmp (one_inversion 300) s.ptc).isSome :=
  ⟨⟨by simp [one_inversion], by decide⟩,
   scan_cursor_positions nat_cmp (one_inversion 300) 300
    (by simp [one_inversion]) (by decide)⟩

/-! ## The medians -/

theorem nat_cmp_total_preorder : TotalPreorder nat_cmp := by
  constructor
  · intro a b
    unfold nat_cmp
    by_cases h : a < b
    · left; rw [if_pos h]; decide
    · by_cases h2 : b < a
      · right; rw [if_pos h2]; decide
      · left; rw [if_neg h, if_neg h2]
  · intro a b c h1 h2
    unfold nat_cmp at *
    by_cases hab : a < b
    · by_cases hbc : b < c
      · rw [if_pos (by omega)]; decide
      · rw [if_neg hbc] at h2
        by_cases hcb : c < b
        · rw [if_pos hcb] at h2; exact absurd h2 (by decide)
        · have : b = c := by omega
          subst this
          rw [if_pos hab]; decide
    · rw [if_neg hab] at h1
      by_cases hba : b < a
      · rw [if_pos hba] at h1; exact absurd h1 (by decide)
      · have : a = b := by omega
        subst this
        exact h2

/-- C19: for three valid indices and a total preorder, `crum_median_of_three` returns
one of the three indices (the selector `(x == y) + (y ^ z)` never exceeds 2), and the
element there lies between the other two under `cmp`. -/
theorem crum_median_of_three_median {α : Type} (cmp : α → α → Int) (hc : TotalPreorder cmp)
    (A : List α) (v0 v1 v2 : Nat) (a0 a1 a2 : α)
    (h0 : A[v0]? = some a0) (h1 : A[v1]? = some a1) (h2 : A[v2]? = some a2) :
    (crum_median_of_three cmp A v0 v1 v2 = some v0 ∧ between cmp a1 a0 a2) ∨
    (crum_median_of_three cmp A v0 v1 v2 = some v1 ∧ between cmp a0 a1 a2) ∨
    (crum_median_of_three cmp A v0 v1 v2 = some v2 ∧ between cmp a0 a2 a1) := by
  obtain ⟨tot, tr⟩ := hc
  unfold crum_median_of_three between
  rw [rd_nat, rd_nat, rd_nat, h0, h1, h2]
  simp only [Option.some_bind, Option.bind_some]
  by_cases x : cmp a0 a1 > 0 <;> by_cases y : cmp a0 a2 > 0 <;> by_cases z : cmp a1 a2 > 0
  · right; left
    rw [if_pos x, if_pos y, if_pos z]
    refine ⟨rfl, Or.inr ⟨?_, ?_⟩⟩
    · rcases tot a2 a1 with h | h
      · exact h
      · omega
    · rcases tot a1 a0 with h | h
      · exact h
      · omega
  · right; right
    rw [if_pos x, if_pos y, if_neg z]
    refine ⟨rfl, Or.inr ⟨by omega, ?_⟩⟩
    rcases tot a2 a0 with h | h
    · exact h
    · omega
  · exfalso
    have h10 : cmp a1 a0 ≤ 0 := by
      rcases tot a1 a0 with h | h
      · exact h
      · omega
    have := tr a1 a0 a2 h10 (by omega)
    omega
  · left
    rw [if_pos x, if_neg y, if_neg z]
    refine ⟨rfl, Or.inl ⟨?_, by omega⟩⟩
    rcases tot a1 a0 with h | h
    · exact h
    · omega
  · left
    rw [if_neg x, if_pos y, if_pos z]
    refine ⟨rfl, Or.inr ⟨?_, by omega⟩⟩
    rcases tot a2 a0 with h | h
    · exact h
    · omega
  · exfalso
    have := tr a0 a1 a2 (by omega) (by omega)
    omega
  · right; right
    rw [if_neg x, if_neg y, if_pos z]
    refine ⟨rfl, Or.inl ⟨by omega, ?_⟩⟩
    rcases tot a2 a1 with h | h
    · exact h
    · omega
  · right; left
    rw [if_neg x, if_neg y, if_neg z]
    exact ⟨rfl, Or.inl ⟨by omega, by omega⟩⟩

theorem crum_median_of_three_median_witness :
    (TotalPreorder nat_cmp ∧ [5, 9, 7][0]? = some 5 ∧ [5, 9, 7][1]? = some 9 ∧
      [5, 9, 7][2]? = some 7) ∧
    ((crum_median_of_three nat_cmp [5, 9, 7] 0 1 2 = some 0 ∧ between nat_cmp 9 5 7) ∨
     (crum_median_of_three nat_cmp [5, 9, 7] 0 1 2 = some 1 ∧ between nat_cmp 5 9 7) ∨
     (crum_median_of_three nat_cmp [5, 9, 7] 0 1 2 = some 2 ∧ between nat_cmp 5 7 9)) :=
  ⟨⟨nat_cmp_total_preorder, rfl, rfl, rfl⟩,
   crum_median_of_three_median nat_cmp nat_cmp_total_preorder [5, 9, 7] 0 1 2 5 9 7
     rfl rfl rfl⟩

theorem sorted_on_of_ascending {α : Type} (cmp : α → α → Int) (hc : TotalPreorder cmp)
    (A : List α) (lo hi : Nat) (hh : hi ≤ A.length) (h : ascending_on cmp A lo hi) :
    sorted_on cmp A lo hi := by
  have key : ∀ d i j a b, j = i + d → lo ≤ i → j < hi → A[i]? = some a → A[j]? = some b →
      cmp a b ≤ 0 := by
    intro d
    induction d with
    | zero =>
      intro i j a b hj _ _ ha hb
      subst hj
      rw [ha] at hb
      cases hb
      rcases hc.1 a a with h1 | h1 <;> exact h1
    | succ d ih =>
      intro i j a b hj hlo hhi ha hb
      subst hj
      have hc1 : A[i + d]? = some (A[i + d]) := List.getElem?_eq_getElem (by omega)
      have h1 := ih i (i + d) a _ rfl hlo (by omega) ha hc1
      have h2 := h (i + d) _ b (by omega) (by omega) hc1 hb
      exact hc.2 _ _ _ h1 h2
  intro i j a b hlo hij hhi ha hb
  exact key (j - i) i j a b (by omega) hlo hhi ha hb

theorem run_at_getElem? {α : Type} (A : List α) (off len t : Nat) (ht : t < len) :
    (run_at A off len)[t]? = A[off + t]? := by
  unfold run_at
  rw [List.getElem?_take_of_lt ht, List.getElem?_drop]

theorem run_at_length {α : Type} (A : List α) (off len : Nat) (h : off + len ≤ A.length) :
    (run_at A off len).length = len := by
  unfold run_at
  rw [List.length_take, List.length_drop]
  omega

theorem count_prefix {α : Type} (p : α → Bool) :
    ∀ (l : List α) (k : Nat), k ≤ l.length →
      (∀ t e, t < k → l[t]? = some e → p e = true) → k ≤ (l.filter p).length := by
  intro l
  induction l with
  | nil => intro k hk _; simpa using hk
  | cons e l ih =>
    intro k hk h
    cases k with
    | zero => exact Nat.zero_le _
    | succ k =>
      have he : p e = true := h 0 e (by omega) (by simp)
      rw [List.filter_cons_of_pos he, List.length_cons]
      have := ih k (by simpa using hk) (fun t e' ht hte => h (t + 1) e' (by omega) (by simpa using hte))
      omega

theorem count_suffix {α : Type} (p : α → Bool) :
    ∀ (l : List α) (k : Nat),
      (∀ t e, k ≤ t → l[t]? = some e → p e = true) → l.length - k ≤ (l.filter p).length := by
  intro l
  induction l with
  | nil => intro k _; simp
  | cons e l ih =>
    intro k h
    cases k with
    | zero =>
      have he : p e = true := h 0 e (by omega) (by simp)
      rw [List.filter_cons_of_pos he, List.length_cons, List.length_cons]
      have := ih 0 (fun t e' _ hte => h (t + 1) e' (by omega) (by simpa using hte))
      omega
    | succ k =>
      have := ih k (fun t e' ht hte => h (t + 1) e' (by omega) (by simpa using hte))
      have h2 : (l.filter p).length ≤ ((e :: l).filter p).length := by
        rw [List.filter_cons]
        split
        · rw [List.length_cons]; omega
        · exact Nat.le_refl _
      rw [List.length_cons]
      omega

/-- The descent of `crum_binary_median`: with `len = 2 ^ k` and cursors `i`, `j` into the
two runs, `i + j + len` is constant, every read is below the length of its run, and the
element `len` places after one cursor is never smaller than the element under the
other. -/
theorem binary_median_descent {α : Type} (cmp : α → α → Int)
    (tot : ∀ a b, cmp a b ≤ 0 ∨ cmp b a ≤ 0) (A : List α) (pa pb len0 : Nat)
    (ha : pa + len0 ≤ A.length) (hb : pb + len0 ≤ A.length) :
    ∀ k fuel i j, k < fuel → i + j + 2 ^ k = len0 →
      (i + 2 ^ k < len0 → ∀ x y, A[pa + (i + 2 ^ k)]? = some x → A[pb + j]? = some y →
        cmp y x ≤ 0) →
      (j + 2 ^ k < len0 → ∀ x y, A[pa + i]? = some x → A[pb + (j + 2 ^ k)]? = some y →
        cmp x y ≤ 0) →
      ∃ i' j' x y, i' + j' + 1 = len0 ∧ A[pa + i']? = some x ∧ A[pb + j']? = some y ∧
        (i' + 1 < len0 → ∀ x', A[pa + (i' + 1)]? = some x' → cmp y x' ≤ 0) ∧
        (j' + 1 < len0 → ∀ y', A[pb + (j' + 1)]? = some y' → cmp x y' ≤ 0) ∧
        crum_binary_median cmp A fuel (pa + i) (pb + j) (2 ^ k) =
          some (if cmp x y > 0 then pa + i' else pb + j') := by
  intro k
  induction k with
  | zero =>
    intro fuel i j hf hsum h1 h2
    obtain ⟨f, rfl⟩ : ∃ f, fuel = f + 1 := ⟨fuel - 1, by omega⟩
    have hx : A[pa + i]? = some (A[pa + i]) := List.getElem?_eq_getElem (by simp at hsum; omega)
    have hy : A[pb + j]? = some (A[pb + j]) := List.getElem?_eq_getElem (by simp at hsum; omega)
    refine ⟨i, j, _, _, by simpa using hsum, hx, hy, ?_, ?_, ?_⟩
    · intro hlt x' hx'
      exact h1 (by simpa using hlt) x' _ (by simpa using hx') hy
    · intro hlt y' hy'
      exact h2 (by simpa using hlt) _ y' hx (by simpa using hy')
    · unfold crum_binary_median
      rw [if_pos (by decide), rd_nat, rd_nat, hx, hy]
      rfl
  | succ k ih =>
    intro fuel i j hf hsum h1 h2
    obtain ⟨f, rfl⟩ : ∃ f, fuel = f + 1 := ⟨fuel - 1, by omega⟩
    have hp : 2 ^ (k + 1) = 2 ^ k + 2 ^ k := by rw [Nat.pow_succ]; omega
    have hpos : 0 < 2 ^ k := Nat.two_pow_pos k
    have hhalf : 2 ^ (k + 1) / 2 = 2 ^ k := by omega
    have hx : A[pa + i + 2 ^ k]? = some (A[pa + i + 2 ^ k]) :=
      List.getElem?_eq_getElem (by omega)
    have hy : A[pb + j + 2 ^ k]? = some (A[pb + j + 2 ^ k]) :=
      List.getElem?_eq_getElem (by omega)
    unfold crum_binary_median
    rw [hhalf, if_neg (by omega), rd_nat, rd_nat, hx, hy]
    simp only [Option.some_bind, Option.bind_some]
    by_cases hcmp : cmp (A[pa + i + 2 ^ k]) (A[pb + j + 2 ^ k]) ≤ 0
    · rw [if_pos hcmp]
      have := ih f (i + 2 ^ k) j (by omega) (by omega)
        (fun hlt x y hx' hy' =>
          h1 (by omega) x y (by rw [hp]; rw [← hx']; congr 1; omega) hy')
        (fun _ x y hx' hy' => by
          rw [← Nat.add_assoc] at hx' hy'
          rw [hx] at hx'
          rw [hy] at hy'
          cases hx'
          cases hy'
          exact hcmp)
      rw [← Nat.add_assoc] at this
      exact this
    · rw [if_neg hcmp]
      have := ih f i (j + 2 ^ k) (by omega) (by omega)
        (fun _ x y hx' hy' => by
          rw [← Nat.add_assoc] at hx' hy'
          rw [hx] at hx'
          rw [hy] at hy'
          cases hx'
          cases hy'
          rcases tot (A[pb + j + 2 ^ k]) (A[pa + i + 2 ^ k]) with h | h
          · exact h
          · exact absurd h hcmp)
        (fun hlt x y hx' hy' =>
          h2 (by omega) x y hx' (by rw [hp]; rw [← hy']; congr 1; omega))
      rw [← Nat.add_assoc] at this
      exact this

/-- C20: for `len = 2 ^ k`, two runs of `len` elements each sorted under a total
preorder, `crum_binary_median` returns (every read is inside one of the runs) the index
of an element of one of the two runs, and that element is the upper median of the
`2 * len` elements: at least `len + 1` elements are `<=` it and at least `len` are
`>=` it. -/
theorem crum_binary_median_rank {α : Type} (cmp : α → α → Int) (hc : TotalPreorder cmp)
    (A : List α) (pa pb k fuel : Nat) (hf : k < fuel)
    (ha : pa + 2 ^ k ≤ A.length) (hb : pb + 2 ^ k ≤ A.length)
    (sa : ascending_on cmp A pa (pa + 2 ^ k)) (sb : ascending_on cmp A pb (pb + 2 ^ k)) :
    ∃ r m, crum_binary_median cmp A fuel pa pb (2 ^ k) = some r ∧ A[r]? = some m ∧
      ((pa ≤ r ∧ r < pa + 2 ^ k) ∨ (pb ≤ r ∧ r < pb + 2 ^ k)) ∧
      2 ^ k + 1 ≤ ((run_at A pa (2 ^ k) ++ run_at A pb (2 ^ k)).filter
        (fun e => decide (cmp e m ≤ 0))).length ∧
      2 ^ k ≤ ((run_at A pa (2 ^ k) ++ run_at A pb (2 ^ k)).filter
        (fun e => decide (cmp m e ≤ 0))).length := by
  have pwa := sorted_on_of_ascending cmp hc A pa (pa + 2 ^ k) ha sa
  have pwb := sorted_on_of_ascending cmp hc A pb (pb + 2 ^ k) hb sb
  obtain ⟨i, j, x, y, hsum, hx, hy, g1, g2, e⟩ :=
    binary_median_descent cmp hc.1 A pa pb (2 ^ k) ha hb k fuel 0 0 hf (by omega)
      (fun h => absurd h (by omega)) (fun h => absurd h (by omega))
  rw [Nat.add_zero, Nat.add_zero] at e
  have la := run_at_length A pa (2 ^ k) ha
  have lb := run_at_length A pb (2 ^ k) hb
  -- counting lemmas for the four parts
  have pre_a : ∀ m, cmp x m ≤ 0 →
      i + 1 ≤ ((run_at A pa (2 ^ k)).filter (fun e => decide (cmp e m ≤ 0))).length := by
    intro m hm
    apply count_prefix _ _ _ (by omega)
    intro t e ht hte
    rw [run_at_getElem? A pa _ t (by omega)] at hte
    have := pwa (pa + t) (pa + i) e x (by omega) (by omega) (by omega) hte hx
    exact decide_eq_true (hc.2 _ _ _ this hm)
  have pre_b : ∀ m, cmp y m ≤ 0 →
      j + 1 ≤ ((run_at A pb (2 ^ k)).filter (fun e => decide (cmp e m ≤ 0))).length := by
    intro m hm
    apply count_prefix _ _ _ (by omega)
    intro t e ht hte
    rw [run_at_getElem? A pb _ t (by omega)] at hte
    have := pwb (pb + t) (pb + j) e y (by omega) (by omega) (by omega) hte hy
    exact decide_eq_true (hc.2 _ _ _ this hm)
  have suf_a : ∀ m s, i ≤ s → (s < 2 ^ k → ∀ z, A[pa + s]? = some z → cmp m z ≤ 0) →
      2 ^ k - s ≤ ((run_at A pa (2 ^ k)).filter (fun e => decide (cmp m e ≤ 0))).length := by
    intro m s _ hm
    have := count_suffix (fun e => decide (cmp m e ≤ 0)) (run_at A pa (2 ^ k)) s (by
      intro t e ht hte
      have htl : t < 2 ^ k := by
        by_contra hcon
        rw [List.getElem?_eq_none (by omega)] at hte
        exact absurd hte (by simp)
      rw [run_at_getElem? A pa _ t htl] at hte
      have hs : A[pa + s]? = some (A[pa + s]) := List.getElem?_eq_getElem (by omega)
      have := pwa (pa + s) (pa + t) _ e (by omega) (by omega) (by omega) hs hte
      exact decide_eq_true (hc.2 _ _ _ (hm (by omega) _ hs) this))
    omega
  have suf_b : ∀ m s, j ≤ s → (s < 2 ^ k → ∀ z, A[pb + s]? = some z → cmp m z ≤ 0) →
      2 ^ k - s ≤ ((run_at A pb (2 ^ k)).filter (fun e => decide (cmp m e ≤ 0))).length := by
    intro m s _ hm
    have := count_suffix (fun e => decide (cmp m e ≤ 0)) (run_at A pb (2 ^ k)) s (by
      intro t e ht hte
      have htl : t < 2 ^ k := by
        by_contra hcon
        rw [List.getElem?_eq_none (by omega)] at hte
        exact absurd hte (by simp)
      rw [run_at_getElem? A pb _ t htl] at hte
      have hs : A[pb + s]? = some (A[pb + s]) := List.getElem?_eq_getElem (by omega)
      have := pwb (pb + s) (pb + t) _ e (by omega) (by omega) (by omega) hs hte
      exact decide_eq_true (hc.2 _ _ _ (hm (by omega) _ hs) this))
    omega
  have rfl_x : cmp x x ≤ 0 := by rcases hc.1 x x with h | h <;> exact h
  have rfl_y : cmp y y ≤ 0 := by rcases hc.1 y y with h | h <;> exact h
  by_cases hxy : cmp x y > 0
  · have hyx : cmp y x ≤ 0 := by
      rcases hc.1 y x with h | h
      · exact h
      · omega
    rw [if_pos hxy] at e
    refine ⟨pa + i, x, e, hx, Or.inl ⟨by omega, by omega⟩, ?_, ?_⟩
    · rw [List.filter_append, List.length_append]
      have := pre_a x rfl_x
      have := pre_b x hyx
      omega
    · rw [List.filter_append, List.length_append]
      have h1 := suf_a x i (Nat.le_refl _) (fun _ z hz => by rw [hx] at hz; cases hz; exact rfl_x)
      have h2 := suf_b x (j + 1) (by omega) (fun hj z hz => g2 hj z hz)
      omega
  · rw [if_neg hxy] at e
    refine ⟨pb + j, y, e, hy, Or.inr ⟨by omega, by omega⟩, ?_, ?_⟩
    · rw [List.filter_append, List.length_append]
      have := pre_a y (by omega)
      have := pre_b y rfl_y
      omega
    · rw [List.filter_append, List.length_append]
      have h1 := suf_b y j (Nat.le_refl _) (fun _ z hz => by rw [hy] at hz; cases hz; exact rfl_y)
      have h2 := suf_a y (i + 1) (by omega) (fun hi z hz => g1 hi z hz)
      omega

theorem crum_binary_median_rank_witness :
    (TotalPreorder nat_cmp ∧ 2 < 3 ∧ 0 + 2 ^ 2 ≤ [1, 3, 5, 7, 2, 4, 6, 8].length ∧
      4 + 2 ^ 2 ≤ [1, 3, 5, 7, 2, 4, 6, 8].length ∧
      ascending_on nat_cmp [1, 3, 5, 7, 2, 4, 6, 8] 0 (0 + 2 ^ 2) ∧
      ascending_on nat_cmp [1, 3, 5, 7, 2, 4, 6, 8] 4 (4 + 2 ^ 2)) ∧
    ∃ r m, crum_binary_median nat_cmp [1, 3, 5, 7, 2, 4, 6, 8] 3 0 4 (2 ^ 2) = some r ∧
      [1, 3, 5, 7, 2, 4, 6, 8][r]? = some m ∧
      ((0 ≤ r ∧ r < 0 + 2 ^ 2) ∨ (4 ≤ r ∧ r < 4 + 2 ^ 2)) ∧
      2 ^ 2 + 1 ≤ ((run_at [1, 3, 5, 7, 2, 4, 6, 8] 0 (2 ^ 2) ++
        run_at [1, 3, 5, 7, 2, 4, 6, 8] 4 (2 ^ 2)).filter
          (fun e => decide (nat_cmp e m ≤ 0))).length ∧
      2 ^ 2 ≤ ((run_at [1, 3, 5, 7, 2, 4, 6, 8] 0 (2 ^ 2) ++
        run_at [1, 3, 5, 7, 2, 4, 6, 8] 4 (2 ^ 2)).filter
          (fun e => decide (nat_cmp m e ≤ 0))).length :=
  have s1 : ascending_on nat_cmp [1, 3, 5, 7, 2, 4, 6, 8] 0 (0 + 2 ^ 2) := by
    intro i a b _ hhi ha hb
    have hi : i < 3 := by omega
    interval_cases i <;> simp at ha hb <;> subst ha hb <;> decide
  have s2 : ascending_on nat_cmp [1, 3, 5, 7, 2, 4, 6, 8] 4 (4 + 2 ^ 2) := by
    intro i a b hlo hhi ha hb
    have hi : i < 7 := by omega
    interval_cases i <;> simp at ha hb <;> subst ha hb <;> decide
  ⟨⟨nat_cmp_total_preorder, by decide, by decide, by decide, s1, s2⟩,
   crum_binary_median_rank nat_cmp nat_cmp_total_preorder [1, 3, 5, 7, 2, 4, 6, 8] 0 4 2 3
     (by decide) (by decide) (by decide) s1 s2⟩

/-! ## The trigger of the skip -/

theorem streak_eq_zero_iff (sum : Nat) : streak sum = 0 ↔ ¬ (sum = 0 ∨ sum = 32) := by
  unfold streak
  split <;> simp_all

/-- One pass of the block loop, in closed form. -/
theorem scan_block_eq {α : Type} (cmp : α → α → Int) (A : List α) (s : Scan)
    (ha : s.pta + 32 < A.length) (hb : s.ptb + 32 < A.length) (hc : s.ptc + 32 < A.length)
    (hd : s.ptd + 32 < A.length) :
    scan_block cmp A s =
      some (if skip_trigger cmp A s then
        { pta := s.pta + 32 + 96, ptb := s.ptb + 32 + 96, ptc := s.ptc + 32 + 96,
          ptd := s.ptd + 32 + 96,
          abalance := s.abalance + (0 + desc_count cmp A s.pta 32) + 48,
          bbalance := s.bbalance + (0 + desc_count cmp A s.ptb 32) + 48,
          cbalance := s.cbalance + (0 + desc_count cmp A s.ptc 32) + 48,
          dbalance := s.dbalance + (0 + desc_count cmp A s.ptd 32) + 48,
          astreaks := (s.astreaks + streak (0 + desc_count cmp A s.pta 32)) % 2 ^ 32,
          bstreaks := (s.bstreaks + streak (0 + desc_count cmp A s.ptb 32)) % 2 ^ 32,
          cstreaks := (s.cstreaks + streak (0 + desc_count cmp A s.ptc 32)) % 2 ^ 32,
          dstreaks := (s.dstreaks + streak (0 + desc_count cmp A s.ptd 32)) % 2 ^ 32,
          cnt := s.cnt - 384 - 128, skips := s.skips + 1 }
      else
        { pta := s.pta + 32, ptb := s.ptb + 32, ptc := s.ptc + 32, ptd := s.ptd + 32,
          abalance := s.abalance + (0 + desc_count cmp A s.pta 32),
          bbalance := s.bbalance + (0 + desc_count cmp A s.ptb 32),
          cbalance := s.cbalance + (0 + desc_count cmp A s.ptc 32),
          dbalance := s.dbalance + (0 + desc_count cmp A s.ptd 32),
          astreaks := (s.astreaks + streak (0 + desc_count cmp A s.pta 32)) % 2 ^ 32,
          bstreaks := (s.bstreaks + streak (0 + desc_count cmp A s.ptb 32)) % 2 ^ 32,
          cstreaks := (s.cstreaks + streak (0 + desc_count cmp A s.ptc 32)) % 2 ^ 32,
          dstreaks := (s.dstreaks + streak (0 + desc_count cmp A s.ptd 32)) % 2 ^ 32,
          cnt := s.cnt - 128, skips := s.skips }) := by
  unfold scan_block
  rw [iterate_scan_step cmp A 32 s ⟨0, 0, 0, 0⟩ ha hb hc hd]
  simp only [Option.some_bind, Option.bind_some]
  have e : (516 < s.cnt ∧
      streak (0 + desc_count cmp A s.pta 32) + streak (0 + desc_count cmp A s.ptb 32) +
        streak (0 + desc_count cmp A s.ptc 32) + streak (0 + desc_count cmp A s.ptd 32) = 0) ↔
      skip_trigger cmp A s := by
    unfold skip_trigger uniform_block
    rw [← streak_eq_zero_iff, ← streak_eq_zero_iff, ← streak_eq_zero_iff, ← streak_eq_zero_iff]
    simp only [Nat.zero_add]
    omega
  by_cases h : skip_trigger cmp A s
  · rw [if_pos (e.mpr h), if_pos h]
  · rw [if_neg (fun h2 => h (e.mp h2)), if_neg h]

/-- C15, as amended: one pass of the block loop takes the skip (each cursor advanced by
a further 96, each balance incremented by a further 48, a further 384 subtracted from
the band counter) exactly when more than 516 elements remain in the band and none of
the four blocks of 32 comparisons just scanned is a streak, that is, each of the four
sums is neither 0 nor 32. -/
theorem scan_block_skip_iff {α : Type} (cmp : α → α → Int) (A : List α) (s : Scan)
    (ha : s.pta + 32 < A.length) (hb : s.ptb + 32 < A.length) (hc : s.ptc + 32 < A.length)
    (hd : s.ptd + 32 < A.length) :
    ∃ s', scan_block cmp A s = some s' ∧
      (s'.skips = s.skips + 1 ↔ skip_trigger cmp A s) ∧
      (skip_trigger cmp A s →
        s'.pta = s.pta + 32 + 96 ∧ s'.ptb = s.ptb + 32 + 96 ∧ s'.ptc = s.ptc + 32 + 96 ∧
        s'.ptd = s.ptd + 32 + 96 ∧
        s'.abalance = s.abalance + desc_count cmp A s.pta 32 + 48 ∧
        s'.bbalance = s.bbalance + desc_count cmp A s.ptb 32 + 48 ∧
        s'.cbalance = s.cbalance + desc_count cmp A s.ptc 32 + 48 ∧
        s'.dbalance = s.dbalance + desc_count cmp A s.ptd 32 + 48 ∧
        s'.cnt = s.cnt - 384 - 128) ∧
      (¬ skip_trigger cmp A s →
        s'.skips = s.skips ∧
        s'.pta = s.pta + 32 ∧ s'.ptb = s.ptb + 32 ∧ s'.ptc = s.ptc + 32 ∧
        s'.ptd = s.ptd + 32 ∧
        s'.abalance = s.abalance + desc_count cmp A s.pta 32 ∧
        s'.bbalance = s.bbalance + desc_count cmp A s.ptb 32 ∧
        s'.cbalance = s.cbalance + desc_count cmp A s.ptc 32 ∧
        s'.dbalance = s.dbalance + desc_count cmp A s.ptd 32 ∧
        s'.cnt = s.cnt - 128) := by
  refine ⟨_, scan_block_eq cmp A s ha hb hc hd, ?_, ?_, ?_⟩
  · by_cases h : skip_trigger cmp A s
    · rw [if_pos h]
      exact ⟨fun _ => h, fun _ => rfl⟩
    · rw [if_neg h]
      exact ⟨fun h2 => absurd h2 (by simp), fun h2 => absurd h2 h⟩
  · intro h
    rw [if_pos h]
    simp
  · intro h
    rw [if_neg h]
    simp

/-- C15 as stated fails: on the sorted array `[0, ..., 999]` the first pass of the block
loop finds the four sums at 0 with 1000 elements in the band, and the skip is not
taken (the four blocks are streaks). -/
theorem skip_not_taken_on_zero_sums :
    skip_trigger_spec nat_cmp (List.range 1000) (scan_entry 1000) ∧
    Option.map Scan.skips (scan_block nat_cmp (List.range 1000) (scan_entry 1000)) = some 0 ∧
    Option.map Scan.pta (scan_block nat_cmp (List.range 1000) (scan_entry 1000)) = some 32 := by
  have hs : ∀ i a b, (List.range 1000)[i]? = some a → (List.range 1000)[i + 1]? = some b →
      nat_cmp a b ≤ 0 := by
    intro i a b ha hb
    have e1 := range_getElem?_some 1000 i a ha
    have e2 := range_getElem?_some 1000 (i + 1) b hb
    subst e1 e2
    unfold nat_cmp
    rw [if_pos (by omega)]
    decide
  have z : ∀ p, desc_count nat_cmp (List.range 1000) p 32 = 0 := fun p =>
    (desc_count_eq_zero nat_cmp (List.range 1000) 32 p).mpr
      (fun j _ => pair_desc_of_le nat_cmp _ hs _)
  have hn : ¬ skip_trigger nat_cmp (List.range 1000) (scan_entry 1000) :=
    fun h => h.2.1 (Or.inl (z _))
  refine ⟨⟨z _, z _, z _, z _, by decide⟩, ?_, ?_⟩
  · rw [scan_block_eq nat_cmp _ _ (by simp [scan_entry]) (by simp [scan_entry])
      (by simp [scan_entry]) (by simp [scan_entry]), if_neg hn]
    rfl
  · rw [scan_block_eq nat_cmp _ _ (by simp [scan_entry]) (by simp [scan_entry])
      (by simp [scan_entry]) (by simp [scan_entry]), if_neg hn]
    rfl

set_option maxRecDepth 100000 in
theorem scan_block_skip_iff_witness :
    ((scan_entry 1000).pta + 32 < (List.range 1000).length ∧
      (scan_entry 1000).ptb + 32 < (List.range 1000).length ∧
      (scan_entry 1000).ptc + 32 < (List.range 1000).length ∧
      (scan_entry 1000).ptd + 32 < (List.range 1000).length ∧
      skip_trigger key_cmp (List.range 1000) (scan_entry 1000)) ∧
    ∃ s', scan_block key_cmp (List.range 1000) (scan_entry 1000) = some s' ∧
      (s'.skips = (scan_entry 1000).skips + 1 ↔
        skip_trigger key_cmp (List.range 1000) (scan_entry 1000)) ∧
      (skip_trigger key_cmp (List.range 1000) (scan_entry 1000) →
        s'.pta = (scan_entry 1000).pta + 32 + 96 ∧ s'.ptb = (scan_entry 1000).ptb + 32 + 96 ∧
        s'.ptc = (scan_entry 1000).ptc + 32 + 96 ∧ s'.ptd = (scan_entry 1000).ptd + 32 + 96 ∧
        s'.abalance = (scan_entry 1000).abalance +
          desc_count key_cmp (List.range 1000) (scan_entry 1000).pta 32 + 48 ∧
        s'.bbalance = (scan_entry 1000).bbalance +
          desc_count key_cmp (List.range 1000) (scan_entry 1000).ptb 32 + 48 ∧
        s'.cbalance = (scan_entry 1000).cbalance +
          desc_count key_cmp (List.range 1000) (scan_entry 1000).ptc 32 + 48 ∧
        s'.dbalance = (scan_entry 1000).dbalance +
          desc_count key_cmp (List.range 1000) (scan_entry 1000).ptd 32 + 48 ∧
        s'.cnt = (scan_entry 1000).cnt - 384 - 128) ∧
      (¬ skip_trigger key_cmp (List.range 1000) (scan_entry 1000) →
        s'.skips = (scan_entry 1000).skips ∧
        s'.pta = (scan_entry 1000).pta + 32 ∧ s'.ptb = (scan_entry 1000).ptb + 32 ∧
        s'.ptc = (scan_entry 1000).ptc + 32 ∧ s'.ptd = (scan_entry 1000).ptd + 32 ∧
        s'.abalance = (scan_entry 1000).abalance +
          desc_count key_cmp (List.range 1000) (scan_entry 1000).pta 32 ∧
        s'.bbalance = (scan_entry 1000).bbalance +
          desc_count key_cmp (List.range 1000) (scan_entry 1000).ptb 32 ∧
        s'.cbalance = (scan_entry 1000).cbalance +
          desc_count key_cmp (List.range 1000) (scan_entry 1000).ptc 32 ∧
        s'.dbalance = (scan_entry 1000).dbalance +
          desc_count key_cmp (List.range 1000) (scan_entry 1000).ptd 32 ∧
        s'.cnt = (scan_entry 1000).cnt - 128) :=
  ⟨⟨by simp [scan_entry], by simp [scan_entry], by simp [scan_entry], by simp [scan_entry],
      by decide⟩,
   scan_block_skip_iff key_cmp (List.range 1000) (scan_entry 1000) (by simp [scan_entry])
     (by simp [scan_entry]) (by simp [scan_entry]) (by simp [scan_entry])⟩

/-! ## The right side after a default partition -/

set_option maxRecDepth 100000 in
/-- C14 as stated fails: `fulcrum_partition` on 101 elements of which 3 are below the
pivot leaves a right side of 97 elements, for which the stated test
(`s_size <= a_size / 32` or `s_size <= 96`) is false, and sorts it with `quadsort_swap`
instead of recursing. -/
theorem right_side_sorted_despite_spec :
    Option.map (fun r => r.2.2)
      (fulcrum_partition (reference_ext nat_cmp) nat_cmp (fun _ => 0) 512 102 0
        four_small (List.replicate 512 0) none 101) =
      some [Call.fulcrum_default_partition 100,
        Call.quadsort_swap Site.fulcrum_partition 512 97,
        Call.quadsort_swap Site.fulcrum_partition 512 3] ∧
    ¬ right_small_spec 3 97 := by
  constructor
  · decide
  · unfold right_small_spec CRUM_OUT
    omega

/-- C14, as amended: after a default partition that left `a_size` elements on the left
and `s_size` on the right, the right side is sorted by `quadsort_swap` exactly when
`a_size <= s_size / 32` or `s_size <= CRUM_OUT`; otherwise it is handled by a recursive
`fulcrum_partition` call on the `s_size` elements after the pivot, with `max`
unchanged. -/
theorem fulcrum_right_calls {α : Type} (ext : Ext α)
    (self : List α → List α → Option α → Nat → Run α) (array swap : List α) (max : Option α)
    (swap_size a_size s_size : Nat) (x : List α × List α × List Call)
    (h : fulcrum_right ext self array swap max swap_size a_size s_size = some x) :
    (a_size ≤ s_size / 32 ∨ s_size ≤ CRUM_OUT →
      x.2.2 = [Call.quadsort_swap Site.fulcrum_partition swap_size s_size]) ∧
    (¬ (a_size ≤ s_size / 32 ∨ s_size ≤ CRUM_OUT) →
      ∃ y, self (array.drop (a_size + 1)) swap max s_size = some y ∧
        x.2.2 = Call.fulcrum_partition s_size :: y.2.2) := by
  unfold fulcrum_right at h
  constructor
  · intro hc
    rw [if_pos hc] at h
    unfold call_quadsort at h
    cases hs : slice array (a_size + 1) s_size with
    | none => rw [hs] at h; simp at h
    | some r =>
      rw [hs] at h
      simp only [Option.some_bind, Option.bind_some, Option.some.injEq] at h
      rw [← h]
  · intro hc
    rw [if_neg hc] at h
    unfold Run.pre at_offset at h
    simp only at h
    cases hy : self (List.drop (a_size + 1) array) swap max s_size with
    | none => rw [hy] at h; simp at h
    | some y =>
      rw [hy] at h
      simp only [Option.some_bind, Option.bind_some, Option.some.injEq] at h
      refine ⟨y, rfl, ?_⟩
      rw [← h]
      rfl

set_option maxRecDepth 100000 in
theorem fulcrum_right_calls_witness :
    fulcrum_right (reference_ext nat_cmp)
        (fulcrum_partition (reference_ext nat_cmp) nat_cmp (fun _ => 0) 512 4 1)
        [2, 1, 3, 6, 5, 4] [0, 0] none 512 2 3 =
      some ([2, 1, 3, 4, 5, 6], [0, 0], [Call.quadsort_swap Site.fulcrum_partition 512 3]) ∧
    ((2 ≤ 3 / 32 ∨ 3 ≤ CRUM_OUT →
      ([2, 1, 3, 4, 5, 6], [0, 0], [Call.quadsort_swap Site.fulcrum_partition 512 3]).2.2 =
        [Call.quadsort_swap Site.fulcrum_partition 512 3]) ∧
    (¬ (2 ≤ 3 / 32 ∨ 3 ≤ CRUM_OUT) →
      ∃ y, fulcrum_partition (reference_ext nat_cmp) nat_cmp (fun _ => 0) 512 4 1
          ([2, 1, 3, 6, 5, 4].drop (2 + 1)) [0, 0] none 3 = some y ∧
        ([2, 1, 3, 4, 5, 6], [0, 0], [Call.quadsort_swap Site.fulcrum_partition 512 3]).2.2 =
          Call.fulcrum_partition 3 :: y.2.2)) :=
  ⟨by decide,
   fulcrum_right_calls (reference_ext nat_cmp)
     (fulcrum_partition (reference_ext nat_cmp) nat_cmp (fun _ => 0) 512 4 1)
     [2, 1, 3, 6, 5, 4] [0, 0] none 512 2 3 _ (by decide)⟩

/-! ## The size handed to the partition kernels -/

set_option maxRecDepth 100000 in
/-- C11 fails: on the 257-element array `[1, 0, 2, ..., 256]` in the build with streak
threshold `nmemb / 512` the scan finds no streak in quadrant 1 and one in each of the
others, so the analyzer hands quadrant 1 (`quad1 = 64` elements) to
`fulcrum_partition`; its pivot selection succeeds, `--nmemb` leaves 63, and
`fulcrum_default_partition` is entered with `nmemb = 63`, where `nmemb / 16 - 4` wraps
to `2 ^ 64 - 1` and the pass leaves the array. -/
theorem partition_entered_with_63 :
    Option.map (fun s => (s.astreaks, s.bstreaks, s.cstreaks, s.dstreaks))
      (crum_scan nat_cmp (one_inversion 257) 257) = some (0, 1, 1, 1) ∧
    257 / 2 / 2 = 64 ∧
    crum_median_of_nine nat_cmp (one_inversion 257) 64 = some 32 ∧
    size_t ((64 : Int) - 1) = 63 ∧
    size_t (((63 / 16 : Nat) : Int) - 4) = 2 ^ 64 - 1 ∧
    ((wr (one_inversion 257) 32 63).bind fun array1 =>
      fulcrum_default_partition nat_cmp array1 (List.replicate 512 0) 32 63) = none ∧
    fulcrum_partition (reference_ext nat_cmp) nat_cmp (fun _ => 0) 512 65 0
      (one_inversion 257) (List.replicate 512 0) none 64 = none ∧
    (∃ r, fulcrum_partition (reference_ext nat_cmp) nat_cmp (fun _ => 0) 512 66 0
      (one_inversion 257) (List.replicate 512 0) none 65 = some r) := by
  refine ⟨by decide, by decide, by decide, by decide, by decide, by decide, by decide, ?_⟩
  have h : (fulcrum_partition (reference_ext nat_cmp) nat_cmp (fun _ => 0) 512 66 0
      (one_inversion 257) (List.replicate 512 0) none 65).isSome = true := by decide
  exact Option.isSome_iff_exists.mp h

/-! ## Runs that return -/

theorem size_t_nat_sub (a b : Nat) (h : b ≤ a) (ha : a < 2 ^ 64) :
    size_t ((a : Int) - (b : Int)) = a - b := by
  unfold size_t
  omega

theorem Ok_mono {α : Type} (r : Run α) (alen slen : Nat) (Q Q' : List α → Prop)
    (h : Run.Ok r alen slen Q) (hq : ∀ a, a.length = alen → Q a → Q' a) :
    Run.Ok r alen slen Q' := by
  obtain ⟨x, hx, ha, hs, q⟩ := h
  exact ⟨x, hx, ha, hs, hq _ ha q⟩

theorem Ok_pre {α : Type} (cs : List Call) (r : Run α) (alen slen : Nat) (Q : List α → Prop)
    (h : Run.Ok r alen slen Q) : Run.Ok (Run.pre cs r) alen slen Q := by
  obtain ⟨x, hx, ha, hs, q⟩ := h
  exact ⟨(x.1, x.2.1, cs ++ x.2.2), by rw [hx]; rfl, ha, hs, q⟩

theorem Ok_next {α : Type} (r : Run α) (f : List α → List α → Run α) (alen slen : Nat)
    (Q Q' : List α → Prop) (h : Run.Ok r alen slen Q)
    (hf : ∀ a s, a.length = alen → s.length = slen → Q a → Run.Ok (f a s) alen slen Q') :
    Run.Ok (Run.next r f) alen slen Q' := by
  obtain ⟨x, hx, ha, hs, q⟩ := h
  have := Ok_pre x.2.2 _ _ _ _ (hf x.1 x.2.1 ha hs q)
  unfold Run.next
  rw [hx]
  exact this

theorem Ok_at_offset {α : Type} (array : List α) (off : Nat) (f : List α → Run α)
    (slen : Nat) (Q : List α → Prop) (hoff : off ≤ array.length)
    (h : Run.Ok (f (array.drop off)) (array.length - off) slen Q) :
    Run.Ok (at_offset array off f) array.length slen
      (fun a => ∃ t, a = array.take off ++ t ∧ t.length = array.length - off ∧ Q t) := by
  obtain ⟨x, hx, ha, hs, q⟩ := h
  refine ⟨(array.take off ++ x.1, x.2.1, x.2.2), by unfold at_offset; rw [hx]; rfl, ?_, hs,
    x.1, rfl, ha, q⟩
  rw [List.length_append, List.length_take, ha]
  omega

theorem slice_eq {α : Type} (a : List α) (off len : Nat) (h : off + len ≤ a.length) :
    slice a off len = some (run_at a off len) := by
  unfold slice run_at
  rw [if_pos h]

theorem splice_length {α : Type} (a : List α) (off len : Nat) (r : List α)
    (h : off + len ≤ a.length) (hr : r.length = len) :
    (splice a off len r).length = a.length := by
  unfold splice
  rw [List.length_append, List.length_append, List.length_take, List.length_drop, hr]
  omega

theorem Ok_call_quadsort {α : Type} (ext : Ext α) (hin : InPlace ext) (site : Site)
    (array swap : List α) (off swap_size nmemb : Nat) (h : off + nmemb ≤ array.length) :
    Run.Ok (call_quadsort ext site array swap off swap_size nmemb) array.length swap.length
      (fun a => a = splice array off nmemb
        (ext.quadsort_swap (run_at array off nmemb) swap swap_size).1) := by
  have hl := hin.1 (run_at array off nmemb) swap swap_size
  refine ⟨_, by unfold call_quadsort; rw [slice_eq array off nmemb h]; rfl, ?_, hl.2, rfl⟩
  exact splice_length array off nmemb _ h (by rw [hl.1, run_at_length array off nmemb h])

/-! ## Sorted lists -/

theorem pairwise_of_ascending {α : Type} (cmp : α → α → Int) (hc : TotalPreorder cmp)
    (l : List α) (h : ascending_on cmp l 0 l.length) :
    l.Pairwise (fun a b => cmp a b ≤ 0) := by
  have hs := sorted_on_of_ascending cmp hc l 0 l.length (Nat.le_refl _) h
  rw [List.pairwise_iff_getElem]
  intro i j hi hj hij
  exact hs i j _ _ (Nat.zero_le _) (by omega) hj (List.getElem?_eq_getElem hi)
    (List.getElem?_eq_getElem hj)

theorem ascending_of_pairwise {α : Type} (cmp : α → α → Int) (S D : List α)
    (h : S.Pairwise (fun a b => cmp a b ≤ 0)) : ascending_on cmp (S ++ D) 0 S.length := by
  intro i a b _ hi ha hb
  rw [List.pairwise_iff_getElem] at h
  rw [List.getElem?_append_left (by omega)] at ha hb
  rw [List.getElem?_eq_getElem (by omega)] at ha hb
  cases ha
  cases hb
  exact h i (i + 1) (by omega) hi (by omega)

theorem sorts_pairwise {α : Type} (ext : Ext α) (cmp : α → α → Int) (hc : TotalPreorder cmp)
    (hs : Sorts ext cmp) (r s : List α) (k : Nat) :
    (ext.quadsort_swap r s k).1.Pairwise (fun a b => cmp a b ≤ 0) := by
  apply pairwise_of_ascending cmp hc
  rw [(hs r s k).1.length_eq]
  exact (hs r s k).2

theorem pairwise_of_equiv {α : Type} (R : α → α → Prop) :
    ∀ (l : List α), (∀ a b, a ∈ l → b ∈ l → R a b) → l.Pairwise R := by
  intro l
  induction l with
  | nil => intro _; exact List.Pairwise.nil
  | cons x l ih =>
    intro h
    exact List.Pairwise.cons (fun b hb => h x b (List.mem_cons_self _ _) (List.mem_cons_of_mem _ hb))
      (ih (fun a b ha hb => h a b (List.mem_cons_of_mem _ ha) (List.mem_cons_of_mem _ hb)))

/-! ## Permutations of a range -/

theorem PermRange_refl {α : Type} (a : List α) (n : Nat) : PermRange a n a :=
  ⟨a.take n, (List.take_append_drop n a).symm, List.Perm.refl _⟩

theorem PermRange_length {α : Type} (a b : List α) (n : Nat) (h : PermRange a n b) :
    b.length = a.length := by
  obtain ⟨S, rfl, hp⟩ := h
  rw [List.length_append, hp.length_eq, ← List.length_append, List.take_append_drop]

theorem PermRange_take {α : Type} (a b : List α) (n : Nat) (hn : n ≤ a.length)
    (h : PermRange a n b) : (b.take n).Perm (a.take n) ∧ b.drop n = a.drop n := by
  obtain ⟨S, rfl, hp⟩ := h
  have hl : S.length = n := by rw [hp.length_eq, List.length_take]; omega
  rw [List.take_left' hl, List.drop_left' hl]
  exact ⟨hp, rfl⟩

theorem PermRange_trans {α : Type} (a b c : List α) (n : Nat) (hn : n ≤ a.length)
    (h1 : PermRange a n b) (h2 : PermRange b n c) : PermRange a n c := by
  obtain ⟨hp, hd⟩ := PermRange_take a b n hn h1
  obtain ⟨S, rfl, hs⟩ := h2
  exact ⟨S, by rw [hd], hs.trans hp⟩

theorem set_perm_cons {α : Type} (x y : α) :
    ∀ (l : List α) (j : Nat), l[j]? = some y → (y :: l.set j x).Perm (x :: l) := by
  intro l
  induction l with
  | nil => intro j h; simp at h
  | cons z l ih =>
    intro j h
    cases j with
    | zero =>
      simp at h
      subst h
      exact List.Perm.swap _ _ _
    | succ j =>
      simp at h
      rw [List.set_cons_succ]
      exact (List.Perm.swap _ _ _).trans (((ih j h).cons z).trans (List.Perm.swap _ _ _))

theorem swap_perm {α : Type} (x y : α) :
    ∀ (l : List α) (i j : Nat), l[i]? = some x → l[j]? = some y →
      ((l.set i y).set j x).Perm l := by
  intro l
  induction l with
  | nil => intro i j h; simp at h
  | cons z l ih =>
    intro i j hx hy
    cases i with
    | zero =>
      simp at hx
      subst hx
      cases j with
      | zero =>
        simp at hy
        subst hy
        simp
      | succ j =>
        simp at hy
        rw [List.set_cons_zero, List.set_cons_succ]
        exact set_perm_cons z y l j hy
    | succ i =>
      simp at hx
      cases j with
      | zero =>
        simp at hy
        subst hy
        rw [List.set_cons_succ, List.set_cons_zero]
        exact set_perm_cons z x l i hx
      | succ j =>
        simp at hy
        rw [List.set_cons_succ, List.set_cons_succ]
        exact (ih i j hx hy).cons z

theorem PermRange_swap {α : Type} (a : List α) (n i j : Nat) (x y : α) (hn : n ≤ a.length)
    (hi : i < n) (hj : j < n) (hx : a[i]? = some x) (hy : a[j]? = some y) :
    PermRange a n ((a.set i y).set j x) := by
  have hl : (a.take n).length = n := by rw [List.length_take]; omega
  refine ⟨((a.take n).set i y).set j x, ?_, ?_⟩
  · conv_lhs => rw [← List.take_append_drop n a]
    rw [List.set_append_left _ _ (by omega), List.set_append_left _ _ (by simp; omega)]
  · apply swap_perm
    · rw [List.getElem?_take_of_lt hi]; exact hx
    · rw [List.getElem?_take_of_lt hj]; exact hy

theorem PermRange_splice {α : Type} (a r : List α) (n off len : Nat) (hn : n ≤ a.length)
    (hol : off + len ≤ n) (hr : r.Perm (run_at a off len)) :
    PermRange a n (splice a off len r) := by
  refine ⟨(a.take off ++ r ++ (a.drop (off + len)).take (n - (off + len))), ?_, ?_⟩
  · unfold splice
    have e : a.drop (off + len) =
        (a.drop (off + len)).take (n - (off + len)) ++ a.drop n := by
      conv_lhs => rw [← List.take_append_drop (n - (off + len)) (a.drop (off + len))]
      rw [List.drop_drop]
      congr 2
      omega
    conv_lhs => rw [e]
    simp only [List.append_assoc]
  · have e : a.take n = a.take off ++ run_at a off len ++
        (a.drop (off + len)).take (n - (off + len)) := by
      unfold run_at
      apply List.ext_getElem?
      intro t
      by_cases h1 : t < off
      · rw [List.getElem?_take_of_lt (by omega), List.append_assoc,
          List.getElem?_append_left (by rw [List.length_take]; omega),
          List.getElem?_take_of_lt h1]
      · have l1 : (a.take off).length = off := by rw [List.length_take]; omega
        have l2 : ((a.drop off).take len).length = len := by
          rw [List.length_take, List.length_drop]; omega
        by_cases h2 : t < off + len
        · rw [List.getElem?_take_of_lt (by omega), List.append_assoc,
            List.getElem?_append_right (by omega), l1,
            List.getElem?_append_left (by omega),
            List.getElem?_take_of_lt (by omega), List.getElem?_drop]
          congr 1
          omega
        · rw [List.getElem?_append_right (by rw [List.length_append]; omega),
            List.length_append, l1, l2]
          by_cases h3 : t < n
          · rw [List.getElem?_take_of_lt h3, List.getElem?_take_of_lt (by omega),
              List.getElem?_drop]
            congr 1
            omega
          · rw [List.getElem?_eq_none (by rw [List.length_take]; omega),
              List.getElem?_eq_none (by rw [List.length_take]; omega)]
    rw [e]
    exact (List.Perm.append_left _ hr).append_right _

theorem SortedRange_of_perm {α : Type} (cmp : α → α → Int) (a b out : List α) (n : Nat)
    (hn : n ≤ a.length) (h1 : PermRange a n b) (h2 : SortedRange cmp b n out) :
    SortedRange cmp a n out := by
  obtain ⟨hp, hd⟩ := PermRange_take a b n hn h1
  obtain ⟨S, rfl, hs, hsort⟩ := h2
  exact ⟨S, by rw [hd], hs.trans hp, hsort⟩

/-! ## The pivot selection returns -/

theorem crum_median_of_three_total {α : Type} (cmp : α → α → Int) (A : List α)
    (v0 v1 v2 : Nat) (h0 : v0 < A.length) (h1 : v1 < A.length) (h2 : v2 < A.length) :
    ∃ r, crum_median_of_three cmp A v0 v1 v2 = some r ∧ (r = v0 ∨ r = v1 ∨ r = v2) := by
  unfold crum_median_of_three
  rw [rd_nat, rd_nat, rd_nat, List.getElem?_eq_getElem h0, List.getElem?_eq_getElem h1,
    List.getElem?_eq_getElem h2]
  simp only [Option.some_bind, Option.bind_some]
  by_cases x : cmp A[v0] A[v1] > 0 <;> by_cases y : cmp A[v0] A[v2] > 0 <;>
    by_cases z : cmp A[v1] A[v2] > 0
  · rw [if_pos x, if_pos y, if_pos z]; exact ⟨v1, rfl, Or.inr (Or.inl rfl)⟩
  · rw [if_pos x, if_pos y, if_neg z]; exact ⟨v2, rfl, Or.inr (Or.inr rfl)⟩
  · rw [if_pos x, if_neg y, if_pos z]; exact ⟨v1, rfl, Or.inr (Or.inl rfl)⟩
  · rw [if_pos x, if_neg y, if_neg z]; exact ⟨v0, rfl, Or.inl rfl⟩
  · rw [if_neg x, if_pos y, if_pos z]; exact ⟨v0, rfl, Or.inl rfl⟩
  · rw [if_neg x, if_pos y, if_neg z]; exact ⟨v1, rfl, Or.inr (Or.inl rfl)⟩
  · rw [if_neg x, if_neg y, if_pos z]; exact ⟨v2, rfl, Or.inr (Or.inr rfl)⟩
  · rw [if_neg x, if_neg y, if_neg z]; exact ⟨v1, rfl, Or.inr (Or.inl rfl)⟩

theorem crum_median_of_nine_total {α : Type} (cmp : α → α → Int) (A : List α) (nmemb : Nat)
    (h16 : 16 ≤ nmemb) (hl : nmemb ≤ A.length) :
    ∃ p, crum_median_of_nine cmp A nmemb = some p ∧ p < nmemb := by
  have hd := Nat.div_mul_le_self nmemb 16
  have hp : 0 < nmemb / 16 := Nat.div_pos h16 (by decide)
  unfold crum_median_of_nine
  simp only
  obtain ⟨x, hx, ex⟩ := crum_median_of_three_total cmp A (nmemb / 16 * 2) (nmemb / 16 * 1)
    (nmemb / 16 * 4) (by omega) (by omega) (by omega)
  obtain ⟨y, hy, ey⟩ := crum_median_of_three_total cmp A (nmemb / 16 * 8) (nmemb / 16 * 6)
    (nmemb / 16 * 10) (by omega) (by omega) (by omega)
  obtain ⟨z, hz, ez⟩ := crum_median_of_three_total cmp A (nmemb / 16 * 14) (nmemb / 16 * 12)
    (nmemb / 16 * 15) (by omega) (by omega) (by omega)
  obtain ⟨p, hp2, ep⟩ := crum_median_of_three_total cmp A x y z (by omega) (by omega) (by omega)
  rw [hx, hy, hz]
  exact ⟨p, hp2, by omega⟩

theorem cbrt_loop_spec (swap_size nmemb : Nat) (hsz : nmemb < 2 ^ 63) :
    ∀ fuel k, k ≤ 21 → 21 - k < fuel → 2 ^ k ≤ nmemb → 1 ≤ k →
      ∃ k', k ≤ k' ∧ k' ≤ 21 ∧ cbrt_loop swap_size nmemb fuel (2 ^ k) = some (2 ^ k') ∧
        2 ^ k' ≤ nmemb := by
  intro fuel
  induction fuel with
  | zero => intro k _ h; omega
  | succ fuel ih =>
    intro k hk hf hle h1
    have e3 : 2 ^ k * 2 ^ k * 2 ^ k = 2 ^ (3 * k) := by
      rw [← Nat.pow_add, ← Nat.pow_add]
      congr 1
      omega
    have h63 : 2 ^ (3 * k) ≤ 2 ^ 63 := Nat.pow_le_pow_right (by decide) (by omega)
    unfold cbrt_loop
    rw [e3, Nat.mod_eq_of_lt (by omega)]
    by_cases hc : nmemb > 2 ^ (3 * k) ∧ 2 ^ k < swap_size
    · rw [if_pos hc]
      have hk20 : k ≤ 20 := by
        by_contra hcon
        have : k = 21 := by omega
        subst this
        omega
      have e2 : 2 ^ k * 2 % 2 ^ 64 = 2 ^ (k + 1) := by
        rw [← Nat.pow_succ]
        exact Nat.mod_eq_of_lt (Nat.pow_lt_pow_right (by decide) (by omega))
      rw [e2]
      have hle2 : 2 ^ (k + 1) ≤ 2 ^ (3 * k) := Nat.pow_le_pow_right (by decide) (by omega)
      obtain ⟨k', a, b, c, d⟩ := ih (k + 1) (by omega) (by omega) (by omega) (by omega)
      exact ⟨k', by omega, b, c, d⟩
    · rw [if_neg hc]
      exact ⟨k, Nat.le_refl _, hk, rfl, hle⟩

/-- The sample exchange returns and permutes `array[0 .. n)`: every step exchanges two
elements of the range through `swap[0]`. -/
theorem cbrt_exchange_spec {α : Type} (div n : Nat) :
    ∀ (cnt : Nat) (array swap : List α) (piv pta : Nat),
      1 ≤ swap.length → cnt ≤ piv → piv ≤ n → (cnt - 1) * div ≤ pta → pta < n →
      n ≤ array.length →
      ∃ r, cbrt_exchange div cnt array swap (piv : Int) (pta : Int) = some r ∧
        r.2.length = swap.length ∧ PermRange array n r.1 := by
  intro cnt
  induction cnt with
  | zero =>
    intro array swap piv pta _ _ _ _ _ _
    exact ⟨(array, swap), rfl, rfl, PermRange_refl _ _⟩
  | succ cnt ih =>
    intro array swap piv pta hs hp hpn hpt htn hn
    have hx : array[piv - 1]? = some (array[piv - 1]) := List.getElem?_eq_getElem (by omega)
    have hy : array[pta]? = some (array[pta]) := List.getElem?_eq_getElem (by omega)
    unfold cbrt_exchange
    rw [rd_of_eq array ((piv : Int) - 1) (piv - 1) (by omega), hx]
    simp only [Option.some_bind, Option.bind_some]
    rw [wr_of_eq swap 0 0 _ rfl (by omega)]
    simp only [Option.some_bind, Option.bind_some]
    rw [rd_nat, hy]
    simp only [Option.some_bind, Option.bind_some]
    rw [wr_of_eq array ((piv : Int) - 1) (piv - 1) _ (by omega) (by omega)]
    simp only [Option.some_bind, Option.bind_some]
    rw [rd_of_eq (swap.set 0 array[piv - 1]) 0 0 rfl,
      List.getElem?_set_self (by omega)]
    simp only [Option.some_bind, Option.bind_some]
    rw [wr_of_eq _ (pta : Int) pta _ rfl (by rw [List.length_set]; omega)]
    simp only [Option.some_bind, Option.bind_some]
    have hsw := PermRange_swap array n (piv - 1) pta _ _ hn (by omega) (by omega) hx hy
    have hlen := PermRange_length _ _ _ hsw
    by_cases hc0 : cnt = 0
    · subst hc0
      exact ⟨_, rfl, by rw [List.length_set], hsw⟩
    · have hdiv : cnt * div ≤ pta := by simpa using hpt
      have hsplit : cnt * div = (cnt - 1) * div + div := by
        obtain ⟨c, rfl⟩ : ∃ c, cnt = c + 1 := ⟨cnt - 1, by omega⟩
        simp [Nat.add_mul]
      obtain ⟨r, hr, hrs, hrp⟩ := ih ((array.set (piv - 1) array[pta]).set pta array[piv - 1])
        (swap.set 0 array[piv - 1]) (piv - 1) (pta - div) (by rw [List.length_set]; omega)
        (by omega) (by omega) (by omega) (by omega) (by omega)
      have e1 : ((piv : Int) - 1) = ((piv - 1 : Nat) : Int) := by omega
      have e2 : ((pta : Int) - (div : Int)) = ((pta - div : Nat) : Int) := by omega
      rw [e1, e2]
      refine ⟨r, hr, by rw [hrs, List.length_set], ?_⟩
      exact PermRange_trans _ _ _ n hn hsw hrp

/-- The descent of `crum_binary_median` returns for any comparator. -/
theorem crum_binary_median_total {α : Type} (cmp : α → α → Int) (A : List α) :
    ∀ k fuel pa pb, k < fuel → pa + 2 ^ k ≤ A.length → pb + 2 ^ k ≤ A.length →
      ∃ r, crum_binary_median cmp A fuel pa pb (2 ^ k) = some r ∧
        (r < pa + 2 ^ k ∨ r < pb + 2 ^ k) := by
  intro k
  induction k with
  | zero =>
    intro fuel pa pb hf ha hb
    obtain ⟨f, rfl⟩ : ∃ f, fuel = f + 1 := ⟨fuel - 1, by omega⟩
    unfold crum_binary_median
    rw [if_pos (by decide), rd_nat, rd_nat, List.getElem?_eq_getElem (by simp at ha; omega),
      List.getElem?_eq_getElem (by simp at hb; omega)]
    simp only [Option.some_bind, Option.bind_some]
    refine ⟨_, rfl, ?_⟩
    split
    · left; simp
    · right; simp
  | succ k ih =>
    intro fuel pa pb hf ha hb
    obtain ⟨f, rfl⟩ : ∃ f, fuel = f + 1 := ⟨fuel - 1, by omega⟩
    have hp : 2 ^ (k + 1) = 2 ^ k + 2 ^ k := by rw [Nat.pow_succ]; omega
    have hpos : 0 < 2 ^ k := Nat.two_pow_pos k
    have hhalf : 2 ^ (k + 1) / 2 = 2 ^ k := by omega
    unfold crum_binary_median
    rw [hhalf, if_neg (by omega), rd_nat, rd_nat, List.getElem?_eq_getElem (by omega),
      List.getElem?_eq_getElem (by omega)]
    simp only [Option.some_bind, Option.bind_some]
    split
    · obtain ⟨r, hr, hb2⟩ := ih f (pa + 2 ^ k) pb (by omega) (by omega) (by omega)
      exact ⟨r, hr, by omega⟩
    · obtain ⟨r, hr, hb2⟩ := ih f pa (pb + 2 ^ k) (by omega) (by omega) (by omega)
      exact ⟨r, hr, by omega⟩

/-- The cube-root pivot selection returns an offset inside the range; it leaves the
buffers at their sizes and, when `quadsort_swap` permutes, the range permuted. -/
theorem crum_median_of_cbrt_spec {α : Type} (ext : Ext α) (hin : InPlace ext)
    (cmp : α → α → Int) (addr : Nat) (array swap : List α) (swap_size nmemb : Nat)
    (hn : 2048 < nmemb) (hsz : nmemb < 2 ^ 63) (hl : nmemb ≤ array.length)
    (hs : 1 ≤ swap.length) :
    ∃ p, crum_median_of_cbrt ext cmp addr array swap swap_size nmemb = some p ∧
      p.1 < nmemb ∧ p.2.2.1.length = array.length ∧ p.2.2.2.1.length = swap.length ∧
      (Sorts ext cmp → PermRange array nmemb p.2.2.1) := by
  obtain ⟨k, hk5, hk21, hloop, hkn⟩ :=
    cbrt_loop_spec swap_size nmemb hsz 64 5 (by decide) (by decide) (by omega) (by decide)
  have h32 : (2 : Nat) ^ 5 = 32 := by decide
  rw [h32] at hloop
  obtain ⟨j, rfl⟩ : ∃ j, k = j + 1 := ⟨k - 1, by omega⟩
  have hpos : 0 < 2 ^ j := Nat.two_pow_pos j
  have hp : 2 ^ (j + 1) = 2 ^ j + 2 ^ j := by rw [Nat.pow_succ]; omega
  have hhalf : 2 ^ (j + 1) / 2 = 2 ^ j := by omega
  have hdiv : 0 < nmemb / 2 ^ (j + 1) := Nat.div_pos hkn (by omega)
  have hdm := Nat.div_mul_le_self nmemb (2 ^ (j + 1))
  have hoff : addr / 64 % (nmemb / 2 ^ (j + 1)) < nmemb / 2 ^ (j + 1) := Nat.mod_lt _ hdiv
  have hsplit : (2 ^ (j + 1) - 1) * (nmemb / 2 ^ (j + 1)) + nmemb / 2 ^ (j + 1) =
      nmemb / 2 ^ (j + 1) * 2 ^ (j + 1) := by
    obtain ⟨c, hc⟩ : ∃ c, 2 ^ (j + 1) = c + 1 := ⟨2 ^ (j + 1) - 1, by omega⟩
    rw [hc]
    simp [Nat.add_mul, Nat.mul_add, Nat.mul_comm]
  have epta : ((nmemb : Int) - 1 - ((addr / 64 % (nmemb / 2 ^ (j + 1)) : Nat) : Int)) =
      ((nmemb - 1 - addr / 64 % (nmemb / 2 ^ (j + 1)) : Nat) : Int) := by omega
  obtain ⟨r1, h1, l1s, p1⟩ := cbrt_exchange_spec (nmemb / 2 ^ (j + 1)) nmemb (2 ^ (j + 1))
    array swap (2 ^ (j + 1)) (nmemb - 1 - addr / 64 % (nmemb / 2 ^ (j + 1))) hs
    (Nat.le_refl _) hkn (by omega) (by omega) hl
  have l1a := PermRange_length _ _ _ p1
  obtain ⟨r2, h2, l2a, l2s, q2⟩ := Ok_call_quadsort ext hin Site.crum_median_of_cbrt r1.1 r1.2
    0 swap_size (2 ^ j) (by omega)
  obtain ⟨r3, h3, l3a, l3s, q3⟩ := Ok_call_quadsort ext hin Site.crum_median_of_cbrt r2.1
    r2.2.1 (2 ^ j) swap_size (2 ^ j) (by omega)
  obtain ⟨ptp, hb, hbound⟩ := crum_binary_median_total cmp r3.1 j (2 ^ j + 1) 0 (2 ^ j)
    (by have := Nat.lt_two_pow j; omega) (by omega) (by omega)
  unfold crum_median_of_cbrt
  rw [hloop]
  simp only [Option.some_bind, Option.bind_some]
  rw [if_neg (by omega), hhalf]
  rw [epta] at *
  rw [show ((2 ^ (j + 1) : Nat) : Int) = (((2 : Nat) ^ (j + 1) : Nat) : Int) from rfl] at *
  rw [h1]
  simp only [Option.some_bind, Option.bind_some]
  rw [h2]
  simp only [Option.some_bind, Option.bind_some]
  rw [h3]
  simp only [Option.some_bind, Option.bind_some]
  rw [rd_of_eq r3.1 (((2 ^ j * 2 : Nat) : Int) - 1) (2 ^ j * 2 - 1) (by omega),
    List.getElem?_eq_getElem (by omega)]
  simp only [Option.some_bind, Option.bind_some]
  rw [rd_of_eq r3.1 0 0 rfl, List.getElem?_eq_getElem (by omega)]
  simp only [Option.some_bind, Option.bind_some]
  rw [rd_of_eq r3.1 (((2 ^ j : Nat) : Int) - 1) (2 ^ j - 1) (by omega),
    List.getElem?_eq_getElem (by omega)]
  simp only [Option.some_bind, Option.bind_some]
  rw [hb]
  simp only [Option.some_bind, Option.bind_some]
  refine ⟨_, rfl, by simp only; omega, by simp only; omega, by simp only; omega, ?_⟩
  intro hsorts
  simp only
  have s2 : PermRange r1.1 nmemb r2.1 := by
    rw [q2]
    exact PermRange_splice _ _ _ _ _ (by omega) (by omega) (hsorts _ _ _).1
  have s3 : PermRange r2.1 nmemb r3.1 := by
    rw [q3]
    exact PermRange_splice _ _ _ _ _ (by omega) (by omega) (hsorts _ _ _).1
  exact PermRange_trans _ _ _ _ hl p1 (PermRange_trans _ _ _ _ (by omega) s2 s3)

/-- The pivot selection of `fulcrum_partition` (lines 424-433) returns. -/
theorem pivot_spec {α : Type} (ext : Ext α) (hin : InPlace ext) (cmp : α → α → Int)
    (addr : Nat) (array swap : List α) (swap_size nmemb : Nat)
    (h65 : 65 ≤ nmemb) (hsz : nmemb < 2 ^ 63) (hl : nmemb ≤ array.length)
    (hs : 1 ≤ swap.length) :
    ∃ p, (if nmemb ≤ 2048 then
        (crum_median_of_nine cmp array nmemb).bind fun ptp =>
          some (ptp, false, array, swap, [])
      else crum_median_of_cbrt ext cmp addr array swap swap_size nmemb) = some p ∧
      p.1 < nmemb ∧ p.2.2.1.length = array.length ∧ p.2.2.2.1.length = swap.length ∧
      (Sorts ext cmp → PermRange array nmemb p.2.2.1) := by
  by_cases h : nmemb ≤ 2048
  · rw [if_pos h]
    obtain ⟨p, hp, hb⟩ := crum_median_of_nine_total cmp array nmemb (by omega) hl
    rw [hp]
    exact ⟨_, rfl, hb, rfl, rfl, fun _ => PermRange_refl _ _⟩
  · rw [if_neg h]
    exact crum_median_of_cbrt_spec ext hin cmp addr array swap swap_size nmemb (by omega) hsz hl hs

/-! ## One pass of the partitioner -/

theorem kernel_default {α : Type} (cmp : α → α → Int) (piv : α) (A0 swap : List α) (n : Nat)
    (h64 : 64 ≤ n) (hn : n ≤ A0.length) (hsz : n < 2 ^ 64) (hsw : 64 ≤ swap.length) :
    ∃ (P sw : List α) (gaps : List Int), P.Perm (A0.take n) ∧ sw.length = swap.length ∧
      fulcrum_default_partition cmp A0 swap piv n =
        some ((P.filter (below cmp piv)).length,
          P.filter (below cmp piv) ++ (P.filter (above cmp piv)).reverse ++ A0.drop n,
          sw, gaps) := by
  obtain ⟨P, gaps, hp, hq, _⟩ := fulcrum_default_partition_spec cmp piv A0 swap n h64 hn hsz hsw
  refine ⟨P, _, gaps, hp, ?_, hq⟩
  simp only [List.length_append, List.length_take, List.length_drop]
  omega

theorem mem_below {α : Type} (cmp : α → α → Int) (piv e : α) (P : List α)
    (h : e ∈ P.filter (below cmp piv)) : e ∈ P ∧ cmp e piv ≤ 0 := by
  rw [List.mem_filter] at h
  exact ⟨h.1, of_decide_eq_true h.2⟩

theorem mem_above {α : Type} (cmp : α → α → Int) (piv e : α) (P : List α)
    (h : e ∈ P.filter (above cmp piv)) : e ∈ P ∧ ¬ cmp e piv ≤ 0 := by
  rw [List.mem_filter] at h
  refine ⟨h.1, ?_⟩
  have h2 := h.2
  unfold above below at h2
  simpa using h2

theorem below_above_perm {α : Type} (cmp : α → α → Int) (piv : α) (P : List α) :
    (P.filter (below cmp piv) ++ P.filter (above cmp piv)).Perm P :=
  List.filter_append_perm (below cmp piv) P

theorem partition_sizes {α : Type} (cmp : α → α → Int) (piv : α) (P A : List α) (n : Nat)
    (hn : n ≤ A.length) (hp : P.Perm (A.take n)) :
    (P.filter (below cmp piv)).length + (P.filter (above cmp piv)).length = n := by
  rw [below_above_length, hp.length_eq, List.length_take]
  omega

/-- After a reverse partition of a range bounded by the pivot, sorting the left part
sorts the range: what went right is equivalent to the pivot. -/
theorem reverse_assemble {α : Type} (cmp : α → α → Int) (hc : TotalPreorder cmp) (piv : α)
    (B P S : List α) (n : Nat)
    (hP : P.Perm (B.take n)) (hS : S.Perm (P.filter (below (reverse_cmp cmp) piv)))
    (hsorted : S.Pairwise (fun a b => cmp a b ≤ 0))
    (hbound : ∀ e, e ∈ B.take n → cmp e piv ≤ 0) :
    SortedRange cmp B n
      (S ++ ((P.filter (above (reverse_cmp cmp) piv)).reverse ++ B.drop n)) := by
  have hR : ∀ b, b ∈ (P.filter (above (reverse_cmp cmp) piv)).reverse →
      cmp b piv ≤ 0 ∧ cmp piv b ≤ 0 := by
    intro b hb
    obtain ⟨hbP, hnb⟩ := mem_above _ _ _ _ (List.mem_reverse.mp hb)
    rw [reverse_cmp_le] at hnb
    exact ⟨hbound b (hP.subset hbP), by omega⟩
  have hL : ∀ a, a ∈ S → cmp a piv ≤ 0 := by
    intro a ha
    exact hbound a (hP.subset (mem_below _ _ _ _ (hS.subset ha)).1)
  refine ⟨S ++ (P.filter (above (reverse_cmp cmp) piv)).reverse,
    by rw [List.append_assoc], ?_, ?_⟩
  · exact ((hS.append (List.reverse_perm _)).trans (below_above_perm _ _ _)).trans hP
  · rw [List.pairwise_append]
    refine ⟨hsorted, ?_, ?_⟩
    · exact pairwise_of_equiv _ _
        (fun a b ha hb => hc.2 _ _ _ (hR a ha).1 (hR b hb).2)
    · intro a ha b hb
      exact hc.2 _ _ _ (hL a ha) (hR b hb).2

/-- Lines 438-445 and 466-473: a reverse partition followed by the sort of, or the next
pass over, its left part. -/
theorem reverse_pass {α : Type} (ext : Ext α) (hin : InPlace ext) (cmp : α → α → Int)
    (addr : Nat → Nat) (swap_size fuel : Nat)
    (ih : ∀ depth (array swap : List α) max nmemb, nmemb < fuel → 65 ≤ nmemb →
      nmemb ≤ array.length → nmemb < 2 ^ 63 → 64 ≤ swap.length →
      PartitionOk ext cmp addr swap_size fuel depth array swap max nmemb)
    (depth : Nat) (B sw : List α) (piv : α) (n : Nat) (cs : List Call)
    (h65 : 65 ≤ n) (hl : n ≤ B.length) (hsz : n < 2 ^ 63) (hs : 64 ≤ sw.length)
    (hf : n ≤ fuel) :
    Run.Ok
      ((fulcrum_reverse_partition cmp B sw piv n).bind fun q =>
        let a_size := q.1
        let s_size := size_t ((n : Int) - a_size)
        Run.pre cs
          (if s_size ≤ a_size / 32 ∨ a_size ≤ CRUM_OUT then
            call_quadsort ext Site.fulcrum_partition q.2.1 q.2.2.1 0 swap_size a_size
          else fulcrum_partition ext cmp addr swap_size fuel depth q.2.1 q.2.2.1 none a_size))
      B.length sw.length
      (fun out => TotalPreorder cmp → Sorts ext cmp → (∀ e, e ∈ B.take n → cmp e piv ≤ 0) →
        SortedRange cmp B n out) := by
  obtain ⟨P, sw', gaps, hP, hsw', hq⟩ :=
    kernel_default (reverse_cmp cmp) piv B sw n (by omega) hl (by omega) hs
  have hsizes := partition_sizes (reverse_cmp cmp) piv P B n hl hP
  rw [fulcrum_reverse_partition_eq, hq]
  simp only [Option.some_bind, Option.bind_some]
  rw [size_t_nat_sub n _ (by omega) (by omega)]
  have hlenX : (P.filter (below (reverse_cmp cmp) piv) ++
      (P.filter (above (reverse_cmp cmp) piv)).reverse ++ B.drop n).length = B.length := by
    simp only [List.length_append, List.length_reverse, List.length_drop]
    omega
  have htake : (P.filter (below (reverse_cmp cmp) piv) ++
      (P.filter (above (reverse_cmp cmp) piv)).reverse ++ B.drop n).take
        (P.filter (below (reverse_cmp cmp) piv)).length =
      P.filter (below (reverse_cmp cmp) piv) := by
    rw [List.append_assoc, List.take_left' rfl]
  have hdrop : (P.filter (below (reverse_cmp cmp) piv) ++
      (P.filter (above (reverse_cmp cmp) piv)).reverse ++ B.drop n).drop
        (P.filter (below (reverse_cmp cmp) piv)).length =
      (P.filter (above (reverse_cmp cmp) piv)).reverse ++ B.drop n := by
    rw [List.append_assoc, List.drop_left' rfl]
  apply Ok_pre
  rw [← hlenX, ← hsw']
  split
  · refine Ok_mono _ _ _ _ _ (Ok_call_quadsort ext hin Site.fulcrum_partition _ sw' 0
      swap_size _ (by rw [hlenX]; omega)) ?_
    intro a _ ha hc hsorts hbound
    subst ha
    have hrun : run_at (P.filter (below (reverse_cmp cmp) piv) ++
        (P.filter (above (reverse_cmp cmp) piv)).reverse ++ B.drop n) 0
          (P.filter (below (reverse_cmp cmp) piv)).length =
        P.filter (below (reverse_cmp cmp) piv) := by
      unfold run_at
      rw [List.drop_zero, htake]
    unfold splice
    rw [hrun, List.take_zero, List.nil_append, Nat.zero_add, hdrop]
    exact reverse_assemble cmp hc piv B P _ n hP (hsorts _ _ _).1
      (sorts_pairwise ext cmp hc hsorts _ _ _) hbound
  · rename_i hcond
    have hm : 96 < (P.filter (below (reverse_cmp cmp) piv)).length := by
      unfold CRUM_OUT at hcond
      omega
    have hlt : (P.filter (below (reverse_cmp cmp) piv)).length < n := by
      by_contra hcon
      apply hcond
      left
      omega
    refine Ok_mono _ _ _ _ _ (ih depth _ sw' none _ (by omega) (by omega)
      (by rw [hlenX]; omega) (by omega) (by omega)) ?_
    intro a _ ha hc hsorts hbound
    obtain ⟨S, rfl, hS, hsorted⟩ := ha hc hsorts (fun mx h => by cases h)
    rw [htake] at hS
    rw [hdrop]
    exact reverse_assemble cmp hc piv B P S n hP hS hsorted hbound

theorem set_append_cons {α : Type} (L T : List α) (x y : α) :
    (L ++ x :: T).set L.length y = L ++ y :: T := by
  rw [List.set_append_right _ _ (Nat.le_refl _), Nat.sub_self, List.set_cons_zero]

theorem getElem?_append_cons {α : Type} (L T : List α) (x : α) :
    (L ++ x :: T)[L.length]? = some x := by
  rw [List.getElem?_append_right (Nat.le_refl _), Nat.sub_self]
  simp

/-- Line 447: taking the pivot out of the range by moving the last element onto it. -/
theorem pivot_out {α : Type} (B : List α) (p n : Nat) (piv last : α) (hp : p < n)
    (hn : n ≤ B.length) (hpiv : B[p]? = some piv) (hlast : B[n - 1]? = some last) :
    (piv :: (B.set p last).take (n - 1)).Perm (B.take n) ∧
      (B.set p last).drop (n - 1) = last :: B.drop n := by
  have hT : B.take n = B.take (n - 1) ++ [last] := by
    have := take_succ_of_getElem? B (n - 1) last hlast
    rw [show n - 1 + 1 = n by omega] at this
    exact this
  have h1 : (B.set p last).take (n - 1) = (B.take (n - 1)).set p last := by
    rw [List.set_take]
  constructor
  · rw [hT, h1]
    by_cases hpn : p = n - 1
    · subst hpn
      rw [hpiv] at hlast
      cases hlast
      rw [List.set_eq_of_length_le (by rw [List.length_take]; omega)]
      exact (List.perm_append_singleton _ _).symm
    · have h2 : (B.take (n - 1))[p]? = some piv := by
        rw [List.getElem?_take_of_lt (by omega)]
        exact hpiv
      exact (set_perm_cons last piv _ p h2).trans (List.perm_append_singleton _ _).symm
  · have hb : n - 1 < (B.set p last).length := by rw [List.length_set]; omega
    have hg : (B.set p last)[n - 1]? = some last := by
      by_cases hpn : p = n - 1
      · subst hpn
        rw [List.getElem?_set_self (by omega)]
      · rw [List.getElem?_set_ne hpn]
        exact hlast
    rw [List.getElem?_eq_getElem hb] at hg
    rw [List.drop_eq_getElem_cons hb, Option.some.inj hg, show n - 1 + 1 = n by omega,
      List.drop_set_of_lt _ _ (by omega)]

/-- Lines 452: `ptp = array + a_size; array[nmemb] = *ptp; *ptp = piv;` puts the pivot
between the two parts and the element it displaces at the end of the right part. -/
theorem put_back {α : Type} (L R D : List α) (last piv : α) :
    ∃ x R', (L ++ R.reverse ++ last :: D)[L.length]? = some x ∧
      ((L ++ R.reverse ++ last :: D).set (L.length + R.length) x).set L.length piv =
        L ++ piv :: (R' ++ D) ∧ R'.Perm R := by
  cases hR : R.reverse with
  | nil =>
    have hR0 : R = [] := by simpa using hR
    subst hR0
    refine ⟨last, [], ?_, ?_, List.Perm.refl _⟩
    · rw [List.append_nil]
      exact getElem?_append_cons L D last
    · rw [List.append_nil, List.length_nil, Nat.add_zero, set_append_cons, set_append_cons]
      rfl
  | cons r0 rs =>
    have hlen : R.length = rs.length + 1 := by
      have := congrArg List.length hR
      simpa using this
    refine ⟨r0, rs ++ [r0], ?_, ?_, ?_⟩
    · rw [List.append_assoc]
      exact getElem?_append_cons L _ r0
    · have e1 : L.length + R.length = (L ++ r0 :: rs).length := by
        rw [List.length_append, List.length_cons, hlen]
      rw [e1, set_append_cons, List.append_assoc, List.cons_append, set_append_cons]
      simp
    · have : (rs ++ [r0]).Perm (r0 :: rs) := List.perm_append_singleton _ _
      exact this.trans (by rw [← hR]; exact List.reverse_perm R)

theorem SortedRange_quadsort {α : Type} (ext : Ext α) (cmp : α → α → Int)
    (hc : TotalPreorder cmp) (hsorts : Sorts ext cmp) (a sw : List α) (m k : Nat) :
    SortedRange cmp a m (splice a 0 m (ext.quadsort_swap (run_at a 0 m) sw k).1) := by
  have hrun : run_at a 0 m = a.take m := by unfold run_at; rw [List.drop_zero]
  refine ⟨(ext.quadsort_swap (run_at a 0 m) sw k).1, ?_, ?_, sorts_pairwise ext cmp hc hsorts _ _ _⟩
  · unfold splice
    rw [List.take_zero, List.nil_append, Nat.zero_add]
  · rw [← hrun]
    exact (hsorts _ _ _).1

/-- Lines 454-461: the right side is sorted, by `quadsort_swap` or by a recursive call. -/
theorem right_side {α : Type} (ext : Ext α) (hin : InPlace ext) (cmp : α → α → Int)
    (addr : Nat → Nat) (swap_size fuel : Nat)
    (ih : ∀ depth (array swap : List α) max nmemb, nmemb < fuel → 65 ≤ nmemb →
      nmemb ≤ array.length → nmemb < 2 ^ 63 → 64 ≤ swap.length →
      PartitionOk ext cmp addr swap_size fuel depth array swap max nmemb)
    (depth : Nat) (L R R' D sw B : List α) (piv : α) (max : Option α) (n : Nat)
    (hR' : R'.Perm R) (hsub : ∀ e, e ∈ R → e ∈ B.take n)
    (hs : 64 ≤ sw.length) (hsz : R.length < 2 ^ 63) (hf : R.length < fuel) :
    Run.Ok
      (fulcrum_right ext (fulcrum_partition ext cmp addr swap_size fuel (depth + 1))
        (L ++ piv :: (R' ++ D)) sw max swap_size L.length R.length)
      (L ++ piv :: (R' ++ D)).length sw.length
      (fun a4 => TotalPreorder cmp → Sorts ext cmp → MaxBound cmp B n max →
        ∃ R'', a4 = L ++ piv :: (R'' ++ D) ∧ R''.Perm R ∧
          R''.Pairwise (fun a b => cmp a b ≤ 0)) := by
  have hX : L ++ piv :: (R' ++ D) = (L ++ [piv]) ++ (R' ++ D) := by simp
  have hl1 : (L ++ [piv]).length = L.length + 1 := by simp
  have hlR : R'.length = R.length := hR'.length_eq
  have htake : (L ++ piv :: (R' ++ D)).take (L.length + 1) = L ++ [piv] := by
    rw [hX, List.take_left' hl1]
  have hdrop : (L ++ piv :: (R' ++ D)).drop (L.length + 1) = R' ++ D := by
    rw [hX, List.drop_left' hl1]
  have hlen : (L ++ piv :: (R' ++ D)).length = L.length + 1 + R.length + D.length := by
    simp only [List.length_append, List.length_cons, hlR]
    omega
  unfold fulcrum_right
  split
  · refine Ok_mono _ _ _ _ _ (Ok_call_quadsort ext hin Site.fulcrum_partition _ sw
      (L.length + 1) swap_size R.length (by rw [hlen]; omega)) ?_
    intro a _ ha hc hsorts _
    subst ha
    have hrun : run_at (L ++ piv :: (R' ++ D)) (L.length + 1) R.length = R' := by
      unfold run_at
      rw [hdrop, List.take_left' hlR]
    have hdrop2 : (L ++ piv :: (R' ++ D)).drop (L.length + 1 + R.length) = D := by
      rw [← List.drop_drop, hdrop, List.drop_left' hlR]
    unfold splice
    rw [hrun, htake, hdrop2]
    exact ⟨(ext.quadsort_swap R' sw swap_size).1, by simp, (hsorts _ _ _).1.trans hR',
      sorts_pairwise ext cmp hc hsorts _ _ _⟩
  · rename_i hcond
    have h96 : 96 < R.length := by
      unfold CRUM_OUT at hcond
      omega
    apply Ok_pre
    have hrec := ih (depth + 1) ((L ++ piv :: (R' ++ D)).drop (L.length + 1)) sw max R.length
      hf (by omega) (by rw [List.length_drop, hlen]; omega) hsz hs
    unfold PartitionOk at hrec
    rw [List.length_drop] at hrec
    refine Ok_mono _ _ _ _ _ (Ok_at_offset (L ++ piv :: (R' ++ D)) (L.length + 1)
      (fun right => fulcrum_partition ext cmp addr swap_size fuel (depth + 1) right sw max
        R.length) sw.length _ (by rw [hlen]; omega) hrec) ?_
    intro a _ ha hc hsorts hmax
    obtain ⟨t, rfl, _, ht⟩ := ha
    have hmax2 : MaxBound cmp ((L ++ piv :: (R' ++ D)).drop (L.length + 1)) R.length max := by
      intro mx hmx e he
      rw [hdrop, List.take_left' hlR] at he
      exact hmax mx hmx e (hsub e (hR'.subset he))
    obtain ⟨S, rfl, hS, sS⟩ := ht hc hsorts hmax2
    rw [hdrop, List.take_left' hlR] at hS
    rw [htake, hdrop, List.drop_left' hlR]
    exact ⟨S, by simp, hS.trans hR', sS⟩

/-- Lines 462-478: the left side is sorted, by `quadsort_swap`, by a reverse partition
or by the next pass with the pivot as `max`. -/
theorem left_side {α : Type} (ext : Ext α) (hin : InPlace ext) (cmp : α → α → Int)
    (addr : Nat → Nat) (swap_size fuel : Nat)
    (ih : ∀ depth (array swap : List α) max nmemb, nmemb < fuel → 65 ≤ nmemb →
      nmemb ≤ array.length → nmemb < 2 ^ 63 → 64 ≤ swap.length →
      PartitionOk ext cmp addr swap_size fuel depth array swap max nmemb)
    (depth : Nat) (a4 sw4 : List α) (piv : α) (m s : Nat)
    (hm : m ≤ a4.length) (hs4 : 64 ≤ sw4.length) (hsz : m < 2 ^ 63) (hf : m < fuel) :
    Run.Ok
      (if s ≤ m / 32 ∨ m ≤ CRUM_OUT then
        if m ≤ CRUM_OUT then
          call_quadsort ext Site.fulcrum_partition a4 sw4 0 swap_size m
        else
          (fulcrum_reverse_partition cmp a4 sw4 piv m).bind fun q2 =>
          let a_size2 := q2.1
          let s_size2 := size_t ((m : Int) - a_size2)
          Run.pre [Call.fulcrum_reverse_partition m]
            (if s_size2 ≤ a_size2 / 32 ∨ a_size2 ≤ CRUM_OUT then
              call_quadsort ext Site.fulcrum_partition q2.2.1 q2.2.2.1 0 swap_size a_size2
            else
              fulcrum_partition ext cmp addr swap_size fuel depth q2.2.1 q2.2.2.1 none a_size2)
      else
        fulcrum_partition ext cmp addr swap_size fuel depth a4 sw4 (some piv) m)
      a4.length sw4.length
      (fun out => TotalPreorder cmp → Sorts ext cmp →
        (∀ e, e ∈ a4.take m → cmp e piv ≤ 0) → SortedRange cmp a4 m out) := by
  split
  · split
    · refine Ok_mono _ _ _ _ _ (Ok_call_quadsort ext hin Site.fulcrum_partition a4 sw4 0
        swap_size m (by omega)) ?_
      intro a _ ha hc hsorts _
      subst ha
      exact SortedRange_quadsort ext cmp hc hsorts a4 sw4 m swap_size
    · rename_i h96
      unfold CRUM_OUT at h96
      exact reverse_pass ext hin cmp addr swap_size fuel ih depth a4 sw4 piv m
        [Call.fulcrum_reverse_partition m] (by omega) hm hsz hs4 (by omega)
  · rename_i hcond
    have h96 : 96 < m := by
      unfold CRUM_OUT at hcond
      omega
    have hrec := ih depth a4 sw4 (some piv) m hf (by omega) hm hsz hs4
    unfold PartitionOk at hrec
    refine Ok_mono _ _ _ _ _ hrec ?_
    intro out _ hout hc hsorts hb
    exact hout hc hsorts (fun mx hmx e he => by cases hmx; exact hb e he)

/-- After a default partition, the sorted left part, the pivot and the sorted right part
make up the sorted range. -/
theorem default_assemble {α : Type} (cmp : α → α → Int) (hc : TotalPreorder cmp) (piv : α)
    (B P T L'' R'' : List α) (n : Nat)
    (hperm : (piv :: T).Perm (B.take n)) (hP : P.Perm T)
    (hL : L''.Perm (P.filter (below cmp piv))) (hR : R''.Perm (P.filter (above cmp piv)))
    (sL : L''.Pairwise (fun a b => cmp a b ≤ 0)) (sR : R''.Pairwise (fun a b => cmp a b ≤ 0)) :
    SortedRange cmp B n (L'' ++ piv :: (R'' ++ B.drop n)) := by
  have hLb : ∀ a, a ∈ L'' → cmp a piv ≤ 0 := fun a ha => (mem_below _ _ _ _ (hL.subset ha)).2
  have hRb : ∀ b, b ∈ R'' → cmp piv b ≤ 0 := by
    intro b hb
    have := (mem_above _ _ _ _ (hR.subset hb)).2
    rcases hc.1 b piv with h | h
    · exact absurd h this
    · exact h
  refine ⟨L'' ++ piv :: R'', by simp, ?_, ?_⟩
  · have h1 : (L'' ++ piv :: R'').Perm (piv :: (L'' ++ R'')) := List.perm_middle
    have h2 : (L'' ++ R'').Perm P := (hL.append hR).trans (below_above_perm _ _ _)
    exact h1.trans (((h2.trans hP).cons piv).trans hperm)
  · rw [List.pairwise_append]
    refine ⟨sL, List.Pairwise.cons hRb sR, ?_⟩
    intro a ha b hb
    rcases List.mem_cons.mp hb with h | h
    · subst h
      exact hLb a ha
    · exact hc.2 _ _ _ (hLb a ha) (hRb b h)

theorem Ok_cast {α : Type} (r : Run α) (a a' s s' : Nat) (Q : List α → Prop) (ha : a = a')
    (hs : s = s') (h : Run.Ok r a s Q) : Run.Ok r a' s' Q := by
  subst ha hs
  exact h

/-- Lines 447-478: the pass that takes the pivot out, runs the default partition, puts
the pivot back and handles the two sides. -/
theorem default_pass {α : Type} (ext : Ext α) (hin : InPlace ext) (cmp : α → α → Int)
    (addr : Nat → Nat) (swap_size fuel : Nat)
    (ih : ∀ depth (array swap : List α) max nmemb, nmemb < fuel → 65 ≤ nmemb →
      nmemb ≤ array.length → nmemb < 2 ^ 63 → 64 ≤ swap.length →
      PartitionOk ext cmp addr swap_size fuel depth array swap max nmemb)
    (depth : Nat) (B sw : List α) (p n : Nat) (piv : α) (max : Option α) (cs : List Call)
    (h65 : 65 ≤ n) (hl : n ≤ B.length) (hsz : n < 2 ^ 63) (hs : 64 ≤ sw.length)
    (hf : n ≤ fuel) (hp : p < n) (hpiv : B[p]? = some piv) :
    Run.Ok
      ((rd B (size_t ((n : Int) - 1))).bind fun last =>
      (wr B p last).bind fun array1 =>
      (fulcrum_default_partition cmp array1 sw piv (size_t ((n : Int) - 1))).bind fun q =>
      (rd q.2.1 q.1).bind fun x =>
      (wr q.2.1 (size_t ((n : Int) - 1)) x).bind fun array2 =>
      (wr array2 q.1 piv).bind fun array3 =>
      Run.pre cs
      (Run.next
        (fulcrum_right ext (fulcrum_partition ext cmp addr swap_size fuel (depth + 1))
          array3 q.2.2.1 max swap_size q.1 (size_t ((size_t ((n : Int) - 1) : Int) - q.1)))
        fun array4 swap4 =>
        if size_t ((size_t ((n : Int) - 1) : Int) - q.1) ≤ q.1 / 32 ∨ q.1 ≤ CRUM_OUT then
          if q.1 ≤ CRUM_OUT then
            call_quadsort ext Site.fulcrum_partition array4 swap4 0 swap_size q.1
          else
            (fulcrum_reverse_partition cmp array4 swap4 piv q.1).bind fun q2 =>
            let a_size2 := q2.1
            let s_size2 := size_t ((q.1 : Int) - a_size2)
            Run.pre [Call.fulcrum_reverse_partition q.1]
              (if s_size2 ≤ a_size2 / 32 ∨ a_size2 ≤ CRUM_OUT then
                call_quadsort ext Site.fulcrum_partition q2.2.1 q2.2.2.1 0 swap_size a_size2
              else
                fulcrum_partition ext cmp addr swap_size fuel depth q2.2.1 q2.2.2.1 none a_size2)
        else
          fulcrum_partition ext cmp addr swap_size fuel depth array4 swap4 (some piv) q.1))
      B.length sw.length
      (fun out => TotalPreorder cmp → Sorts ext cmp → MaxBound cmp B n max →
        SortedRange cmp B n out) := by
  have e1 : size_t ((n : Int) - 1) = n - 1 := by
    have := size_t_nat_sub n 1 (by omega) (by omega)
    simpa using this
  have hlast : B[n - 1]? = some (B[n - 1]) := List.getElem?_eq_getElem (by omega)
  obtain ⟨hpo1, hpo2⟩ := pivot_out B p n piv _ hp hl hpiv hlast
  obtain ⟨P, sw', gaps, hP, hsw', hq⟩ := kernel_default cmp piv (B.set p B[n - 1]) sw (n - 1)
    (by omega) (by rw [List.length_set]; omega) (by omega) hs
  have hsizes := partition_sizes cmp piv P (B.set p B[n - 1]) (n - 1)
    (by rw [List.length_set]; omega) hP
  obtain ⟨x, R', hx, hset, hR'⟩ := put_back (P.filter (below cmp piv))
    (P.filter (above cmp piv)) (B.drop n) B[n - 1] piv
  have hlenX : (P.filter (below cmp piv) ++ piv :: (R' ++ B.drop n)).length = B.length := by
    simp only [List.length_append, List.length_cons, List.length_drop, hR'.length_eq]
    omega
  have hlenY : (P.filter (below cmp piv) ++ (P.filter (above cmp piv)).reverse ++
      B[n - 1] :: B.drop n).length = B.length := by
    simp only [List.length_append, List.length_cons, List.length_drop, List.length_reverse]
    omega
  have e2 : size_t (((n - 1 : Nat) : Int) - ((P.filter (below cmp piv)).length : Int)) =
      (P.filter (above cmp piv)).length := by
    rw [size_t_nat_sub (n - 1) _ (by omega) (by omega)]
    omega
  have e3 : n - 1 = (P.filter (below cmp piv)).length + (P.filter (above cmp piv)).length := by
    omega
  rw [e1, rd_nat, hlast]
  simp only [Option.some_bind, Option.bind_some]
  rw [wr_of_eq B (p : Int) p _ rfl (by omega)]
  simp only [Option.some_bind, Option.bind_some]
  rw [hq]
  simp only [Option.some_bind, Option.bind_some]
  rw [hpo2, e2, rd_nat, hx]
  simp only [Option.some_bind, Option.bind_some]
  rw [wr_of_eq _ ((n - 1 : Nat) : Int) ((P.filter (below cmp piv)).length +
    (P.filter (above cmp piv)).length) _ (by omega) (by rw [hlenY]; omega)]
  simp only [Option.some_bind, Option.bind_some]
  rw [wr_of_eq _ (((P.filter (below cmp piv)).length : Nat) : Int)
    (P.filter (below cmp piv)).length _ rfl (by rw [List.length_set, hlenY]; omega)]
  simp only [Option.some_bind, Option.bind_some]
  rw [hset]
  apply Ok_pre
  apply Ok_cast _ _ _ _ _ _ hlenX hsw'
  have hsubR : ∀ e, e ∈ P.filter (above cmp piv) → e ∈ B.take n := by
    intro e he
    have h1 := (mem_above _ _ _ _ he).1
    exact hpo1.subset (List.mem_cons_of_mem _ (hP.subset h1))
  apply Ok_next _ _ _ _ _ _ (right_side ext hin cmp addr swap_size fuel ih depth
    (P.filter (below cmp piv)) (P.filter (above cmp piv)) R' (B.drop n) sw' B piv max n hR'
    hsubR (by omega) (by omega) (by omega))
  intro a4 sw4 ha4 hs4 hq1
  apply Ok_cast _ _ _ _ _ _ ha4 hs4
  refine Ok_mono _ _ _ _ _ (left_side ext hin cmp addr swap_size fuel ih depth a4 sw4 piv
    (P.filter (below cmp piv)).length (P.filter (above cmp piv)).length
    (by rw [ha4, hlenX]; omega) (by omega) (by omega) (by omega)) ?_
  intro out _ hout hc hsorts hmax
  obtain ⟨R'', rfl, hR'', sR⟩ := hq1 hc hsorts hmax
  have htake : (P.filter (below cmp piv) ++ piv :: (R'' ++ B.drop n)).take
      (P.filter (below cmp piv)).length = P.filter (below cmp piv) := List.take_left' rfl
  have hdrop : (P.filter (below cmp piv) ++ piv :: (R'' ++ B.drop n)).drop
      (P.filter (below cmp piv)).length = piv :: (R'' ++ B.drop n) := List.drop_left' rfl
  obtain ⟨S, rfl, hS, sS⟩ := hout hc hsorts (by
    rw [htake]
    intro e he
    exact (mem_below _ _ _ _ he).2)
  rw [htake] at hS
  rw [hdrop]
  exact default_assemble cmp hc piv B P _ S R'' n hpo1 hP hS hR'' sS sR

theorem Ok_ite {α : Type} (c : Prop) [Decidable c] (A B : Run α) (a s : Nat)
    (Q : List α → Prop) (hA : c → Run.Ok A a s Q) (hB : ¬ c → Run.Ok B a s Q) :
    Run.Ok (if c then A else B) a s Q := by
  split
  · exact hA (by assumption)
  · exact hB (by assumption)

/-- The test `max && cmp(max, &piv) <= 0` of line 436. -/
theorem max_test_iff {α : Type} (cmp : α → α → Int) (max : Option α) (piv : α) :
    ((match max with
      | some mx => decide (cmp mx piv ≤ 0)
      | none => false) = true) ↔ ∃ mx, max = some mx ∧ cmp mx piv ≤ 0 := by
  cases max with
  | none => simp
  | some mx => simp

/-- The partitioner returns for any comparator and, for a total preorder and a
`quadsort_swap` that sorts, leaves its range sorted. -/
theorem fulcrum_partition_spec {α : Type} (ext : Ext α) (hin : InPlace ext)
    (cmp : α → α → Int) (addr : Nat → Nat) (swap_size : Nat) :
    ∀ fuel depth (array swap : List α) max nmemb, nmemb < fuel → 65 ≤ nmemb →
      nmemb ≤ array.length → nmemb < 2 ^ 63 → 64 ≤ swap.length →
      PartitionOk ext cmp addr swap_size fuel depth array swap max nmemb := by
  intro fuel
  induction fuel with
  | zero => intro _ _ _ _ nmemb h; omega
  | succ fuel ih =>
    intro depth array swap max nmemb hf h65 hl hsz hs
    obtain ⟨p, hp, hpn, hpa, hps, hpp⟩ := pivot_spec ext hin cmp (addr depth) array swap
      swap_size nmemb h65 hsz hl (by omega)
    unfold PartitionOk fulcrum_partition
    rw [hp, Option.some_bind]
    apply Ok_cast _ _ _ _ _ _ hpa hps
    have hconv : ∀ out, (TotalPreorder cmp → Sorts ext cmp → MaxBound cmp p.2.2.1 nmemb max →
        SortedRange cmp p.2.2.1 nmemb out) →
        TotalPreorder cmp → Sorts ext cmp → MaxBound cmp array nmemb max →
        SortedRange cmp array nmemb out := by
      intro out h hc hsorts hmax
      have hpr := hpp hsorts
      have hmax2 : MaxBound cmp p.2.2.1 nmemb max := by
        intro mx hmx e he
        exact hmax mx hmx e ((PermRange_take _ _ _ hl hpr).1.subset he)
      exact SortedRange_of_perm cmp array p.2.2.1 out nmemb hl hpr (h hc hsorts hmax2)
    by_cases hg : p.2.1 = true
    · rw [if_pos hg]
      apply Ok_pre
      refine Ok_mono _ _ _ _ _ (Ok_call_quadsort ext hin Site.fulcrum_partition p.2.2.1
        p.2.2.2.1 0 swap_size nmemb (by omega)) ?_
      intro a _ ha
      subst ha
      exact hconv _ (fun hc hsorts _ => SortedRange_quadsort ext cmp hc hsorts _ _ _ _)
    · have hpiv : p.2.2.1[p.1]? = some (p.2.2.1[p.1]) := List.getElem?_eq_getElem (by omega)
      rw [if_neg hg, rd_nat, hpiv, Option.some_bind]
      apply Ok_ite
      · intro h
        obtain ⟨mx, hmx1, hmx2⟩ := (max_test_iff cmp max _).mp h
        refine Ok_mono _ _ _ _ _ (reverse_pass ext hin cmp addr swap_size fuel ih depth
          p.2.2.1 p.2.2.2.1 _ nmemb _ h65 (by omega) hsz (by omega) (by omega)) ?_
        intro out _ hout
        apply hconv
        intro hc hsorts hmax
        apply hout hc hsorts
        intro e he
        exact hc.2 _ _ _ (hmax mx hmx1 e he) hmx2
      · intro _
        refine Ok_mono _ _ _ _ _ (default_pass ext hin cmp addr swap_size fuel ih depth
          p.2.2.1 p.2.2.2.1 p.1 nmemb _ max _ h65 (by omega) hsz (by omega) (by omega) hpn
          hpiv) ?_
        intro out _ hout
        exact hconv out hout

/-! ## The reference collaborators meet their contract -/

theorem insert_sorted_mem {α : Type} (cmp : α → α → Int) (x y : α) (l : List α)
    (h : y ∈ insert_sorted cmp x l) : y = x ∨ y ∈ l := by
  have := (insert_sorted_perm cmp x l).subset h
  simpa using this

theorem insert_sorted_pairwise {α : Type} (cmp : α → α → Int) (hc : TotalPreorder cmp)
    (x : α) : ∀ (l : List α), l.Pairwise (fun a b => cmp a b ≤ 0) →
      (insert_sorted cmp x l).Pairwise (fun a b => cmp a b ≤ 0) := by
  intro l
  induction l with
  | nil => intro _; simp [insert_sorted]
  | cons y ys ih =>
    intro h
    rw [List.pairwise_cons] at h
    unfold insert_sorted
    split
    · rename_i hxy
      refine List.Pairwise.cons ?_ (List.Pairwise.cons h.1 h.2)
      intro b hb
      rcases List.mem_cons.mp hb with hb1 | hb1
      · subst hb1; exact hxy
      · exact hc.2 _ _ _ hxy (h.1 b hb1)
    · rename_i hxy
      have hyx : cmp y x ≤ 0 := by
        rcases hc.1 y x with h1 | h1
        · exact h1
        · exact absurd h1 hxy
      refine List.Pairwise.cons ?_ (ih h.2)
      intro b hb
      rcases insert_sorted_mem cmp x b ys hb with hb1 | hb1
      · subst hb1; exact hyx
      · exact h.1 b hb1

theorem insertion_sort_pairwise {α : Type} (cmp : α → α → Int) (hc : TotalPreorder cmp) :
    ∀ (l : List α), (insertion_sort cmp l).Pairwise (fun a b => cmp a b ≤ 0) := by
  intro l
  induction l with
  | nil => exact List.Pairwise.nil
  | cons x xs ih => exact insert_sorted_pairwise cmp hc x _ ih

theorem reference_ext_in_place {α : Type} (cmp : α → α → Int) : InPlace (reference_ext cmp) :=
  ⟨fun r _ _ => ⟨(insertion_sort_perm cmp r).length_eq, rfl⟩,
   fun r _ _ _ _ => ⟨(insertion_sort_perm cmp r).length_eq, rfl⟩⟩

theorem reference_ext_sorts {α : Type} (cmp : α → α → Int) (hc : TotalPreorder cmp) :
    Sorts (reference_ext cmp) cmp := by
  intro r s k
  refine ⟨insertion_sort_perm cmp r, ?_⟩
  have := ascending_of_pairwise cmp (insertion_sort cmp r) [] (insertion_sort_pairwise cmp hc r)
  rw [List.append_nil, (insertion_sort_perm cmp r).length_eq] at this
  exact this

/-! ## The partitioner terminates and sorts -/

/-- C13: for `nmemb >= 65` (below `2 ^ 63`), any array holding the range, a scratch buffer
of `swap_size >= 64` slots, any comparator and any `quadsort_swap` that returns (in
place), `fulcrum_partition` returns: `nmemb + 1` units of fuel suffice, one per pass of
the outer loop and per recursive call, each of which is on a strictly smaller `nmemb`. -/
theorem fulcrum_partition_terminates {α : Type} (ext : Ext α) (hin : InPlace ext)
    (cmp : α → α → Int) (addr : Nat → Nat) (swap_size depth : Nat) (array swap : List α)
    (max : Option α) (nmemb : Nat) (h65 : 65 ≤ nmemb) (hl : nmemb ≤ array.length)
    (hsz : nmemb < 2 ^ 63) (hs : swap.length = swap_size) (h64 : 64 ≤ swap_size) :
    ∃ r, fulcrum_partition ext cmp addr swap_size (nmemb + 1) depth array swap max nmemb =
        some r ∧ r.1.length = array.length ∧ r.2.1.length = swap.length := by
  obtain ⟨r, hr, ha, hsw, _⟩ := fulcrum_partition_spec ext hin cmp addr swap_size (nmemb + 1)
    depth array swap max nmemb (by omega) h65 hl hsz (by omega)
  exact ⟨r, hr, ha, hsw⟩

theorem fulcrum_partition_terminates_witness :
    (InPlace (reference_ext (fun (_ _ : Nat) => (1 : Int))) ∧ 65 ≤ 65 ∧
      65 ≤ (one_inversion 65).length ∧ 65 < 2 ^ 63 ∧ (List.replicate 64 0).length = 64 ∧
      64 ≤ 64) ∧
    ∃ r, fulcrum_partition (reference_ext (fun (_ _ : Nat) => (1 : Int))) (fun _ _ => 1)
        (fun _ => 0) 64 (65 + 1) 0 (one_inversion 65) (List.replicate 64 0) none 65 = some r ∧
      r.1.length = (one_inversion 65).length ∧
      r.2.1.length = (List.replicate 64 0).length :=
  ⟨⟨reference_ext_in_place _, by decide, by decide, by decide, by decide, by decide⟩,
   fulcrum_partition_terminates (reference_ext (fun (_ _ : Nat) => (1 : Int)))
     (reference_ext_in_place _) (fun _ _ => 1) (fun _ => 0) 64 0 (one_inversion 65)
     (List.replicate 64 0) none 65 (by decide) (by decide) (by decide) (by decide)
     (by decide)⟩

/-- C12: for `nmemb >= 65` (below `2 ^ 63`), a scratch buffer of `swap_size >= 64` slots,
a total preorder, any sampling offsets and a `quadsort_swap` that sorts and permutes in
place, `fulcrum_partition(array, swap, NULL, swap_size, nmemb, cmp)` returns with
`array[0 .. nmemb)` sorted ascending and a permutation of its input, and the rest of
the array untouched. -/
theorem fulcrum_partition_sorts {α : Type} (ext : Ext α) (hin : InPlace ext)
    (cmp : α → α → Int) (hc : TotalPreorder cmp) (hsorts : Sorts ext cmp) (addr : Nat → Nat)
    (swap_size depth : Nat) (array swap : List α) (nmemb : Nat) (h65 : 65 ≤ nmemb)
    (hl : nmemb ≤ array.length) (hsz : nmemb < 2 ^ 63) (hs : swap.length = swap_size)
    (h64 : 64 ≤ swap_size) :
    ∃ r, fulcrum_partition ext cmp addr swap_size (nmemb + 1) depth array swap none nmemb =
        some r ∧ ascending_on cmp r.1 0 nmemb ∧ (r.1.take nmemb).Perm (array.take nmemb) ∧
      r.1.drop nmemb = array.drop nmemb := by
  obtain ⟨r, hr, _, _, hq⟩ := fulcrum_partition_spec ext hin cmp addr swap_size (nmemb + 1)
    depth array swap none nmemb (by omega) h65 hl hsz (by omega)
  obtain ⟨S, hS, hperm, hsorted⟩ := hq hc hsorts (fun mx h => by cases h)
  have hlen : S.length = nmemb := by rw [hperm.length_eq, List.length_take]; omega
  refine ⟨r, hr, ?_, ?_, ?_⟩
  · have := ascending_of_pairwise cmp S (array.drop nmemb) hsorted
    rw [hlen, ← hS] at this
    exact this
  · rw [hS, List.take_left' hlen]
    exact hperm
  · rw [hS, List.drop_left' hlen]

theorem fulcrum_partition_sorts_witness :
    (InPlace (reference_ext nat_cmp) ∧ TotalPreorder nat_cmp ∧
      Sorts (reference_ext nat_cmp) nat_cmp ∧ 65 ≤ 65 ∧ 65 ≤ (one_inversion 65).length ∧
      65 < 2 ^ 63 ∧ (List.replicate 64 0).length = 64 ∧ 64 ≤ 64) ∧
    ∃ r, fulcrum_partition (reference_ext nat_cmp) nat_cmp (fun _ => 0) 64 (65 + 1) 0
        (one_inversion 65) (List.replicate 64 0) none 65 = some r ∧
      ascending_on nat_cmp r.1 0 65 ∧ (r.1.take 65).Perm ((one_inversion 65).take 65) ∧
      r.1.drop 65 = (one_inversion 65).drop 65 :=
  ⟨⟨reference_ext_in_place _, nat_cmp_total_preorder,
      reference_ext_sorts nat_cmp nat_cmp_total_preorder, by decide, by decide, by decide,
      by decide, by decide⟩,
   fulcrum_partition_sorts (reference_ext nat_cmp) (reference_ext_in_place _) nat_cmp
     nat_cmp_total_preorder (reference_ext_sorts nat_cmp nat_cmp_total_preorder) (fun _ => 0)
     64 0 (one_inversion 65) (List.replicate 64 0) 65 (by decide) (by decide) (by decide)
     (by decide) (by decide)⟩

end Crumsort
